import Mathlib

/-!
# Retrieval evaluation engine of the Princeton Shape Benchmark utilities

A shallow embedding of `psbTable.cpp` and `psbPlot.cpp`
(`Content/Shapes/Original/Extra/Princeton/util`).

Conventions of the embedding.

* The program's static variables (`_categories`, `_numModels`, `_idToClass`,
  `_ranks`) are passed explicitly to every function that reads them.
* Dissimilarity values are elements of a linear order `α` (floats without NaN,
  compared by `==` and `<`); computed scores are exact rationals: the rounding
  of the arithmetic operations is not modelled. The one explicit conversion
  `(float)` of a `double`, that of the gains in `calcDCG`, is the parameter
  `toFloat`.
* A float division by zero yields an infinity or a NaN. Where the code goes on
  computing with such a value (`calcEF`), the values are those of `FloatVal`
  and the computation is followed to its end; elsewhere `fdiv` returns `none`
  there. A function that can store or print a value that is not a number
  returns an `Option`, `none` recording that it did.
* A division whose divisor is a nonzero constant, or is guarded to be nonzero
  by the code in front of it, is written with the plain division of `ℚ`.
* C arrays are lists; a read outside the list yields `0`.
* `log10` (libm), `FLT_MAX` (`float.h`) and `MISC_CLASS` (`PSBClaParse.h`) are
  not part of the sources and are parameters.
-/

namespace PSB

/-! ## Data model -/

/-- Struct `Rank`: original model position and dissimilarity value. -/
structure Rank (α : Type) where
  _index : Nat
  _value : α
deriving DecidableEq, Repr

/-- Struct `PSBCategory` as used by the utilities: name, display name, declared
member count and member identifiers. -/
structure PSBCategory where
  _name : String
  _fullName : String
  _numModels : Nat
  _models : List String
deriving DecidableEq, Repr

/-- Struct `PSBCategoryList`; `_numCategories` is the length of the array. -/
structure PSBCategoryList where
  _categories : List PSBCategory
deriving DecidableEq, Repr

/-- Field `_numCategories` of the category list. -/
def PSBCategoryList._numCategories (cats : PSBCategoryList) : Nat :=
  cats._categories.length

/-- Expression `_categories->_categories[c]->_numModels`. -/
def PSBCategoryList.numModelsOf (cats : PSBCategoryList) (c : Nat) : Nat :=
  match cats._categories[c]? with
  | some cat => cat._numModels
  | none => 0

/-- Expression `_categories->_categories[c]->_name`. -/
def PSBCategoryList.nameOf (cats : PSBCategoryList) (c : Nat) : String :=
  match cats._categories[c]? with
  | some cat => cat._name
  | none => ""

/-- Struct `Table` of psbTable.cpp. -/
structure Table where
  _num : Nat
  _nn : ℚ
  _firstTier : ℚ
  _secondTier : ℚ
  _dcg : ℚ
  _e : ℚ
deriving DecidableEq, Repr

/-- Struct `Perf` of psbPlot.cpp: `_num` entries of `_perf`. -/
structure Perf where
  _num : Nat
  _perf : List ℚ
deriving DecidableEq, Repr

/-- The value of `FLT_MAX` for IEEE single precision, `(2^24 - 1) * 2^104`. -/
def FLT_MAX : ℚ := 340282346638528859811704183484516925440

/-- Cutoff `CUTOFF` (both programs). -/
def CUTOFF : Nat := 2

/-- Cutoff `K` of psbTable.cpp, the depth of the E-measure. -/
def K : Nat := 32

/-! ## Control flow and arithmetic helpers -/

/-- Loop `for (i = lo; i < hi; ++i) s = body(s, i)`. -/
def forLoop {σ : Type} (lo hi : Nat) (body : σ → Nat → σ) (init : σ) : σ :=
  (List.range' lo (hi - lo)).foldl body init

/-- Loop `for (i = lo; i < hi; ++i)` whose body may fail. -/
def forLoopM {σ : Type} (lo hi : Nat) (body : σ → Nat → Option σ) (init : σ) : Option σ :=
  (List.range' lo (hi - lo)).foldl (fun s i => s.bind (fun t => body t i)) (some init)

/-- Float division; `none` when the divisor is zero (the quotient is then an
infinity or a NaN). -/
def fdiv (a b : ℚ) : Option ℚ :=
  if b = 0 then none else some (a / b)

/-- A value of type `float` in a computation that goes on after a division by
zero: a number, an infinity or a NaN. A zero is the positive zero. -/
inductive FloatVal where
  | fin (q : ℚ)
  | posInf
  | negInf
  | nan
deriving DecidableEq, Repr

/-- Float division `a / b`: a nonzero number over zero is an infinity, zero over
zero and an infinity over an infinity are NaN, a number over an infinity is
zero. -/
def FloatVal.div : FloatVal → FloatVal → FloatVal
  | .fin x, .fin y =>
    if y ≠ 0 then .fin (x / y)
    else if x = 0 then .nan
    else if 0 < x then .posInf
    else .negInf
  | .fin _, .posInf => .fin 0
  | .fin _, .negInf => .fin 0
  | .posInf, .fin y => if 0 ≤ y then .posInf else .negInf
  | .negInf, .fin y => if 0 ≤ y then .negInf else .posInf
  | _, _ => .nan

/-- Float addition `a + b`: infinities of opposite sign add to NaN. -/
def FloatVal.add : FloatVal → FloatVal → FloatVal
  | .fin x, .fin y => .fin (x + y)
  | .fin _, .posInf => .posInf
  | .posInf, .fin _ => .posInf
  | .posInf, .posInf => .posInf
  | .fin _, .negInf => .negInf
  | .negInf, .fin _ => .negInf
  | .negInf, .negInf => .negInf
  | _, _ => .nan

/-- Comparison `a == 0`: false for an infinity and for a NaN. -/
def FloatVal.isZero : FloatVal → Bool
  | .fin x => decide (x = 0)
  | _ => false

/-! ## Ranking: `compareRanks`, `qsort`, `readMatrix` -/

/-- Function `compareRanks` (identical in psbTable.cpp and psbPlot.cpp): equal
values are ordered by model position, otherwise the smaller value comes first. -/
def compareRanks {α : Type} [LinearOrder α] (r1 r2 : Rank α) : Int :=
  if r1._value = r2._value then (if r1._index < r2._index then -1 else 1)
  else if r1._value < r2._value then -1
  else 1

/-- Insertion step of the sorting model: `a` goes in front of the first element
it compares below. -/
def qsortInsert {β : Type} (cmp : β → β → Int) (a : β) : List β → List β
  | [] => [a]
  | b :: l => if cmp a b < 0 then a :: b :: l else b :: qsortInsert cmp a l

/-- Library routine `qsort` with comparison function `cmp`, modelled by
insertion sort. -/
def qsort {β : Type} (cmp : β → β → Int) : List β → List β
  | [] => []
  | a :: l => qsortInsert cmp a (qsort cmp l)

/-- The output contract of `qsort`: every earlier element compares `≤ 0` with
every later one. -/
def SortedBy {β : Type} (cmp : β → β → Int) (l : List β) : Prop :=
  l.Pairwise (fun a b => cmp a b ≤ 0)

/-- The inner loop of `readMatrix`: row `i` of the matrix, entry `j` recording
position `j` and the value read for `(i, j)`. -/
def readRow {α : Type} (numModels : Nat) (matrix : Nat → Nat → α) (i : Nat) : List (Rank α) :=
  (List.range numModels).map (fun j => { _index := j, _value := matrix i j })

/-- Assignment `row[i]._value = v`. -/
def setValue {α : Type} (row : List (Rank α)) (i : Nat) (v : α) : List (Rank α) :=
  match row[i]? with
  | some r => row.set i { r with _value := v }
  | none => row

end PSB

namespace PSB.psbPlot

open PSB

/-- Function `readMatrix` of psbPlot.cpp: every row is read and sorted. -/
def readMatrix {α : Type} [LinearOrder α] (numModels : Nat) (matrix : Nat → Nat → α) :
    List (List (Rank α)) :=
  (List.range numModels).map (fun i => qsort compareRanks (readRow numModels matrix i))

end PSB.psbPlot

namespace PSB.psbTable

open PSB

/-- Row `i` of `_ranks` after `readMatrix` of psbTable.cpp: the row is read, the
diagonal entry is overwritten with `FLT_MAX`, then the row is sorted. -/
def readMatrixRow {α : Type} [LinearOrder α] (fltMax : α) (numModels : Nat)
    (matrix : Nat → Nat → α) (i : Nat) : List (Rank α) :=
  qsort compareRanks (setValue (readRow numModels matrix i) i fltMax)

/-- Function `readMatrix` of psbTable.cpp. -/
def readMatrix {α : Type} [LinearOrder α] (fltMax : α) (numModels : Nat)
    (matrix : Nat → Nat → α) : List (List (Rank α)) :=
  (List.range numModels).map (fun i => readMatrixRow fltMax numModels matrix i)

end PSB.psbTable

namespace PSB

/-! ## Model index: `createModelClassMapping` -/

/-- Function `createModelClassMapping` (the same loops in psbTable.cpp and
psbPlot.cpp): `_numModels` is the sum of the declared member counts, and
`_idToClass` is filled position by position with the index of the category; the
array is the list of the entries written so far, `idNum` its length. The final
`assert(idNum == _numModels)` makes the result `none` when it fails. -/
def createModelClassMapping (cats : PSBCategoryList) : Option (Nat × List Nat) :=
  let numCategory := cats._numCategories
  let numModels := forLoop 0 numCategory (fun n i => n + cats.numModelsOf i) 0
  let idToClass := forLoop 0 numCategory
    (fun ids i => forLoop 0 (cats.numModelsOf i) (fun ids2 _ => ids2 ++ [i]) ids) []
  if idToClass.length = numModels then some (numModels, idToClass) else none

/-- Expression `_ranks[model][i]._index`. -/
def rankIndex {α : Type} (ranks : List (List (Rank α))) (model i : Nat) : Nat :=
  match (ranks.getD model [])[i]? with
  | some r => r._index
  | none => 0

/-- Expression `_idToClass[_ranks[model][i]._index]`. -/
def rankClass {α : Type} (idToClass : List Nat) (ranks : List (List (Rank α)))
    (model i : Nat) : Nat :=
  idToClass.getD (rankIndex ranks model i) 0

end PSB

namespace PSB.psbTable

open PSB

/-- Function `calcTableTier`: nearest neighbour, first tier and second tier of
one model, written into its entry `table` of `_modelTable`. -/
def calcTableTier {α : Type} (cats : PSBCategoryList) (numModels : Nat) (idToClass : List Nat)
    (ranks : List (List (Rank α))) (model : Nat) (table : Table) : Option Table :=
  let firstTier := cats.numModelsOf (idToClass.getD model 0) - 1
  let secondTier := if firstTier * 2 < numModels then firstTier * 2 else numModels - 1
  let table := { table with
    _nn := if rankClass idToClass ranks model 0 = idToClass.getD model 0 then 1 else 0 }
  if firstTier = 0 then
    some { table with _firstTier := 0, _secondTier := 0 }
  else
    let count : Nat := forLoop 0 firstTier
      (fun c i => if rankClass idToClass ranks model i = idToClass.getD model 0 then c + 1 else c) 0
    (fdiv count firstTier).bind fun ft =>
    let table := { table with _firstTier := ft }
    let count : Nat := forLoop firstTier secondTier
      (fun c i => if rankClass idToClass ranks model i = idToClass.getD model 0 then c + 1 else c)
      count
    (fdiv count firstTier).bind fun st =>
    some { table with _secondTier := st }

/-- Function `log2` of psbTable.cpp: `log10(input)/0.3010299957`. -/
def log2 (log10 : ℚ → ℚ) (input : ℚ) : ℚ :=
  log10 input / (3010299957 / 10000000000)

/-- Function `calcDCG`: the discounted cumulative gain of one model, normalised
by the gain of `classSize` leading correct entries. Every gain
`1 / log2(i+1)` is computed in `double` and converted by `(float)` before it is
added: `toFloat` is that conversion. -/
def calcDCG {α : Type} (log10 toFloat : ℚ → ℚ) (cats : PSBCategoryList) (numModels : Nat)
    (idToClass : List Nat) (ranks : List (List (Rank α))) (model : Nat) (table : Table) :
    Option Table :=
  let correctClass := idToClass.getD model 0
  let classSize := cats.numModelsOf correctClass - 1
  let total : ℚ := if rankClass idToClass ranks model 0 = correctClass then 1 else 0
  (forLoopM 1 (numModels - 1)
    (fun t i =>
      if rankClass idToClass ranks model i = correctClass then
        (fdiv 1 (log2 log10 ((i + 1 : Nat) : ℚ))).bind fun g => some (t + toFloat g)
      else some t) total).bind fun total =>
  (forLoopM 1 classSize
    (fun m i => (fdiv 1 (log2 log10 ((i + 1 : Nat) : ℚ))).bind fun g => some (m + toFloat g))
    (1 : ℚ)).bind fun max =>
  (fdiv total max).bind fun dcg =>
  some { table with _dcg := dcg }

/-- Function `calcEF`: the E-measure of one model at depth `K`. `recall` and
`precision` are float quotients whose divisor can be zero, so they are values of
`FloatVal`; the result is `none` when the value stored in `_e` is not a
number. -/
def calcEF {α : Type} (cats : PSBCategoryList) (numModels : Nat) (idToClass : List Nat)
    (ranks : List (List (Rank α))) (model : Nat) (table : Table) : Option Table :=
  let kPosition := if numModels - 1 < K then numModels - 1 else K
  let correctClass := idToClass.getD model 0
  let classSize := cats.numModelsOf correctClass - 1
  let count : Nat := forLoop 0 kPosition
    (fun c i => if rankClass idToClass ranks model i = correctClass then c + 1 else c) 0
  let recallV := FloatVal.div (.fin (count : ℚ)) (.fin (classSize : ℚ))
  let precisionV := FloatVal.div (.fin (count : ℚ)) (.fin (kPosition : ℚ))
  if recallV.isZero = true ∨ precisionV.isZero = true then
    some { table with _e := 0 }
  else
    match FloatVal.div (.fin 2)
        (FloatVal.add (FloatVal.div (.fin 1) recallV) (FloatVal.div (.fin 1) precisionV)) with
    | .fin e => some { table with _e := e }
    | _ => none

end PSB.psbTable

namespace PSB.psbPlot

open PSB

/-- The ways the curve construction of `calcModelPerf` can go wrong: a write
past the end of the `cSize` entries of `_perf`, or the final
`if(count!=cSize) assert(0)`. -/
inductive Fault where
  | bufferOverflow
  | assertFailed
deriving DecidableEq, Repr

/-- Body of the inner loop of `calcModelPerf` for rank position `i`: when the
ranked model is of the query's class, `_perf[count]` receives
`(count+1)/(i+1)`; the buffer is the list of the values written so far and
`count` is its length. -/
def perfStep {α : Type} (idToClass : List Nat) (ranks : List (List (Rank α)))
    (modelIndex cSize : Nat) (perf : List ℚ) (i : Nat) : Except Fault (List ℚ) :=
  if idToClass.getD modelIndex 0 = rankClass idToClass ranks modelIndex i then
    if perf.length < cSize then
      .ok (perf ++ [((perf.length + 1 : Nat) : ℚ) / ((i + 1 : Nat) : ℚ)])
    else .error .bufferOverflow
  else .ok perf

/-- One iteration of the outer loop of `calcModelPerf` (compiled with
`USE_QUERY` set to 1) for a model that is not of the miscellaneous class: the
precision values of the model, `cSize = classSize` of them. -/
def calcModelPerfModel {α : Type} (cats : PSBCategoryList) (numModels : Nat)
    (idToClass : List Nat) (ranks : List (List (Rank α))) (modelIndex : Nat) :
    Except Fault Perf :=
  let classIndex := idToClass.getD modelIndex 0
  let classSize := cats.numModelsOf classIndex
  let cSize := classSize
  match (List.range' 0 numModels).foldl
      (fun (s : Except Fault (List ℚ)) i =>
        s.bind (fun perf => perfStep idToClass ranks modelIndex cSize perf i)) (.ok []) with
  | .error f => .error f
  | .ok perf =>
    if perf.length ≠ cSize then .error .assertFailed
    else .ok { _num := cSize, _perf := perf }

/-- Function `calcModelPerf`: the precision-recall values of every model;
models of the miscellaneous class get `_num = 0`. -/
def calcModelPerf {α : Type} (miscClass : String) (cats : PSBCategoryList) (numModels : Nat)
    (idToClass : List Nat) (ranks : List (List (Rank α))) : Except Fault (List Perf) :=
  (List.range' 0 numModels).foldl
    (fun (s : Except Fault (List Perf)) modelIndex =>
      s.bind (fun acc =>
        if cats.nameOf (idToClass.getD modelIndex 0) = miscClass then
          .ok (acc ++ [{ _num := 0, _perf := [] }])
        else
          (calcModelPerfModel cats numModels idToClass ranks modelIndex).bind
            (fun p => .ok (acc ++ [p])))) (.ok [])

end PSB.psbPlot

namespace PSB

/-- Three categories: two classes of 3 and 2 models and a one-model `misc`. -/
def exCats : PSBCategoryList :=
  { _categories := [
      { _name := "a", _fullName := "a", _numModels := 3, _models := ["0", "1", "2"] },
      { _name := "b", _fullName := "b", _numModels := 2, _models := ["3", "4"] },
      { _name := "misc", _fullName := "misc", _numModels := 1, _models := ["5"] }] }

/-! ## Specification-side quantities and example data -/

/-- Specification: the number of entries among the first `n` entries of the
ranking of `model` whose class equals the class of `model`. -/
def correctCount {α : Type} (idToClass : List Nat) (ranks : List (List (Rank α)))
    (model n : Nat) : Nat :=
  (List.range n).countP
    (fun i => decide (rankClass idToClass ranks model i = idToClass.getD model 0))

/-- Specification: the gain of the 1-indexed rank `r`, `1` for rank 1 and
`1/log2(r)`, converted to `float`, beyond. -/
def gain (log10 toFloat : ℚ → ℚ) (r : Nat) : ℚ :=
  if r = 1 then 1 else toFloat (1 / psbTable.log2 log10 ((r : Nat) : ℚ))

/-- Specification: the sum of `gain r` over the 1-indexed ranks `r` in `1..N-1`
whose model shares the class of the query `model`. -/
def totalGain {α : Type} (log10 toFloat : ℚ → ℚ) (idToClass : List Nat)
    (ranks : List (List (Rank α))) (model N : Nat) : ℚ :=
  (((List.range' 1 (N - 1)).filter
      (fun r => decide (rankClass idToClass ranks model (r - 1) = idToClass.getD model 0))).map
    (gain log10 toFloat)).sum

/-- Specification, as the claim words it: `1 + Σ_{r=2}^{classSize-1} 1/log2(r)`. -/
def idealDcgClaimed (log10 toFloat : ℚ → ℚ) (classSize : Nat) : ℚ :=
  1 + ((List.range' 2 (classSize - 2)).map (fun r => gain log10 toFloat r)).sum

/-- Specification, amended: `1 + Σ_{r=2}^{classSize} 1/log2(r)`, the gain of
`classSize` leading correct entries. -/
def idealDcg (log10 toFloat : ℚ → ℚ) (classSize : Nat) : ℚ :=
  1 + ((List.range' 2 (classSize - 1)).map (fun r => gain log10 toFloat r)).sum

/-- Specification: the E-measure of `count` correct entries among the first `k`
for a class with `classSize` other members, `recall = count / classSize` and
`precision = count / k`: `0` if either is zero, else
`2 / (1/recall + 1/precision)`. -/
def eMeasure (count classSize k : Nat) : ℚ :=
  if (count : ℚ) / (classSize : ℚ) = 0 ∨ (count : ℚ) / (k : ℚ) = 0 then 0
  else 2 / (1 / ((count : ℚ) / (classSize : ℚ)) + 1 / ((count : ℚ) / (k : ℚ)))

/-- The position-to-class table of `exCats`. -/
def exIds : List Nat := [0, 0, 0, 1, 1, 2]

/-- A stand-in for `log10` on the integers `2..10`: the value cut after five
decimals, constant beyond. -/
def exLog10 (x : ℚ) : ℚ :=
  if x ≤ 2 then 30102 / 100000
  else if x ≤ 3 then 47712 / 100000
  else if x ≤ 4 then 60206 / 100000
  else if x ≤ 5 then 69897 / 100000
  else if x ≤ 6 then 77815 / 100000
  else if x ≤ 7 then 84510 / 100000
  else if x ≤ 8 then 90309 / 100000
  else if x ≤ 9 then 95424 / 100000
  else 1

/-- A stand-in for the conversion `(float)`: rounding to the nearest multiple of
`1/1024`. -/
def exToFloat (x : ℚ) : ℚ :=
  ((⌊x * 1024 + 1 / 2⌋ : Int) : ℚ) / 1024

/-- A 2 x 2 matrix whose off-diagonal entries are `FLT_MAX`. -/
def exMatrixTie : Nat → Nat → ℚ := fun i j => if i = j then 0 else FLT_MAX

/-- A 3 x 3 matrix of small dissimilarities `|i - j|`. -/
def exMatrixSmall : Nat → Nat → ℚ := fun i j => ((i - j : Nat) : ℚ) + ((j - i : Nat) : ℚ)

/-- Two classes of two models each. -/
def exCatsPairs : PSBCategoryList :=
  { _categories := [
      { _name := "a", _fullName := "a", _numModels := 2, _models := ["0", "1"] },
      { _name := "b", _fullName := "b", _numModels := 2, _models := ["2", "3"] }] }

/-- A 4 x 4 matrix for `exCatsPairs`: dissimilarity 1 inside a class and
`FLT_MAX` across classes. -/
def exMatrixFar : Nat → Nat → ℚ :=
  fun i j => if i = j then 0 else if i / 2 = j / 2 then 1 else FLT_MAX

/-- A 6 x 6 matrix for `exCats`: dissimilarity 1 inside a class and 10 across
classes. -/
def exMatrixClasses : Nat → Nat → ℚ :=
  fun i j => if exIds.getD i 0 = exIds.getD j 0 then 1 else 10

/-- Rankings for `exCatsPairs` with the query last and the other member of its
class at rank 2. -/
def exRanksPairs : List (List (Rank ℚ)) :=
  [ [⟨2, 1⟩, ⟨1, 2⟩, ⟨3, 3⟩, ⟨0, FLT_MAX⟩],
    [⟨2, 1⟩, ⟨0, 2⟩, ⟨3, 3⟩, ⟨1, FLT_MAX⟩],
    [⟨0, 1⟩, ⟨3, 2⟩, ⟨1, 3⟩, ⟨2, FLT_MAX⟩],
    [⟨0, 1⟩, ⟨2, 2⟩, ⟨1, 3⟩, ⟨3, FLT_MAX⟩] ]

/-- A class of two models followed by a class with a single model. -/
def exCatsSingle : PSBCategoryList :=
  { _categories := [
      { _name := "a", _fullName := "a", _numModels := 2, _models := ["0", "1"] },
      { _name := "s", _fullName := "s", _numModels := 1, _models := ["2"] }] }

/-- Rankings of the six models of `exCats`, each a permutation of the
positions with the query in the last place. -/
def exRanks : List (List (Rank ℚ)) :=
  [ [⟨1, 1⟩, ⟨3, 2⟩, ⟨2, 3⟩, ⟨4, 4⟩, ⟨5, 5⟩, ⟨0, FLT_MAX⟩],
    [⟨0, 1⟩, ⟨2, 2⟩, ⟨3, 3⟩, ⟨4, 4⟩, ⟨5, 5⟩, ⟨1, FLT_MAX⟩],
    [⟨3, 1⟩, ⟨4, 2⟩, ⟨0, 3⟩, ⟨1, 4⟩, ⟨5, 5⟩, ⟨2, FLT_MAX⟩],
    [⟨4, 1⟩, ⟨0, 2⟩, ⟨1, 3⟩, ⟨2, 4⟩, ⟨5, 5⟩, ⟨3, FLT_MAX⟩],
    [⟨0, 1⟩, ⟨3, 2⟩, ⟨1, 3⟩, ⟨2, 4⟩, ⟨5, 5⟩, ⟨4, FLT_MAX⟩],
    [⟨0, 1⟩, ⟨1, 2⟩, ⟨2, 3⟩, ⟨3, 4⟩, ⟨4, 5⟩, ⟨5, FLT_MAX⟩] ]

/-- The all-zero table entry left by `memset`. -/
def zeroTable : Table :=
  { _num := 0, _nn := 0, _firstTier := 0, _secondTier := 0, _dcg := 0, _e := 0 }

/-! ## Tables per model and per class, averages (psbTable.cpp) -/

/-- One iteration of the loop of `calcModelTable`, for model `i`: a model of the
miscellaneous class keeps the zeroed entry with `_num = 0`; any other model gets
`_num` set to its class size and its scores from `calcTableTier`, `calcDCG` and
`calcEF`. -/
def psbTable.calcModelTableModel {α : Type} (miscClass : String) (log10 toFloat : ℚ → ℚ)
    (cats : PSBCategoryList) (numModels : Nat) (idToClass : List Nat)
    (ranks : List (List (Rank α))) (i : Nat) : Option Table :=
  let classIndex := idToClass.getD i 0
  if cats.nameOf classIndex = miscClass then
    some { zeroTable with _num := 0 }
  else
    let table := { zeroTable with _num := cats.numModelsOf classIndex }
    (psbTable.calcTableTier cats numModels idToClass ranks i table).bind fun table =>
    (psbTable.calcDCG log10 toFloat cats numModels idToClass ranks i table).bind fun table =>
    psbTable.calcEF cats numModels idToClass ranks i table

/-- Function `calcModelTable`: the entries of `_modelTable`, one per model; an
entry is `none` when one of the scores of that model is not a number. -/
def psbTable.calcModelTable {α : Type} (miscClass : String) (log10 toFloat : ℚ → ℚ)
    (cats : PSBCategoryList) (numModels : Nat) (idToClass : List Nat)
    (ranks : List (List (Rank α))) : List (Option Table) :=
  forLoop 0 numModels
    (fun acc i =>
      acc ++ [psbTable.calcModelTableModel miscClass log10 toFloat cats numModels idToClass
        ranks i]) []

/-- The inner loop of `calcClassTable` for a class of `classSize` models: the
five scores of `_modelTable[modelCount]` are added to the class entry and
`modelCount` advances, `classSize` times. -/
def psbTable.classSumLoop (modelTable : List Table) (classSize : Nat)
    (table : Table) (modelCount : Nat) : Table × Nat :=
  forLoop 0 classSize
    (fun (s : Table × Nat) _ =>
      let mt := modelTable.getD s.2 zeroTable
      ({ s.1 with
          _nn := s.1._nn + mt._nn
          _firstTier := s.1._firstTier + mt._firstTier
          _secondTier := s.1._secondTier + mt._secondTier
          _dcg := s.1._dcg + mt._dcg
          _e := s.1._e + mt._e }, s.2 + 1)) (table, modelCount)

/-- One iteration of the loop of `calcClassTable`, for category `i`: the state
is the list of the class entries written so far and `modelCount`. A category of
the miscellaneous class gets `_num = 0` and leaves `modelCount` as it is; a
class of at most `CUTOFF` models gets its size and advances `modelCount`; a
larger class gets the sums of `classSumLoop` divided by its size. -/
def psbTable.calcClassTableStep (miscClass : String) (cats : PSBCategoryList)
    (modelTable : List Table) (s : List Table × Nat) (i : Nat) : List Table × Nat :=
  if cats.nameOf i = miscClass then
    (s.1 ++ [{ zeroTable with _num := 0 }], s.2)
  else
    let classSize := cats.numModelsOf i
    let table := { zeroTable with _num := classSize }
    if classSize ≤ CUTOFF then
      (s.1 ++ [table], s.2 + classSize)
    else
      let r := psbTable.classSumLoop modelTable classSize table s.2
      (s.1 ++ [{ r.1 with
          _nn := r.1._nn / (classSize : ℚ)
          _firstTier := r.1._firstTier / (classSize : ℚ)
          _secondTier := r.1._secondTier / (classSize : ℚ)
          _dcg := r.1._dcg / (classSize : ℚ)
          _e := r.1._e / (classSize : ℚ) }], r.2)

/-- Function `calcClassTable`: the entries of `_classTable`, one per category,
computed from the entries of `_modelTable`. -/
def psbTable.calcClassTable (miscClass : String) (cats : PSBCategoryList)
    (modelTable : List Table) : List Table :=
  (forLoop 0 cats._numCategories
    (psbTable.calcClassTableStep miscClass cats modelTable) ([], 0)).1

/-- Function `calcAvgTable`: the averages of the five scores over the entries
whose `_num` exceeds `CUTOFF`. The running locals are kept in a `Table`: `_num`
holds `valid`, the score fields hold `meanNN`, `meanFt`, `meanSt`, `meanDcg`
and `meanE`; the result holds the five printed quotients. -/
def psbTable.calcAvgTable (table : List Table) (tableSize : Nat) : Option Table :=
  let s := forLoop 0 tableSize
    (fun (s : Table) i =>
      let t := table.getD i zeroTable
      if t._num ≤ CUTOFF then s
      else
        { _num := s._num + 1
          _nn := s._nn + t._nn
          _firstTier := s._firstTier + t._firstTier
          _secondTier := s._secondTier + t._secondTier
          _dcg := s._dcg + t._dcg
          _e := s._e + t._e }) zeroTable
  (fdiv s._nn (s._num : ℚ)).bind fun meanNN =>
  (fdiv s._firstTier (s._num : ℚ)).bind fun meanFt =>
  (fdiv s._secondTier (s._num : ℚ)).bind fun meanSt =>
  (fdiv s._dcg (s._num : ℚ)).bind fun meanDcg =>
  (fdiv s._e (s._num : ℚ)).bind fun meanE =>
  some { _num := s._num, _nn := meanNN, _firstTier := meanFt, _secondTier := meanSt,
         _dcg := meanDcg, _e := meanE }

/-! ## Averaged curves (psbPlot.cpp) -/

/-- Constant `SAMPLE` of psbPlot.cpp. -/
def psbPlot.SAMPLE : Nat := 20

/-- Conversion `(int)xx` of a float: truncation toward zero. -/
def truncate (x : ℚ) : Int :=
  if 0 ≤ x then ⌊x⌋ else ⌈x⌉

/-- Function `interpolatePerf`: the precision at recall level `index`,
interpolated between the two neighbouring values of the curve. -/
def psbPlot.interpolatePerf (perf : Perf) (index : ℚ) : ℚ :=
  let bins : Int := (perf._num : Int)
  let values := perf._perf
  if bins = 0 then 0
  else
    let xx : ℚ := index * (bins : ℚ) - 1
    let x1 : Int := truncate xx
    let x2 : Int := x1 + 1
    let dx : ℚ := xx - (x1 : ℚ)
    let x1 : Int := if x1 < 0 then 0 else x1
    let x2 : Int := if x2 < 0 then 0 else x2
    let x1 : Int := if x1 ≥ bins then bins - 1 else x1
    let x2 : Int := if x2 ≥ bins then bins - 1 else x2
    values.getD x1.toNat 0 * (1 - dx) + values.getD x2.toNat 0 * dx

/-- The test of `calcAvgPerf` under which the curve `p` is passed over at sample
`j`: `_num < CUTOFF || _num < SAMPLE / (float)(j+1)`. -/
def psbPlot.skipCurve (p : Perf) (j : Nat) : Bool :=
  decide (p._num < CUTOFF ∨ (p._num : ℚ) < (psbPlot.SAMPLE : ℚ) / ((j + 1 : Nat) : ℚ))

/-- The inner loop of `calcAvgPerf` for sample `j`: the state is `mean[j]` and
`valid`. -/
def psbPlot.sampleLoop (perf : List Perf) (size j : Nat) (meanj : ℚ) : ℚ × Nat :=
  forLoop 0 size
    (fun (s : ℚ × Nat) i =>
      let p := perf.getD i { _num := 0, _perf := [] }
      if psbPlot.skipCurve p j then s
      else (s.1 + psbPlot.interpolatePerf p (((j : ℚ) + 1) / (psbPlot.SAMPLE : ℚ)), s.2 + 1))
    (meanj, 0)

/-- Function `calcAvgPerf`: the array `mean` of the `SAMPLE` averaged precision
values written to the plot file. -/
def psbPlot.calcAvgPerf (perf : List Perf) (size : Nat) : List ℚ :=
  forLoop 0 psbPlot.SAMPLE
    (fun (mean : List ℚ) j =>
      let s := psbPlot.sampleLoop perf size j (mean.getD j 0)
      if s.2 > 0 then mean.set j (s.1 / (s.2 : ℚ)) else mean.set j s.1)
    (List.replicate psbPlot.SAMPLE 0)

/-- Function `createModelClassMapping` of psbPlot.cpp: as in psbTable.cpp, and
`_models` receives `atoi` of every member name read at positions
`0.._numModels-1` of the category. -/
def psbPlot.createModelClassMapping (atoi : String → Int) (cats : PSBCategoryList) :
    Option (Nat × List Nat × List Int) :=
  let numCategory := cats._numCategories
  let numModels := forLoop 0 numCategory (fun n i => n + cats.numModelsOf i) 0
  let r := forLoop 0 numCategory
    (fun (s : List Nat × List Int) i =>
      forLoop 0 (cats.numModelsOf i)
        (fun (s2 : List Nat × List Int) j =>
          (s2.1 ++ [i],
            s2.2 ++ [atoi (match cats._categories[i]? with
              | some cat => cat._models.getD j ""
              | none => "")])) s) ([], [])
  if r.1.length = numModels then some (numModels, r.1, r.2) else none

/-! ## Specification-side quantities for curves, tables and the model index -/

/-- Specification: the 1-indexed ranks, among the first `n` ranks of the
ranking of `model`, of the entries of the class of `model`, in increasing
order. -/
def sameRanks {α : Type} (idToClass : List Nat) (ranks : List (List (Rank α)))
    (model n : Nat) : List Nat :=
  (List.range' 1 n).filter
    (fun r => decide (idToClass.getD model 0 = rankClass idToClass ranks model (r - 1)))

/-- Specification: the curve whose `k`-th value (`k = 1, 2, ...`) is `k / r_k`,
`r_k` the `k`-th element of `rs`. -/
def curveOf (rs : List Nat) : List ℚ :=
  List.zipWith (fun k r => ((k : Nat) : ℚ) / ((r : Nat) : ℚ)) (List.range' 1 rs.length) rs

/-- Specification: the entries that count in an average, those whose size
exceeds the cutoff 2. -/
def validTables (ts : List Table) : List Table :=
  ts.filter (fun t => decide (2 < t._num))

/-- Specification: the arithmetic mean of the field `f` over the entries `ts`. -/
def meanOf (f : Table → ℚ) (ts : List Table) : ℚ :=
  (ts.map f).sum / (ts.length : ℚ)

/-- Specification: the curves eligible at sample `j`, those with `n ≥ 2` points
and `n * (j + 1) ≥ SAMPLE`. -/
def eligibleCurves (perf : List Perf) (j : Nat) : List Perf :=
  perf.filter (fun p => decide (2 ≤ p._num ∧ psbPlot.SAMPLE ≤ p._num * (j + 1)))

/-- Specification: the number of models in the categories before category `c`. -/
def classOffset (cats : PSBCategoryList) (c : Nat) : Nat :=
  ((List.range c).map cats.numModelsOf).sum

/-- The value of `modelCount` when the loop of `calcClassTable` reaches
category `c`: the sizes of the earlier categories that are not of the
miscellaneous class. -/
def modelCountAt (miscClass : String) (cats : PSBCategoryList) (c : Nat) : Nat :=
  ((List.range c).map
    (fun i => if cats.nameOf i = miscClass then 0 else cats.numModelsOf i)).sum

/-- The `size` entries of `modelTable` from position `w` on. -/
def windowTables (modelTable : List Table) (w size : Nat) : List Table :=
  (List.range size).map (fun j => modelTable.getD (w + j) zeroTable)

/-- The entry of `_classTable` for category `i` in closed form: the averaged
window of a class of more than `CUTOFF` models starts at `modelCountAt`. -/
def classTableEntry (miscClass : String) (cats : PSBCategoryList) (modelTable : List Table)
    (i : Nat) : Table :=
  if cats.nameOf i = miscClass then zeroTable
  else if cats.numModelsOf i ≤ CUTOFF then { zeroTable with _num := cats.numModelsOf i }
  else
    { _num := cats.numModelsOf i
      _nn := meanOf Table._nn
        (windowTables modelTable (modelCountAt miscClass cats i) (cats.numModelsOf i))
      _firstTier := meanOf Table._firstTier
        (windowTables modelTable (modelCountAt miscClass cats i) (cats.numModelsOf i))
      _secondTier := meanOf Table._secondTier
        (windowTables modelTable (modelCountAt miscClass cats i) (cats.numModelsOf i))
      _dcg := meanOf Table._dcg
        (windowTables modelTable (modelCountAt miscClass cats i) (cats.numModelsOf i))
      _e := meanOf Table._e
        (windowTables modelTable (modelCountAt miscClass cats i) (cats.numModelsOf i)) }

/-- A one-model miscellaneous category in front of a class of three models. -/
def exCatsMiscFirst : PSBCategoryList :=
  { _categories := [
      { _name := "misc", _fullName := "misc", _numModels := 1, _models := ["9"] },
      { _name := "a", _fullName := "a", _numModels := 3, _models := ["0", "1", "2"] }] }

/-- The model tables of `exCatsMiscFirst` when each model of class `a` has the
two other models of its class at ranks 1 and 2: the zeroed entry of the
miscellaneous model, then three entries with nearest neighbour, tiers and DCG 1
and E-measure 4/5. -/
def exTablesMiscFirst : List Table :=
  [ { _num := 0, _nn := 0, _firstTier := 0, _secondTier := 0, _dcg := 0, _e := 0 },
    { _num := 3, _nn := 1, _firstTier := 1, _secondTier := 1, _dcg := 1, _e := 4 / 5 },
    { _num := 3, _nn := 1, _firstTier := 1, _secondTier := 1, _dcg := 1, _e := 4 / 5 },
    { _num := 3, _nn := 1, _firstTier := 1, _secondTier := 1, _dcg := 1, _e := 4 / 5 } ]

/-- Specification: the mean of sample `j`, the sum of
`interpolatePerf(curve, (j+1)/SAMPLE)` over the eligible curves divided by
their number, and `0` when no curve is eligible. -/
def sampleMean (perf : List Perf) (j : Nat) : ℚ :=
  if (eligibleCurves perf j).length = 0 then 0
  else
    ((eligibleCurves perf j).map
        (fun p => psbPlot.interpolatePerf p (((j : ℚ) + 1) / (psbPlot.SAMPLE : ℚ)))).sum
      / ((eligibleCurves perf j).length : ℚ)

/-- A curve of three points. -/
def exPerf3 : Perf := { _num := 3, _perf := [1, 2 / 3, 1 / 2] }

/-- A curve of two points. -/
def exPerf2 : Perf := { _num := 2, _perf := [1, 1 / 2] }

/-- Three table entries: two of classes of three models, one of the
miscellaneous class. -/
def exTables : List Table :=
  [ { _num := 3, _nn := 1, _firstTier := 1, _secondTier := 1, _dcg := 1, _e := 4 / 5 },
    { _num := 0, _nn := 0, _firstTier := 0, _secondTier := 0, _dcg := 0, _e := 0 },
    { _num := 3, _nn := 0, _firstTier := 1 / 2, _secondTier := 1, _dcg := 1, _e := 4 / 5 } ]

/-- The second-tier cutoff of `calcTableTier`, the expression
`firstTier * 2 < _numModels ? firstTier * 2 : _numModels-1`. -/
def psbTable.secondTierCutoff (firstTier numModels : Nat) : Nat :=
  if firstTier * 2 < numModels then firstTier * 2 else numModels - 1

/-- Specification: the index `x` clamped to `[0, bins-1]`. -/
def clampBin (bins x : Int) : Int :=
  if x < 0 then 0 else if bins - 1 < x then bins - 1 else x

/-- Specification: the interpolation as the specification words it, with
`xx = idx*bins - 1`, `x1 = floor(xx)` clamped to `[0, bins-1]`, `x2 = x1+1`
clamped likewise, `dx = xx - x1` and the result
`(1-dx)*curve[x1] + dx*curve[x2]`. -/
def interpolateSpec (curve : List ℚ) (idx : ℚ) : ℚ :=
  (1 - (idx * ((curve.length : Int) : ℚ) - 1
        - ((clampBin curve.length ⌊idx * ((curve.length : Int) : ℚ) - 1⌋ : Int) : ℚ)))
      * curve.getD (clampBin curve.length ⌊idx * ((curve.length : Int) : ℚ) - 1⌋).toNat 0
    + (idx * ((curve.length : Int) : ℚ) - 1
        - ((clampBin curve.length ⌊idx * ((curve.length : Int) : ℚ) - 1⌋ : Int) : ℚ))
      * curve.getD
          (clampBin curve.length
            (clampBin curve.length ⌊idx * ((curve.length : Int) : ℚ) - 1⌋ + 1)).toNat 0

/-- A category that declares one member and lists two. -/
def exCatsMismatch : PSBCategoryList :=
  { _categories := [
      { _name := "a", _fullName := "a", _numModels := 1, _models := ["0", "1"] }] }

/-- The interpolation position `xx = index * bins - 1` of `interpolatePerf` for
a curve of `n` points at the recall level `(j+1)/SAMPLE` of sample `j`. -/
def psbPlot.samplePos (n j : Nat) : ℚ :=
  (((j : ℚ) + 1) / (psbPlot.SAMPLE : ℚ)) * (((n : Nat) : Int) : ℚ) - 1

/-! ## Curves per class (psbPlot.cpp) -/

/-- The two nested loops of `calcClassPerf` for a class of `cSize` models: for
each of `cSize` models, `_perf[perfIndex] += _modelPerf[modelCount]._perf[perfIndex]`
for every `perfIndex < cSize`, then `++modelCount`. The state is the buffer
`_classPerf[classIndex]._perf` and `modelCount`. -/
def psbPlot.classPerfSum (modelPerf : List Perf) (cSize : Nat) (perf : List ℚ)
    (modelCount : Nat) : List ℚ × Nat :=
  forLoop 0 cSize
    (fun (s : List ℚ × Nat) _ =>
      (forLoop 0 cSize
        (fun (buf : List ℚ) perfIndex =>
          buf.set perfIndex
            (buf.getD perfIndex 0
              + (modelPerf.getD s.2 { _num := 0, _perf := [] })._perf.getD perfIndex 0))
        s.1, s.2 + 1)) (perf, modelCount)

/-- One iteration of the loop of `calcClassPerf` (compiled with `USE_QUERY` set
to 1, so `cSize = classSize`), for category `classIndex`: the state is the list
of the class curves written so far and `modelCount`. A category of the
miscellaneous class or of at most `CUTOFF` models gets `_num = 0` and advances
`modelCount` by its size; any other class gets a zeroed buffer of `cSize`
values, the sums of `classPerfSum`, each then divided by `cSize`. -/
def psbPlot.calcClassPerfStep (miscClass : String) (cats : PSBCategoryList)
    (modelPerf : List Perf) (s : List Perf × Nat) (classIndex : Nat) : List Perf × Nat :=
  let classSize := cats.numModelsOf classIndex
  let cSize := classSize
  if cats.nameOf classIndex = miscClass ∨ classSize ≤ CUTOFF then
    (s.1 ++ [{ _num := 0, _perf := [] }], s.2 + classSize)
  else
    let r := psbPlot.classPerfSum modelPerf cSize (List.replicate cSize 0) s.2
    let perf := forLoop 0 cSize
      (fun (buf : List ℚ) perfIndex =>
        buf.set perfIndex (buf.getD perfIndex 0 / (cSize : ℚ))) r.1
    (s.1 ++ [{ _num := cSize, _perf := perf }], r.2)

/-- Function `calcClassPerf`: the entries of `_classPerf`, one per category,
computed from the curves of `_modelPerf`. -/
def psbPlot.calcClassPerf (miscClass : String) (cats : PSBCategoryList)
    (modelPerf : List Perf) : List Perf :=
  (forLoop 0 cats._numCategories
    (psbPlot.calcClassPerfStep miscClass cats modelPerf) ([], 0)).1

/-- Specification: the `k`-th values of the curves of the `size` models from
position `w` on. -/
def memberValues (modelPerf : List Perf) (w size k : Nat) : List ℚ :=
  (List.range size).map
    (fun j => (modelPerf.getD (w + j) { _num := 0, _perf := [] })._perf.getD k 0)

/-- Specification: the curve of category `c`: empty for a miscellaneous class or
a class of at most 2 models, else for each `k` below the class size the
arithmetic mean of the `k`-th values of the curves of the members of `c`, the
models at positions `classOffset c .. classOffset c + size - 1`. -/
def classPerfEntry (miscClass : String) (cats : PSBCategoryList) (modelPerf : List Perf)
    (c : Nat) : Perf :=
  if cats.nameOf c = miscClass ∨ cats.numModelsOf c ≤ 2 then { _num := 0, _perf := [] }
  else
    { _num := cats.numModelsOf c
      _perf := (List.range (cats.numModelsOf c)).map
        (fun k => (memberValues modelPerf (classOffset cats c) (cats.numModelsOf c) k).sum
          / ((cats.numModelsOf c : Nat) : ℚ)) }

/-- Six model curves for `exCats`: three points for the models of the first
class, two for the second, none for the miscellaneous model. -/
def exModelPerf : List Perf :=
  [ { _num := 3, _perf := [1, 2 / 3, 1 / 2] },
    { _num := 3, _perf := [1, 1, 3 / 4] },
    { _num := 3, _perf := [1 / 3, 1 / 2, 1 / 2] },
    { _num := 2, _perf := [1, 1] },
    { _num := 2, _perf := [1 / 2, 2 / 3] },
    { _num := 0, _perf := [] } ]

/-- Specification: the entry of `_modelPerf` for model `m` in closed form, for
rankings that are permutations: no curve for a model of the miscellaneous
class, else the curve of the 1-indexed ranks of the entries of the model's
class. -/
def modelPerfEntry {α : Type} (miscClass : String) (cats : PSBCategoryList) (N : Nat)
    (idToClass : List Nat) (ranks : List (List (Rank α))) (m : Nat) : Perf :=
  if cats.nameOf (idToClass.getD m 0) = miscClass then { _num := 0, _perf := [] }
  else
    { _num := cats.numModelsOf (idToClass.getD m 0)
      _perf := curveOf (sameRanks idToClass ranks m N) }

/-- The array `_modelTable` for `exCats` and `exMatrixClasses`: the scores
computed for each model, an entry without scores keeping the size of the
model's class. -/
def exModelTables : List Table :=
  (List.range 6).map
    (fun m => (psbTable.calcModelTableModel "misc" exLog10 exToFloat exCats 6 exIds
        (psbTable.readMatrix FLT_MAX 6 exMatrixClasses) m).getD
      { zeroTable with _num := exCats.numModelsOf (exIds.getD m 0) })

/-! ## Theorems: ranking -/

theorem compareRanks_neg_iff {α : Type} [LinearOrder α] (a b : Rank α) :
    compareRanks a b < 0 ↔
      a._value < b._value ∨ (a._value = b._value ∧ a._index < b._index) := by
  unfold compareRanks
  by_cases hv : a._value = b._value
  · by_cases hi : a._index < b._index <;> simp [hv, hi]
  · by_cases hl : a._value < b._value <;> simp [hv, hl]

theorem compareRanks_le_iff {α : Type} [LinearOrder α] (a b : Rank α) :
    compareRanks a b ≤ 0 ↔ compareRanks a b < 0 := by
  unfold compareRanks
  split_ifs <;> decide

theorem compareRanks_trans {α : Type} [LinearOrder α] {a b c : Rank α}
    (hab : compareRanks a b < 0) (hbc : compareRanks b c < 0) : compareRanks a c < 0 := by
  rw [compareRanks_neg_iff] at *
  rcases hab with h1 | ⟨h1, h1i⟩ <;> rcases hbc with h2 | ⟨h2, h2i⟩
  · exact Or.inl (lt_trans h1 h2)
  · exact Or.inl (h2 ▸ h1)
  · exact Or.inl (h1 ▸ h2)
  · exact Or.inr ⟨h1.trans h2, lt_trans h1i h2i⟩

theorem compareRanks_asymm {α : Type} [LinearOrder α] {a b : Rank α}
    (hab : compareRanks a b < 0) (hba : compareRanks b a < 0) : False := by
  rw [compareRanks_neg_iff] at *
  rcases hab with h1 | ⟨h1, h1i⟩ <;> rcases hba with h2 | ⟨h2, h2i⟩
  · exact lt_asymm h1 h2
  · exact absurd h2.symm (ne_of_lt h1)
  · exact absurd h1.symm (ne_of_lt h2)
  · exact lt_asymm h1i h2i

theorem compareRanks_total {α : Type} [LinearOrder α] {a b : Rank α}
    (h : a._index ≠ b._index) : compareRanks a b < 0 ∨ compareRanks b a < 0 := by
  rw [compareRanks_neg_iff, compareRanks_neg_iff]
  rcases lt_trichotomy a._value b._value with hv | hv | hv
  · exact Or.inl (Or.inl hv)
  · rcases Nat.lt_or_gt_of_ne h with hi | hi
    · exact Or.inl (Or.inr ⟨hv, hi⟩)
    · exact Or.inr (Or.inr ⟨hv.symm, hi⟩)
  · exact Or.inr (Or.inl hv)

theorem qsortInsert_perm {β : Type} (cmp : β → β → Int) (a : β) (l : List β) :
    (qsortInsert cmp a l).Perm (a :: l) := by
  induction l with
  | nil => exact List.Perm.refl _
  | cons b l ih =>
    unfold qsortInsert
    split_ifs
    · exact List.Perm.refl _
    · exact ((List.Perm.cons b ih).trans (List.Perm.swap a b l))

theorem qsort_perm {β : Type} (cmp : β → β → Int) (l : List β) : (qsort cmp l).Perm l := by
  induction l with
  | nil => exact List.Perm.refl _
  | cons a l ih =>
    unfold qsort
    exact (qsortInsert_perm cmp a _).trans (List.Perm.cons a ih)

theorem qsortInsert_sorted {α : Type} [LinearOrder α] (a : Rank α) (l : List (Rank α))
    (hs : l.Pairwise (fun x y => compareRanks x y < 0))
    (hd : ∀ b ∈ l, a._index ≠ b._index) :
    (qsortInsert compareRanks a l).Pairwise (fun x y => compareRanks x y < 0) := by
  induction l with
  | nil => simp [qsortInsert]
  | cons b l ih =>
    rw [List.pairwise_cons] at hs
    unfold qsortInsert
    split_ifs with hab
    · refine List.Pairwise.cons ?_ (List.Pairwise.cons hs.1 hs.2)
      intro c hc
      rcases List.mem_cons.mp hc with rfl | hc
      · exact hab
      · exact compareRanks_trans hab (hs.1 c hc)
    · have hba : compareRanks b a < 0 := by
        rcases compareRanks_total (hd b (List.mem_cons_self b l)) with h | h
        · exact absurd h hab
        · exact h
      refine List.Pairwise.cons ?_ (ih hs.2 (fun c hc => hd c (List.mem_cons_of_mem b hc)))
      intro c hc
      rcases List.mem_cons.mp ((qsortInsert_perm compareRanks a l).mem_iff.mp hc) with rfl | hc
      · exact hba
      · exact hs.1 c hc

theorem qsort_sorted {α : Type} [LinearOrder α] (l : List (Rank α))
    (hd : l.Pairwise (fun x y => x._index ≠ y._index)) :
    (qsort compareRanks l).Pairwise (fun x y => compareRanks x y < 0) := by
  induction l with
  | nil => simp [qsort]
  | cons a l ih =>
    rw [List.pairwise_cons] at hd
    unfold qsort
    refine qsortInsert_sorted a _ (ih hd.2) ?_
    intro b hb
    exact hd.1 b ((qsort_perm compareRanks l).mem_iff.mp hb)

theorem sortedBy_unique {α : Type} [LinearOrder α] {l1 l2 : List (Rank α)}
    (hp : l1.Perm l2) (h1 : SortedBy compareRanks l1) (h2 : SortedBy compareRanks l2) :
    l1 = l2 := by
  have e1 : l1.Pairwise (fun x y => compareRanks x y < 0) :=
    List.Pairwise.imp (fun h => (compareRanks_le_iff _ _).mp h) h1
  have e2 : l2.Pairwise (fun x y => compareRanks x y < 0) :=
    List.Pairwise.imp (fun h => (compareRanks_le_iff _ _).mp h) h2
  haveI : IsAntisymm (Rank α) (fun x y => compareRanks x y < 0) :=
    ⟨fun _ _ hab hba => (compareRanks_asymm hab hba).elim⟩
  exact List.eq_of_perm_of_sorted hp e1 e2

theorem readRow_map_index {α : Type} (N : Nat) (matrix : Nat → Nat → α) (i : Nat) :
    (readRow N matrix i).map Rank._index = List.range N := by
  simp [readRow, Function.comp_def]

theorem readRow_distinct {α : Type} (N : Nat) (matrix : Nat → Nat → α) (i : Nat) :
    (readRow N matrix i).Pairwise (fun x y => x._index ≠ y._index) := by
  have h : ((readRow N matrix i).map Rank._index).Pairwise (fun x y => x ≠ y) := by
    rw [readRow_map_index]
    exact List.nodup_range N
  exact (List.pairwise_map.mp h)

theorem mem_readRow {α : Type} {N : Nat} {matrix : Nat → Nat → α} {i : Nat} {r : Rank α}
    (h : r ∈ readRow N matrix i) : r._index < N ∧ r._value = matrix i r._index := by
  simp only [readRow, List.mem_map, List.mem_range] at h
  obtain ⟨j, hj, rfl⟩ := h
  exact ⟨hj, rfl⟩

theorem setValue_readRow {α : Type} (N : Nat) (matrix : Nat → Nat → α) (i k : Nat) (v : α) :
    setValue (readRow N matrix i) k v
      = readRow N (fun a b => if b = k then v else matrix a b) i := by
  apply List.ext_getElem?
  intro n
  unfold setValue
  by_cases hk : k < N
  · have h1 : (readRow N matrix i)[k]? = some { _index := k, _value := matrix i k } := by
      simp [readRow, List.getElem?_map, List.getElem?_range hk]
    rw [h1]
    simp only [List.getElem?_set]
    by_cases hn : n < N
    · by_cases hkn : k = n
      · subst hkn
        simp [readRow, hn]
      · simp [readRow, hn, hkn, List.getElem?_map, List.getElem?_range hn]
        have hnk : ¬ n = k := fun h => hkn h.symm
        simp [hnk]
    · have : N ≤ n := Nat.le_of_not_lt hn
      by_cases hkn : k = n
      · omega
      · have hr : (List.range N)[n]? = none := by simp [this]
        simp [readRow, hkn, hr]
  · have h1 : (readRow N matrix i)[k]? = none := by
      simp [readRow]; omega
    rw [h1]
    simp only [readRow]
    by_cases hn : n < N
    · have : n ≠ k := by omega
      simp [hn, this, List.getElem?_range hn]
    · have : N ≤ n := Nat.le_of_not_lt hn
      have hr : (List.range N)[n]? = none := by simp [this]
      simp [hr]
theorem pairwise_before_last {β : Type} {R : β → β → Prop} {l : List β} {q : β}
    (hs : l.Pairwise R) (hl : l.getLast? = some q) : ∀ x ∈ l, x ≠ q → R x q := by
  intro x hx hne
  have hnil : l ≠ [] := by
    intro h; subst h; simp at hl
  have hq : l.getLast hnil = q := by
    rw [List.getLast?_eq_getLast _ hnil] at hl
    exact Option.some.inj hl
  have hdec : l.dropLast ++ [q] = l := by
    rw [← hq]; exact List.dropLast_append_getLast hnil
  rw [← hdec] at hs hx
  rw [List.pairwise_append] at hs
  rcases List.mem_append.mp hx with h | h
  · exact hs.2.2 x h q (List.mem_singleton_self q)
  · exact absurd (List.mem_singleton.mp h) hne

theorem last_of_pairwise {β : Type} {R : β → β → Prop} {l : List β} {q : β}
    (hasym : ∀ a b, R a b → R b a → False)
    (hs : l.Pairwise R) (hq : q ∈ l) (hb : ∀ x ∈ l, x ≠ q → R x q) : l.getLast? = some q := by
  have hnil : l ≠ [] := List.ne_nil_of_mem hq
  rw [List.getLast?_eq_getLast _ hnil]
  by_cases h : l.getLast hnil = q
  · rw [h]
  · exfalso
    have h1 := hb _ (List.getLast_mem hnil) h
    have h2 := pairwise_before_last hs (List.getLast?_eq_getLast _ hnil) q hq (fun e => h e.symm)
    exact hasym _ _ h1 h2

/-- Claim C1: sorting the pairs (position, value) of a matrix row with
`compareRanks` yields a permutation of the positions `0..N-1` that carries the
row's values, is non-decreasing in value and orders equal values by ascending
position; any ordering of the row that is sorted under `compareRanks` equals it,
so the ranking does not depend on the sorting algorithm. Row `i` of
`psbPlot.readMatrix` is this ranking. -/
theorem C1_ranking_sorted_unique {α : Type} [LinearOrder α] (N : Nat)
    (matrix : Nat → Nat → α) (i : Nat) :
    ((qsort compareRanks (readRow N matrix i)).map Rank._index).Perm (List.range N) ∧
    (∀ r ∈ qsort compareRanks (readRow N matrix i), r._value = matrix i r._index) ∧
    (qsort compareRanks (readRow N matrix i)).Pairwise (fun a b => a._value ≤ b._value) ∧
    (qsort compareRanks (readRow N matrix i)).Pairwise
      (fun a b => a._value = b._value → a._index < b._index) ∧
    SortedBy compareRanks (qsort compareRanks (readRow N matrix i)) ∧
    (∀ l1 l2 : List (Rank α), l1.Perm (readRow N matrix i) → l2.Perm (readRow N matrix i) →
      SortedBy compareRanks l1 → SortedBy compareRanks l2 → l1 = l2) ∧
    (i < N → (psbPlot.readMatrix N matrix)[i]? = some (qsort compareRanks (readRow N matrix i))) := by
  have hs := qsort_sorted (readRow N matrix i) (readRow_distinct N matrix i)
  refine ⟨?_, ?_, ?_, ?_, ?_, ?_, ?_⟩
  · have h := (qsort_perm compareRanks (readRow N matrix i)).map Rank._index
    rwa [readRow_map_index] at h
  · intro r hr
    exact (mem_readRow ((qsort_perm compareRanks _).mem_iff.mp hr)).2
  · refine List.Pairwise.imp ?_ hs
    intro a b h
    rcases (compareRanks_neg_iff a b).mp h with h | h
    · exact le_of_lt h
    · exact le_of_eq h.1
  · refine List.Pairwise.imp ?_ hs
    intro a b h hv
    rcases (compareRanks_neg_iff a b).mp h with h | h
    · exact absurd hv (ne_of_lt h)
    · exact h.2
  · exact List.Pairwise.imp (fun h => le_of_lt h) hs
  · intro l1 l2 p1 p2 s1 s2
    exact sortedBy_unique (p1.trans p2.symm) s1 s2
  · intro hi
    simp [psbPlot.readMatrix, List.getElem?_map, List.getElem?_range hi]

theorem readMatrixRow_eq {α : Type} [LinearOrder α] (fltMax : α) (N : Nat)
    (matrix : Nat → Nat → α) (i : Nat) :
    psbTable.readMatrixRow fltMax N matrix i
      = qsort compareRanks (readRow N (fun a b => if b = i then fltMax else matrix a b) i) := by
  unfold psbTable.readMatrixRow
  rw [setValue_readRow]

theorem readMatrix_getD {α : Type} [LinearOrder α] (fltMax : α) (N : Nat)
    (matrix : Nat → Nat → α) (i : Nat) (hi : i < N) :
    (psbTable.readMatrix fltMax N matrix).getD i [] = psbTable.readMatrixRow fltMax N matrix i := by
  simp [psbTable.readMatrix, List.getD_eq_getElem?_getD, List.getElem?_map,
    List.getElem?_range hi]

theorem readMatrixRow_length {α : Type} [LinearOrder α] (fltMax : α) (N : Nat)
    (matrix : Nat → Nat → α) (i : Nat) :
    (psbTable.readMatrixRow fltMax N matrix i).length = N := by
  rw [readMatrixRow_eq, (qsort_perm _ _).length_eq]
  simp [readRow]

theorem readMatrixRow_map_index {α : Type} [LinearOrder α] (fltMax : α) (N : Nat)
    (matrix : Nat → Nat → α) (i : Nat) :
    ((psbTable.readMatrixRow fltMax N matrix i).map Rank._index).Perm (List.range N) := by
  rw [readMatrixRow_eq]
  have h := (qsort_perm compareRanks
    (readRow N (fun a b => if b = i then fltMax else matrix a b) i)).map Rank._index
  rwa [readRow_map_index] at h

theorem readMatrixRow_sorted {α : Type} [LinearOrder α] (fltMax : α) (N : Nat)
    (matrix : Nat → Nat → α) (i : Nat) :
    (psbTable.readMatrixRow fltMax N matrix i).Pairwise (fun x y => compareRanks x y < 0) := by
  rw [readMatrixRow_eq]
  exact qsort_sorted _ (readRow_distinct _ _ _)

theorem mem_readMatrixRow {α : Type} [LinearOrder α] (fltMax : α) (N : Nat)
    (matrix : Nat → Nat → α) (i : Nat) (r : Rank α) :
    r ∈ psbTable.readMatrixRow fltMax N matrix i ↔
      r._index < N ∧ r._value = (if r._index = i then fltMax else matrix i r._index) := by
  rw [readMatrixRow_eq, (qsort_perm _ _).mem_iff]
  constructor
  · intro h
    exact mem_readRow h
  · rintro ⟨h1, h2⟩
    simp only [readRow, List.mem_map, List.mem_range]
    refine ⟨r._index, h1, ?_⟩
    cases r
    simp only at h2
    simp [h2]

theorem rankIndex_readMatrix {α : Type} [LinearOrder α] (fltMax : α) (N : Nat)
    (matrix : Nat → Nat → α) (i k : Nat) (hi : i < N) (hk : k < N) :
    ∃ r, (psbTable.readMatrixRow fltMax N matrix i)[k]? = some r ∧
      rankIndex (psbTable.readMatrix fltMax N matrix) i k = r._index := by
  have hlen := readMatrixRow_length fltMax N matrix i
  have hk2 : k < (psbTable.readMatrixRow fltMax N matrix i).length := by omega
  refine ⟨(psbTable.readMatrixRow fltMax N matrix i)[k], List.getElem?_eq_getElem hk2, ?_⟩
  unfold rankIndex
  rw [readMatrix_getD fltMax N matrix i hi, List.getElem?_eq_getElem hk2]

/-- The query's entry in row `i` of psbTable's `_ranks`. -/
theorem query_mem_readMatrixRow {α : Type} [LinearOrder α] (fltMax : α) (N : Nat)
    (matrix : Nat → Nat → α) (i : Nat) (hi : i < N) :
    ({ _index := i, _value := fltMax } : Rank α) ∈ psbTable.readMatrixRow fltMax N matrix i := by
  rw [mem_readMatrixRow]
  simp [hi]

theorem readMatrixRow_last_iff {α : Type} [LinearOrder α] (fltMax : α) (N : Nat)
    (matrix : Nat → Nat → α) (i : Nat) (hi : i < N) :
    (psbTable.readMatrixRow fltMax N matrix i).getLast? = some { _index := i, _value := fltMax } ↔
      ∀ j, j < N → j ≠ i → matrix i j < fltMax ∨ (matrix i j = fltMax ∧ j < i) := by
  constructor
  · intro hl j hj hji
    have hx : ({ _index := j, _value := matrix i j } : Rank α)
        ∈ psbTable.readMatrixRow fltMax N matrix i := by
      rw [mem_readMatrixRow]
      simp [hj, hji]
    have hne : ({ _index := j, _value := matrix i j } : Rank α)
        ≠ { _index := i, _value := fltMax } := by
      intro h
      exact hji (congrArg Rank._index h)
    have h := pairwise_before_last (readMatrixRow_sorted fltMax N matrix i) hl _ hx hne
    exact (compareRanks_neg_iff _ _).mp h
  · intro hrow
    refine last_of_pairwise (fun a b => compareRanks_asymm)
      (readMatrixRow_sorted fltMax N matrix i) (query_mem_readMatrixRow fltMax N matrix i hi) ?_
    intro x hx hne
    rw [mem_readMatrixRow] at hx
    have hxi : x._index ≠ i := by
      intro h
      apply hne
      cases x
      simp only at h hx
      subst h
      simp [hx.2]
    rw [compareRanks_neg_iff]
    have := hrow x._index hx.1 hxi
    rw [hx.2, if_neg hxi]
    exact this

/-- Position of the query in row `i` of psbTable's `_ranks`. -/
theorem query_last_iff {α : Type} [LinearOrder α] (fltMax : α) (N : Nat)
    (matrix : Nat → Nat → α) (i : Nat) (hi : i < N) :
    (rankIndex (psbTable.readMatrix fltMax N matrix) i (N - 1) = i ↔
      ∀ j, j < N → j ≠ i → matrix i j < fltMax ∨ (matrix i j = fltMax ∧ j < i)) ∧
    (rankIndex (psbTable.readMatrix fltMax N matrix) i (N - 1) = i →
      ∀ k, k < N - 1 → rankIndex (psbTable.readMatrix fltMax N matrix) i k ≠ i) := by
  have hlen := readMatrixRow_length fltMax N matrix i
  have hN : N - 1 < N := by omega
  obtain ⟨r, hr, hri⟩ := rankIndex_readMatrix fltMax N matrix i (N - 1) hi hN
  have hlast : (psbTable.readMatrixRow fltMax N matrix i).getLast? = some r := by
    rw [List.getLast?_eq_getElem?, hlen, hr]
  have hrmem : r ∈ psbTable.readMatrixRow fltMax N matrix i := List.getElem?_mem hr
  have hnd : ((psbTable.readMatrixRow fltMax N matrix i).map Rank._index).Nodup :=
    (readMatrixRow_map_index fltMax N matrix i).nodup_iff.mpr (List.nodup_range N)
  constructor
  · rw [← readMatrixRow_last_iff fltMax N matrix i hi, hlast, hri]
    constructor
    · intro h
      rw [mem_readMatrixRow] at hrmem
      cases r
      simp only at h hrmem
      subst h
      simp [hrmem.2]
    · intro h
      rw [Option.some.inj h]
  · intro h k hk
    obtain ⟨r2, hr2, hri2⟩ := rankIndex_readMatrix fltMax N matrix i k hi (by omega)
    rw [hri2]
    intro h2
    rw [hri] at h
    have e1 : ((psbTable.readMatrixRow fltMax N matrix i).map Rank._index)[k]? = some i := by
      rw [List.getElem?_map, hr2, Option.map_some', h2]
    have e2 : ((psbTable.readMatrixRow fltMax N matrix i).map Rank._index)[N - 1]? = some i := by
      rw [List.getElem?_map, hr, Option.map_some', h]
    have hk1 : k < ((psbTable.readMatrixRow fltMax N matrix i).map Rank._index).length := by
      rw [List.length_map, hlen]; omega
    have hk2 : N - 1 < ((psbTable.readMatrixRow fltMax N matrix i).map Rank._index).length := by
      rw [List.length_map, hlen]; omega
    rw [List.getElem?_eq_getElem hk1] at e1
    rw [List.getElem?_eq_getElem hk2] at e2
    have e3 : ((psbTable.readMatrixRow fltMax N matrix i).map Rank._index)[k]
        = ((psbTable.readMatrixRow fltMax N matrix i).map Rank._index)[N - 1] := by
      rw [Option.some.inj e1, Option.some.inj e2]
    have := (List.Nodup.getElem_inj_iff hnd).mp e3
    omega

/-- Claim C2 (amended): in psbTable, after `readMatrix` has overwritten entry
`(i,i)` with `FLT_MAX` and sorted row `i`, the query's own position `i` is the
last entry of its ranking (index `N-1`) exactly when every other entry of the
row is below `FLT_MAX`, or equal to `FLT_MAX` at a position before `i`; when it
is last, it is at none of the first `N-1` ranks. -/
theorem C2_query_last_iff {α : Type} [LinearOrder α] (fltMax : α) (N : Nat)
    (matrix : Nat → Nat → α) (i : Nat) (hi : i < N) :
    (rankIndex (psbTable.readMatrix fltMax N matrix) i (N - 1) = i ↔
      ∀ j, j < N → j ≠ i → matrix i j < fltMax ∨ (matrix i j = fltMax ∧ j < i)) ∧
    (rankIndex (psbTable.readMatrix fltMax N matrix) i (N - 1) = i →
      ∀ k, k < N - 1 → rankIndex (psbTable.readMatrix fltMax N matrix) i k ≠ i) :=
  query_last_iff fltMax N matrix i hi

/-- In the 2 x 2 matrix with `FLT_MAX` off the diagonal, query 0 ties with model
1 at `FLT_MAX`, is ordered first by position, and is not at index `N-1`. -/
theorem C2_counterexample :
    rankIndex (psbTable.readMatrix FLT_MAX 2 exMatrixTie) 0 0 = 0 ∧
    rankIndex (psbTable.readMatrix FLT_MAX 2 exMatrixTie) 0 (2 - 1) ≠ 0 := by
  simp [rankIndex, psbTable.readMatrix, psbTable.readMatrixRow, readRow, setValue, qsort,
    qsortInsert, compareRanks, exMatrixTie, List.range, List.range.loop]

theorem C2_query_last_iff_witness :
    rankIndex (psbTable.readMatrix FLT_MAX 3 exMatrixSmall) 1 (3 - 1) = 1 :=
  (C2_query_last_iff FLT_MAX 3 exMatrixSmall 1 (by decide)).1.mpr (by
    intro j hj hne
    left
    interval_cases j
    · norm_num [exMatrixSmall, FLT_MAX]
    · exact absurd rfl hne
    · norm_num [exMatrixSmall, FLT_MAX])

/-! ## Theorems: tiers -/

theorem forLoop_count (p : Nat → Prop) [DecidablePred p] (lo hi c : Nat) :
    forLoop lo hi (fun c i => if p i then c + 1 else c) c
      = c + (List.range' lo (hi - lo)).countP (fun i => decide (p i)) := by
  unfold forLoop
  generalize List.range' lo (hi - lo) = l
  induction l generalizing c with
  | nil => simp
  | cons a l ih =>
    rw [List.foldl_cons, ih, List.countP_cons]
    by_cases h : p a
    · simp [h]; omega
    · simp [h]

theorem countP_range'_split (q : Nat → Bool) (a b : Nat) (h : a ≤ b) :
    (List.range a).countP q + (List.range' a (b - a)).countP q = (List.range b).countP q := by
  have e : List.range b = List.range a ++ List.range' a (b - a) := by
    rw [List.range_eq_range', List.range_eq_range']
    have := List.range'_append 0 a (b - a) 1
    simp only [Nat.one_mul, Nat.zero_add] at this
    rw [this]
    congr 1
    omega
  rw [e, List.countP_append]

theorem forLoop_count_zero (p : Nat → Prop) [DecidablePred p] (n : Nat) :
    forLoop 0 n (fun c i => if p i then c + 1 else c) 0
      = (List.range n).countP (fun i => decide (p i)) := by
  rw [forLoop_count, List.range_eq_range']
  simp

theorem fdiv_of_ne {a b : ℚ} (h : b ≠ 0) : fdiv a b = some (a / b) := by
  simp [fdiv, h]

/-! ## Theorems: the model index -/

theorem foldl_push_replicate (l : List Nat) (i : Nat) (ids : List Nat) :
    l.foldl (fun ids2 _ => ids2 ++ [i]) ids = ids ++ List.replicate l.length i := by
  induction l generalizing ids with
  | nil => simp
  | cons a l ih =>
    rw [List.foldl_cons, ih, List.length_cons, List.replicate_succ]
    simp

theorem idToClass_loop (sz : Nat → Nat) (l : List Nat) (init : List Nat) :
    l.foldl (fun ids i => List.foldl (fun ids2 _ => ids2 ++ [i]) ids (List.range' 0 (sz i))) init
      = init ++ l.flatMap (fun i => List.replicate (sz i) i) := by
  induction l generalizing init with
  | nil => simp
  | cons a l ih =>
    rw [List.foldl_cons, ih, foldl_push_replicate]
    simp

theorem numModels_loop (sz : Nat → Nat) (l : List Nat) (init : Nat) :
    l.foldl (fun n i => n + sz i) init = init + (l.map sz).sum := by
  induction l generalizing init with
  | nil => simp
  | cons a l ih =>
    rw [List.foldl_cons, ih]
    simp; omega

theorem length_classBlocks (sz : Nat → Nat) (n : Nat) :
    ((List.range n).flatMap (fun i => List.replicate (sz i) i)).length
      = ((List.range n).map sz).sum := by
  rw [List.length_flatMap]
  congr 1
  apply List.map_congr_left
  intro a _
  simp

/-- The result of `createModelClassMapping` in closed form: the final assertion
holds for every category list, `_numModels` is the sum of the class sizes and
`_idToClass` lists every category index as often as the category has models,
in category order. -/
theorem createModelClassMapping_eq (cats : PSBCategoryList) :
    createModelClassMapping cats
      = some (((List.range cats._numCategories).map cats.numModelsOf).sum,
          (List.range cats._numCategories).flatMap
            (fun i => List.replicate (cats.numModelsOf i) i)) := by
  unfold createModelClassMapping
  simp only [forLoop, Nat.sub_zero]
  rw [idToClass_loop, numModels_loop, ← List.range_eq_range', List.nil_append, Nat.zero_add,
    if_pos (length_classBlocks _ _)]

theorem count_classBlocks (sz : Nat → Nat) (n c : Nat) :
    ((List.range n).flatMap (fun i => List.replicate (sz i) i)).count c
      = if c < n then sz c else 0 := by
  induction n with
  | zero => simp
  | succ n ih =>
    rw [List.range_succ, List.flatMap_append, List.count_append, ih]
    simp only [List.flatMap_cons, List.flatMap_nil, List.append_nil, List.count_replicate]
    by_cases h1 : c < n
    · have h2 : ¬ n = c := by omega
      have h3 : c < n + 1 := by omega
      simp [h1, h2, h3]
    · by_cases h2 : n = c
      · subst h2
        simp
      · have h3 : ¬ c < n + 1 := by omega
        simp [h1, h2, h3]

theorem numModelsOf_eq_zero (cats : PSBCategoryList) (c : Nat)
    (h : cats._numCategories ≤ c) : cats.numModelsOf c = 0 := by
  unfold PSBCategoryList.numModelsOf
  have : cats._categories[c]? = none := by
    rw [List.getElem?_eq_none_iff]
    exact h
  rw [this]

/-- After `createModelClassMapping`, category `c` owns exactly
`numModelsOf c` of the positions. -/
theorem count_idToClass (cats : PSBCategoryList) (N : Nat) (idToClass : List Nat)
    (hmap : createModelClassMapping cats = some (N, idToClass)) (c : Nat) :
    idToClass.count c = cats.numModelsOf c ∧ idToClass.length = N := by
  rw [createModelClassMapping_eq] at hmap
  simp only [Option.some.injEq, Prod.mk.injEq] at hmap
  obtain ⟨hN, hids⟩ := hmap
  constructor
  · rw [← hids, count_classBlocks]
    by_cases h : c < cats._numCategories
    · simp [h]
    · simp [h, numModelsOf_eq_zero cats c (Nat.le_of_not_lt h)]
  · rw [← hids, ← hN, length_classBlocks]

theorem numModelsOf_le (cats : PSBCategoryList) (N : Nat) (idToClass : List Nat)
    (hmap : createModelClassMapping cats = some (N, idToClass)) (c : Nat) :
    cats.numModelsOf c ≤ N := by
  obtain ⟨h1, h2⟩ := count_idToClass cats N idToClass hmap c
  rw [← h1, ← h2]
  exact List.count_le_length c idToClass

/-! ## Theorems: first and second tier -/

/-- The value computed by `calcTableTier` for a class of at least two models, in
closed form. -/
theorem calcTableTier_eq {α : Type} (cats : PSBCategoryList) (N : Nat) (idToClass : List Nat)
    (ranks : List (List (Rank α))) (model : Nat) (table : Table)
    (hclass : 2 ≤ cats.numModelsOf (idToClass.getD model 0)) :
    psbTable.calcTableTier cats N idToClass ranks model table
      = some { table with
          _nn := if rankClass idToClass ranks model 0 = idToClass.getD model 0 then 1 else 0
          _firstTier :=
            ((correctCount idToClass ranks model
                (cats.numModelsOf (idToClass.getD model 0) - 1) : Nat) : ℚ)
              / ((cats.numModelsOf (idToClass.getD model 0) - 1 : Nat) : ℚ)
          _secondTier :=
            ((correctCount idToClass ranks model
                  (cats.numModelsOf (idToClass.getD model 0) - 1)
                + (List.range' (cats.numModelsOf (idToClass.getD model 0) - 1)
                    ((if (cats.numModelsOf (idToClass.getD model 0) - 1) * 2 < N
                        then (cats.numModelsOf (idToClass.getD model 0) - 1) * 2 else N - 1)
                      - (cats.numModelsOf (idToClass.getD model 0) - 1))).countP
                    (fun i => decide
                      (rankClass idToClass ranks model i = idToClass.getD model 0)) : Nat) : ℚ)
              / ((cats.numModelsOf (idToClass.getD model 0) - 1 : Nat) : ℚ) } := by
  have hf : cats.numModelsOf (idToClass.getD model 0) - 1 ≠ 0 := by omega
  have hfq : ((cats.numModelsOf (idToClass.getD model 0) - 1 : Nat) : ℚ) ≠ 0 :=
    Nat.cast_ne_zero.mpr hf
  have h1 := forLoop_count_zero
    (fun i => rankClass idToClass ranks model i = idToClass.getD model 0)
    (cats.numModelsOf (idToClass.getD model 0) - 1)
  have h2 := fun hi c => forLoop_count
    (fun i => rankClass idToClass ranks model i = idToClass.getD model 0)
    (cats.numModelsOf (idToClass.getD model 0) - 1) hi c
  unfold psbTable.calcTableTier
  simp only [if_neg hf, fdiv_of_ne hfq, Option.some_bind, h1, h2, correctCount]

/-- Claim C3: for a query model whose class has at least 2 members,
`calcTableTier` returns a table with `firstTier = c1 / firstTierCutoff`, where
`firstTierCutoff` is the class size minus one and `c1` counts the entries of the
query's class among the first `firstTierCutoff` entries of its ranking. -/
theorem C3_firstTier {α : Type} (cats : PSBCategoryList) (N : Nat) (idToClass : List Nat)
    (ranks : List (List (Rank α))) (model : Nat) (table : Table)
    (hclass : 2 ≤ cats.numModelsOf (idToClass.getD model 0)) :
    ∃ t, psbTable.calcTableTier cats N idToClass ranks model table = some t ∧
      t._firstTier =
        ((correctCount idToClass ranks model
            (cats.numModelsOf (idToClass.getD model 0) - 1) : Nat) : ℚ)
          / ((cats.numModelsOf (idToClass.getD model 0) - 1 : Nat) : ℚ) := by
  exact ⟨_, calcTableTier_eq cats N idToClass ranks model table hclass, rfl⟩

theorem C3_firstTier_witness :
    createModelClassMapping exCats = some (6, exIds) ∧
    ∃ t, psbTable.calcTableTier exCats 6 exIds exRanks 0 zeroTable = some t ∧
      t._firstTier =
        ((correctCount exIds exRanks 0 (exCats.numModelsOf (exIds.getD 0 0) - 1) : Nat) : ℚ)
          / ((exCats.numModelsOf (exIds.getD 0 0) - 1 : Nat) : ℚ) :=
  ⟨by decide, C3_firstTier exCats 6 exIds exRanks 0 zeroTable (by decide)⟩

/-- Claim C4: for a query model whose class has at least 2 members,
`calcTableTier` returns a table with `secondTier = c2 / firstTierCutoff`: `c2`
counts the entries of the query's class among the first `secondTierCutoff`
entries of the ranking, and the denominator is the first-tier cutoff (class size
minus one). -/
theorem C4_secondTier {α : Type} (cats : PSBCategoryList) (N : Nat) (idToClass : List Nat)
    (ranks : List (List (Rank α))) (model : Nat) (table : Table)
    (hmap : createModelClassMapping cats = some (N, idToClass))
    (hclass : 2 ≤ cats.numModelsOf (idToClass.getD model 0)) :
    ∃ t, psbTable.calcTableTier cats N idToClass ranks model table = some t ∧
      t._secondTier =
        ((correctCount idToClass ranks model
            (if (cats.numModelsOf (idToClass.getD model 0) - 1) * 2 < N
              then (cats.numModelsOf (idToClass.getD model 0) - 1) * 2 else N - 1) : Nat) : ℚ)
          / ((cats.numModelsOf (idToClass.getD model 0) - 1 : Nat) : ℚ) := by
  refine ⟨_, calcTableTier_eq cats N idToClass ranks model table hclass, ?_⟩
  have hle := numModelsOf_le cats N idToClass hmap (idToClass.getD model 0)
  have hcut : cats.numModelsOf (idToClass.getD model 0) - 1
      ≤ (if (cats.numModelsOf (idToClass.getD model 0) - 1) * 2 < N
          then (cats.numModelsOf (idToClass.getD model 0) - 1) * 2 else N - 1) := by
    split_ifs <;> omega
  simp only [correctCount]
  rw [countP_range'_split _ _ _ hcut]

theorem C4_secondTier_witness :
    ∃ t, psbTable.calcTableTier exCats 6 exIds exRanks 0 zeroTable = some t ∧
      t._secondTier =
        ((correctCount exIds exRanks 0
            (if (exCats.numModelsOf (exIds.getD 0 0) - 1) * 2 < 6
              then (exCats.numModelsOf (exIds.getD 0 0) - 1) * 2 else 6 - 1) : Nat) : ℚ)
          / ((exCats.numModelsOf (exIds.getD 0 0) - 1 : Nat) : ℚ) :=
  C4_secondTier exCats 6 exIds exRanks 0 zeroTable (by decide) (by decide)

/-- Claim C5: for a query model whose class size is greater than 1, the scores
computed by `calcTableTier` satisfy `secondTier ≥ firstTier`. -/
theorem C5_secondTier_ge_firstTier {α : Type} (cats : PSBCategoryList) (N : Nat)
    (idToClass : List Nat) (ranks : List (List (Rank α))) (model : Nat) (table : Table)
    (hclass : 1 < cats.numModelsOf (idToClass.getD model 0)) :
    ∃ t, psbTable.calcTableTier cats N idToClass ranks model table = some t ∧
      t._firstTier ≤ t._secondTier := by
  refine ⟨_, calcTableTier_eq cats N idToClass ranks model table hclass, ?_⟩
  simp only
  apply div_le_div_of_nonneg_right _ (Nat.cast_nonneg _)
  exact Nat.cast_le.mpr (Nat.le_add_right _ _)

theorem C5_secondTier_ge_firstTier_witness :
    ∃ t, psbTable.calcTableTier exCats 6 exIds exRanks 0 zeroTable = some t ∧
      t._firstTier ≤ t._secondTier :=
  C5_secondTier_ge_firstTier exCats 6 exIds exRanks 0 zeroTable (by decide)

/-- Claim C9: for a query model whose class has exactly one member, the
first-tier cutoff is 0 and `calcTableTier` returns a table with `firstTier = 0`
and `secondTier = 0`; no division is evaluated (the function returns a value
although a division by the cutoff would have none). -/
theorem C9_singleton_class {α : Type} (cats : PSBCategoryList) (N : Nat) (idToClass : List Nat)
    (ranks : List (List (Rank α))) (model : Nat) (table : Table)
    (hclass : cats.numModelsOf (idToClass.getD model 0) = 1) :
    cats.numModelsOf (idToClass.getD model 0) - 1 = 0 ∧
    fdiv 0 ((cats.numModelsOf (idToClass.getD model 0) - 1 : Nat) : ℚ) = none ∧
    psbTable.calcTableTier cats N idToClass ranks model table
      = some { table with
          _nn := if rankClass idToClass ranks model 0 = idToClass.getD model 0 then 1 else 0
          _firstTier := 0
          _secondTier := 0 } := by
  have hf : cats.numModelsOf (idToClass.getD model 0) - 1 = 0 := by omega
  refine ⟨hf, ?_, ?_⟩
  · rw [hf]
    simp [fdiv]
  · unfold psbTable.calcTableTier
    simp only [if_pos hf]

theorem C9_singleton_class_witness :
    createModelClassMapping exCatsSingle = some (3, [0, 0, 1]) ∧
    psbTable.calcTableTier exCatsSingle 3 [0, 0, 1]
        (psbTable.readMatrix FLT_MAX 3 exMatrixSmall) 2 zeroTable
      = some { zeroTable with
          _nn := if rankClass [0, 0, 1] (psbTable.readMatrix FLT_MAX 3 exMatrixSmall) 2 0
            = ([0, 0, 1] : List Nat).getD 2 0 then 1 else 0
          _firstTier := 0
          _secondTier := 0 } :=
  ⟨by decide,
    (C9_singleton_class exCatsSingle 3 [0, 0, 1] (psbTable.readMatrix FLT_MAX 3 exMatrixSmall)
      2 zeroTable (by decide)).2.2⟩

/-! ## Theorems: discounted cumulative gain -/

theorem foldl_bind_some {σ : Type} (l : List Nat) (body : σ → Nat → Option σ)
    (f : σ → Nat → σ) (h : ∀ i ∈ l, ∀ t, body t i = some (f t i)) (init : σ) :
    l.foldl (fun s i => s.bind (fun t => body t i)) (some init) = some (l.foldl f init) := by
  induction l generalizing init with
  | nil => rfl
  | cons a l ih =>
    rw [List.foldl_cons, List.foldl_cons, Option.some_bind, h a (List.mem_cons_self a l) init]
    exact ih (fun i hi t => h i (List.mem_cons_of_mem a hi) t) (f init a)

theorem foldl_add_filter (l : List Nat) (p : Nat → Prop) [DecidablePred p] (g : Nat → ℚ)
    (init : ℚ) :
    l.foldl (fun t i => if p i then t + g i else t) init
      = init + ((l.filter (fun i => decide (p i))).map g).sum := by
  induction l generalizing init with
  | nil => simp
  | cons a l ih =>
    rw [List.foldl_cons, ih]
    by_cases h : p a
    · simp [h, add_assoc]
    · simp [h]

theorem log2_pos (log10 : ℚ → ℚ) (x : ℚ) (h : 0 < log10 x) : 0 < psbTable.log2 log10 x := by
  unfold psbTable.log2
  exact div_pos h (by norm_num)

theorem gain_succ (log10 toFloat : ℚ → ℚ) (i : Nat) (hi : 1 ≤ i) :
    gain log10 toFloat (i + 1) = toFloat (1 / psbTable.log2 log10 ((i + 1 : Nat) : ℚ)) := by
  unfold gain
  rw [if_neg (by omega)]

theorem gain_nonneg (log10 toFloat : ℚ → ℚ) (hpos : ∀ r : Nat, 2 ≤ r → 0 < log10 (r : ℚ))
    (hcast : ∀ x : ℚ, 0 ≤ x → 0 ≤ toFloat x) (r : Nat) (hr : 1 ≤ r) :
    0 ≤ gain log10 toFloat r := by
  unfold gain
  split_ifs with h
  · exact zero_le_one
  · exact hcast _ (le_of_lt (one_div_pos.mpr (log2_pos log10 _ (hpos r (by omega)))))

theorem filter_map_shift (p : Nat → Bool) (g : Nat → ℚ) (s n : Nat) :
    (((List.range' s n).filter (fun i => p i)).map (fun i => g (i + 1))).sum
      = (((List.range' (s + 1) n).filter (fun r => p (r - 1))).map g).sum := by
  induction n generalizing s with
  | zero => simp
  | succ n ih =>
    rw [List.range'_succ, List.range'_succ]
    have := ih (s + 1)
    by_cases h : p s
    · simp [List.filter_cons, h, this]
    · simp [List.filter_cons, h, this]

/-- The normalising loop of `calcDCG`. -/
theorem calcDCG_max_loop (log10 toFloat : ℚ → ℚ)
    (hpos : ∀ r : Nat, 2 ≤ r → 0 < log10 (r : ℚ)) (classSize : Nat) :
    forLoopM 1 classSize
      (fun m i => (fdiv 1 (psbTable.log2 log10 ((i + 1 : Nat) : ℚ))).bind
        fun g => some (m + toFloat g)) (1 : ℚ) = some (idealDcg log10 toFloat classSize) := by
  unfold forLoopM
  rw [foldl_bind_some _ _ (fun m i => if True then m + gain log10 toFloat (i + 1) else m)]
  · rw [foldl_add_filter]
    unfold idealDcg
    have := filter_map_shift (fun _ => true) (gain log10 toFloat) 1 (classSize - 1)
    simp only [List.filter_true] at this
    simp [this]
  · intro i hi t
    have h1 : 1 ≤ i := (List.mem_range'_1.mp hi).1
    rw [fdiv_of_ne (ne_of_gt (log2_pos log10 _ (hpos (i + 1) (by omega)))), Option.some_bind,
      if_pos trivial, gain_succ log10 toFloat i h1]

/-- The accumulating loop of `calcDCG`. -/
theorem calcDCG_total_loop {α : Type} (log10 toFloat : ℚ → ℚ)
    (hpos : ∀ r : Nat, 2 ≤ r → 0 < log10 (r : ℚ)) (idToClass : List Nat)
    (ranks : List (List (Rank α))) (model N : Nat) (hN : 2 ≤ N) :
    forLoopM 1 (N - 1)
      (fun t i =>
        if rankClass idToClass ranks model i = idToClass.getD model 0 then
          (fdiv 1 (psbTable.log2 log10 ((i + 1 : Nat) : ℚ))).bind fun g => some (t + toFloat g)
        else some t)
      (if rankClass idToClass ranks model 0 = idToClass.getD model 0 then (1 : ℚ) else 0)
      = some (totalGain log10 toFloat idToClass ranks model N) := by
  unfold forLoopM
  rw [foldl_bind_some _ _ (fun t i =>
    if rankClass idToClass ranks model i = idToClass.getD model 0
      then t + gain log10 toFloat (i + 1) else t)]
  · rw [foldl_add_filter, filter_map_shift
      (fun i => decide (rankClass idToClass ranks model i = idToClass.getD model 0))]
    unfold totalGain
    have e : N - 1 = (N - 1 - 1) + 1 := by omega
    conv_rhs => rw [e, List.range'_succ]
    generalize idToClass.getD model 0 = c
    by_cases h : rankClass idToClass ranks model 0 = c
    · simp [List.filter_cons, h, gain]
    · simp [List.filter_cons, h]
  · intro i hi t
    have h1 : 1 ≤ i := (List.mem_range'_1.mp hi).1
    by_cases h : rankClass idToClass ranks model i = idToClass.getD model 0
    · rw [if_pos h, if_pos h,
        fdiv_of_ne (ne_of_gt (log2_pos log10 _ (hpos (i + 1) (by omega)))), Option.some_bind,
        gain_succ log10 toFloat i h1]
    · rw [if_neg h, if_neg h]

theorem idealDcg_pos (log10 toFloat : ℚ → ℚ) (hpos : ∀ r : Nat, 2 ≤ r → 0 < log10 (r : ℚ))
    (hcast : ∀ x : ℚ, 0 ≤ x → 0 ≤ toFloat x) (classSize : Nat) :
    0 < idealDcg log10 toFloat classSize := by
  unfold idealDcg
  have : 0 ≤ ((List.range' 2 (classSize - 1)).map (fun r => gain log10 toFloat r)).sum := by
    apply List.sum_nonneg
    intro x hx
    obtain ⟨r, hr, rfl⟩ := List.mem_map.mp hx
    exact gain_nonneg log10 toFloat hpos hcast r
      (by have := (List.mem_range'_1.mp hr).1; omega)
  linarith

/-- The value computed by `calcDCG`, in closed form. -/
theorem calcDCG_eq {α : Type} (log10 toFloat : ℚ → ℚ) (cats : PSBCategoryList) (N : Nat)
    (idToClass : List Nat) (ranks : List (List (Rank α))) (model : Nat) (table : Table)
    (hpos : ∀ r : Nat, 2 ≤ r → 0 < log10 (r : ℚ))
    (hcast : ∀ x : ℚ, 0 ≤ x → 0 ≤ toFloat x) (hN : 2 ≤ N) :
    psbTable.calcDCG log10 toFloat cats N idToClass ranks model table
      = some { table with
          _dcg := totalGain log10 toFloat idToClass ranks model N
            / idealDcg log10 toFloat (cats.numModelsOf (idToClass.getD model 0) - 1) } := by
  unfold psbTable.calcDCG
  simp only [calcDCG_total_loop log10 toFloat hpos idToClass ranks model N hN,
    calcDCG_max_loop log10 toFloat hpos, Option.some_bind,
    fdiv_of_ne (ne_of_gt (idealDcg_pos log10 toFloat hpos hcast _))]

/-- Claim C6 (amended): with at least two models, `log10` positive on the
integers from 2 on and a conversion to `float` that keeps non-negative values
non-negative, `calcDCG` returns `dcg = totalGain / idealDcg`, where `totalGain`
sums `gain(r)` over the ranks `r` in `1..N-1` whose model shares the query's
class (`gain(1) = 1`, `gain(r) = 1/log2(r)` beyond, each converted to `float`
as the code does) and `idealDcg = 1 + Σ_{r=2}^{classSize} 1/log2(r)`,
`classSize` being the query's class size without the query: the sum runs up to
`classSize`, not `classSize - 1`. -/
theorem C6_dcg_formula {α : Type} (log10 toFloat : ℚ → ℚ) (cats : PSBCategoryList) (N : Nat)
    (idToClass : List Nat) (ranks : List (List (Rank α))) (model : Nat) (table : Table)
    (hpos : ∀ r : Nat, 2 ≤ r → 0 < log10 (r : ℚ))
    (hcast : ∀ x : ℚ, 0 ≤ x → 0 ≤ toFloat x) (hN : 2 ≤ N) :
    psbTable.calcDCG log10 toFloat cats N idToClass ranks model table
      = some { table with
          _dcg := totalGain log10 toFloat idToClass ranks model N
            / idealDcg log10 toFloat (cats.numModelsOf (idToClass.getD model 0) - 1) } :=
  calcDCG_eq log10 toFloat cats N idToClass ranks model table hpos hcast hN

theorem exLog10_pos : ∀ r : Nat, 2 ≤ r → 0 < exLog10 (r : ℚ) := by
  intro r _
  unfold exLog10
  split_ifs <;> norm_num

theorem exToFloat_mono : ∀ x y : ℚ, x ≤ y → exToFloat x ≤ exToFloat y := by
  intro x y h
  unfold exToFloat
  apply div_le_div_of_nonneg_right _ (by norm_num)
  exact_mod_cast Int.floor_mono (by linarith : x * 1024 + 1 / 2 ≤ y * 1024 + 1 / 2)

theorem exToFloat_nonneg : ∀ x : ℚ, 0 ≤ x → 0 ≤ exToFloat x := by
  intro x h
  unfold exToFloat
  apply div_nonneg _ (by norm_num)
  exact_mod_cast Int.floor_nonneg.mpr (by linarith : (0 : ℚ) ≤ x * 1024 + 1 / 2)

/-- The gain of rank 2 under the stand-ins: `0.3010299957 / 0.30102` exceeds 1
by less than the rounding step and is converted to 1. -/
theorem exToFloat_gain_two : exToFloat (1 / psbTable.log2 exLog10 ((2 : Nat) : ℚ)) = 1 := by
  have h : ⌊(1 / psbTable.log2 exLog10 ((2 : Nat) : ℚ)) * 1024 + 1 / 2⌋ = 1024 := by
    rw [Int.floor_eq_iff]
    norm_num [psbTable.log2, exLog10]
  unfold exToFloat
  rw [h]
  norm_num

theorem C6_dcg_formula_witness :
    psbTable.calcDCG exLog10 exToFloat exCats 6 exIds exRanks 1 zeroTable
      = some { zeroTable with
          _dcg := totalGain exLog10 exToFloat exIds exRanks 1 6
            / idealDcg exLog10 exToFloat (exCats.numModelsOf (exIds.getD 1 0) - 1) } :=
  C6_dcg_formula exLog10 exToFloat exCats 6 exIds exRanks 1 zeroTable exLog10_pos
    exToFloat_nonneg (by decide)

/-- Model 1 of `exCats` has the two other members of its class at ranks 1 and
2: the total gain and the normalisation computed by `calcDCG` are both
`1 + gain(2)`, while the claimed normalisation `1 + Σ_{r=2}^{classSize-1}` is
`1`; for no positive `log10` and no conversion to `float` that gives rank 2 a
positive gain does `calcDCG` return the claimed quotient. -/
theorem C6_counterexample :
    ¬ ∃ log10 toFloat : ℚ → ℚ, (∀ r : Nat, 2 ≤ r → 0 < log10 (r : ℚ)) ∧
      (∀ x : ℚ, 0 ≤ x → 0 ≤ toFloat x) ∧
      0 < toFloat (1 / psbTable.log2 log10 ((2 : Nat) : ℚ)) ∧
      psbTable.calcDCG log10 toFloat exCats 6 exIds exRanks 1 zeroTable
        = some { zeroTable with
            _dcg := totalGain log10 toFloat exIds exRanks 1 6
              / idealDcgClaimed log10 toFloat (exCats.numModelsOf (exIds.getD 1 0) - 1) } := by
  rintro ⟨log10, toFloat, hpos, hcast, hg2, h⟩
  rw [calcDCG_eq log10 toFloat exCats 6 exIds exRanks 1 zeroTable hpos hcast (by decide)] at h
  have hd := congrArg Table._dcg (Option.some.inj h)
  have hg : 0 < gain log10 toFloat 2 := by
    unfold gain
    rw [if_neg (by decide)]
    exact hg2
  have ht : totalGain log10 toFloat exIds exRanks 1 6 = 1 + gain log10 toFloat 2 := by
    simp [totalGain, exIds, exRanks, rankClass, rankIndex, List.range', List.filter, gain]
  have hi : idealDcg log10 toFloat (exCats.numModelsOf (exIds.getD 1 0) - 1)
      = 1 + gain log10 toFloat 2 := by
    simp [idealDcg, exCats, exIds, PSBCategoryList.numModelsOf, List.range']
  have hc : idealDcgClaimed log10 toFloat (exCats.numModelsOf (exIds.getD 1 0) - 1) = 1 := by
    simp [idealDcgClaimed, exCats, exIds, PSBCategoryList.numModelsOf]
  simp only [ht, hi, hc] at hd
  rw [div_self (by linarith), div_one] at hd
  linarith

/-! ## Theorems: same-class entries of a permutation ranking -/

theorem map_rankIndex_range {α : Type} (ranks : List (List (Rank α))) (model N : Nat)
    (hlen : (ranks.getD model []).length = N) :
    (List.range N).map (rankIndex ranks model) = (ranks.getD model []).map Rank._index := by
  apply List.ext_getElem
  · rw [List.length_map, List.length_map, List.length_range, hlen]
  · intro n h1 h2
    have h3 : n < (ranks.getD model []).length := by
      rw [List.length_map] at h2
      exact h2
    simp only [List.getElem_map, List.getElem_range]
    unfold rankIndex
    rw [List.getElem?_eq_getElem h3]

theorem range_map_getD (ids : List Nat) :
    (List.range ids.length).map (fun p => ids.getD p 0) = ids := by
  apply List.ext_getElem
  · simp
  · intro n h1 h2
    simp [List.getD_eq_getElem?_getD, List.getElem?_eq_getElem h2]

/-- In a ranking that is a permutation of all positions, the entries of the
query's class number as many as the class has models. -/
theorem correctCount_all {α : Type} (cats : PSBCategoryList) (N : Nat) (idToClass : List Nat)
    (ranks : List (List (Rank α))) (model : Nat)
    (hmap : createModelClassMapping cats = some (N, idToClass))
    (hperm : ((ranks.getD model []).map Rank._index).Perm (List.range N)) :
    correctCount idToClass ranks model N = cats.numModelsOf (idToClass.getD model 0) := by
  obtain ⟨hcount, hlen⟩ := count_idToClass cats N idToClass hmap (idToClass.getD model 0)
  have hl : (ranks.getD model []).length = N := by
    have := hperm.length_eq
    rw [List.length_map, List.length_range] at this
    exact this
  unfold correctCount rankClass
  generalize idToClass.getD model 0 = c at hcount ⊢
  have e1 : (List.range N).countP (fun i => decide (idToClass.getD (rankIndex ranks model i) 0 = c))
      = ((List.range N).map (rankIndex ranks model)).countP
          (fun p => decide (idToClass.getD p 0 = c)) := by
    rw [List.countP_map]
    rfl
  rw [e1, map_rankIndex_range _ _ _ hl, hperm.countP_eq, ← hcount, List.count_eq_countP]
  conv_rhs => rw [← range_map_getD idToClass]
  rw [List.countP_map, hlen]
  apply List.countP_congr
  intro x _
  simp

theorem correctCount_succ {α : Type} (idToClass : List Nat) (ranks : List (List (Rank α)))
    (model n : Nat) :
    correctCount idToClass ranks model (n + 1)
      = correctCount idToClass ranks model n
        + (if rankClass idToClass ranks model n = idToClass.getD model 0 then 1 else 0) := by
  unfold correctCount
  rw [List.range_succ, List.countP_append]
  simp [List.countP_cons]

/-- When the ranking is a permutation whose last entry is the query itself, the
first `N-1` entries hold all the other models of the query's class. -/
theorem correctCount_init {α : Type} (cats : PSBCategoryList) (N : Nat) (idToClass : List Nat)
    (ranks : List (List (Rank α))) (model : Nat)
    (hmap : createModelClassMapping cats = some (N, idToClass)) (hmodel : model < N)
    (hperm : ((ranks.getD model []).map Rank._index).Perm (List.range N))
    (hlast : rankIndex ranks model (N - 1) = model) :
    correctCount idToClass ranks model (N - 1) = cats.numModelsOf (idToClass.getD model 0) - 1 := by
  have hall := correctCount_all cats N idToClass ranks model hmap hperm
  have e : N = (N - 1) + 1 := by omega
  rw [e, correctCount_succ] at hall
  have hs : rankClass idToClass ranks model (N - 1 + 1 - 1) = idToClass.getD model 0 := by
    unfold rankClass
    rw [Nat.add_sub_cancel, hlast]
  rw [Nat.add_sub_cancel] at hs
  rw [if_pos hs] at hall
  omega

theorem countP_shift (p : Nat → Bool) (s n : Nat) :
    (List.range' (s + 1) n).countP (fun r => p (r - 1)) = (List.range' s n).countP p := by
  induction n generalizing s with
  | zero => simp
  | succ n ih =>
    rw [List.range'_succ, List.range'_succ, List.countP_cons, List.countP_cons, ih (s + 1)]
    simp

theorem sum_map_le_block (g : Nat → ℚ) (a0 : Nat)
    (hanti : ∀ a b, a0 ≤ a → a ≤ b → g b ≤ g a) :
    ∀ (l : List Nat) (a : Nat), a0 ≤ a → l.Pairwise (fun x y => x < y) → (∀ x ∈ l, a ≤ x) →
      (l.map g).sum ≤ ((List.range' a l.length).map g).sum := by
  intro l
  induction l with
  | nil => intro a _ _ _; simp
  | cons x t ih =>
    intro a ha hp hx
    rw [List.pairwise_cons] at hp
    have h1 : a ≤ x := hx x (List.mem_cons_self x t)
    have h2 : ∀ y ∈ t, a + 1 ≤ y := fun y hy => by
      have := hp.1 y hy
      omega
    have h3 := ih (a + 1) (by omega) hp.2 h2
    rw [List.length_cons, List.range'_succ, List.map_cons, List.map_cons, List.sum_cons,
      List.sum_cons]
    exact add_le_add (hanti a x ha h1) h3

/-- A sum of `c` values of `g` at increasing ranks is at most the sum over the
ranks `1..c`, when `g` does not increase from rank 2 on and `g (c+1) ≤ g 1`. -/
theorem sum_map_le_first (g : Nat → ℚ) (hanti : ∀ a b, 2 ≤ a → a ≤ b → g b ≤ g a)
    (l : List Nat) (hp : l.Pairwise (fun x y => x < y)) (hx : ∀ x ∈ l, 1 ≤ x)
    (hc : 1 ≤ l.length) (hlast : g (l.length + 1) ≤ g 1) :
    (l.map g).sum ≤ ((List.range' 1 l.length).map g).sum := by
  cases l with
  | nil => simp at hc
  | cons x t =>
    rw [List.length_cons, List.range'_succ]
    simp only [List.map_cons, List.sum_cons]
    by_cases h1 : x = 1
    · subst h1
      rw [List.pairwise_cons] at hp
      have ht : ∀ y ∈ t, 2 ≤ y := fun y hy => hp.1 y hy
      exact add_le_add le_rfl (sum_map_le_block g 2 hanti t 2 le_rfl hp.2 ht)
    · have hall : ∀ y ∈ x :: t, 2 ≤ y := by
        intro y hy
        rw [List.pairwise_cons] at hp
        have hx1 := hx x (List.mem_cons_self x t)
        rcases List.mem_cons.mp hy with rfl | hy
        · omega
        · have := hp.1 y hy
          omega
      have hb := sum_map_le_block g 2 hanti (x :: t) 2 le_rfl hp hall
      rw [List.length_cons, List.range'_concat, List.map_append, List.sum_append] at hb
      simp only [List.map_cons, List.map_nil, List.sum_cons, List.sum_nil, Nat.one_mul,
        add_zero] at hb
      have e : 2 + t.length = (x :: t).length + 1 := by
        rw [List.length_cons]
        omega
      rw [e] at hb
      linarith

theorem log10_mono_from_two (log10 : ℚ → ℚ)
    (hmono : ∀ r : Nat, 2 ≤ r → log10 (r : ℚ) ≤ log10 ((r + 1 : Nat) : ℚ)) :
    ∀ a b : Nat, 2 ≤ a → a ≤ b → log10 (a : ℚ) ≤ log10 (b : ℚ) := by
  intro a b ha hab
  induction b, hab using Nat.le_induction with
  | base => exact le_rfl
  | succ b hab ih => exact le_trans ih (hmono b (le_trans ha hab))

theorem gain_antitone (log10 toFloat : ℚ → ℚ) (hpos : ∀ r : Nat, 2 ≤ r → 0 < log10 (r : ℚ))
    (hmono : ∀ r : Nat, 2 ≤ r → log10 (r : ℚ) ≤ log10 ((r + 1 : Nat) : ℚ))
    (hcmono : ∀ x y : ℚ, x ≤ y → toFloat x ≤ toFloat y) :
    ∀ a b, 2 ≤ a → a ≤ b → gain log10 toFloat b ≤ gain log10 toFloat a := by
  intro a b ha hab
  unfold gain
  rw [if_neg (by omega), if_neg (by omega)]
  apply hcmono
  apply one_div_le_one_div_of_le (log2_pos log10 _ (hpos a ha))
  unfold psbTable.log2
  exact div_le_div_of_nonneg_right (log10_mono_from_two log10 hmono a b ha hab) (by norm_num)

/-- No rank gains more than rank 1, as soon as rank 2 does not. -/
theorem gain_le_one (log10 toFloat : ℚ → ℚ) (hpos : ∀ r : Nat, 2 ≤ r → 0 < log10 (r : ℚ))
    (hmono : ∀ r : Nat, 2 ≤ r → log10 (r : ℚ) ≤ log10 ((r + 1 : Nat) : ℚ))
    (hcmono : ∀ x y : ℚ, x ≤ y → toFloat x ≤ toFloat y)
    (h2 : toFloat (1 / psbTable.log2 log10 ((2 : Nat) : ℚ)) ≤ 1) (r : Nat) (hr : 2 ≤ r) :
    gain log10 toFloat r ≤ gain log10 toFloat 1 := by
  have h1 : gain log10 toFloat 1 = 1 := by simp [gain]
  have hg2 : gain log10 toFloat 2 ≤ 1 := by
    unfold gain
    rw [if_neg (by decide)]
    exact h2
  rw [h1]
  exact le_trans (gain_antitone log10 toFloat hpos hmono hcmono 2 r le_rfl hr) hg2

theorem idealDcg_eq_sum (log10 toFloat : ℚ → ℚ) (c : Nat) (hc : 1 ≤ c) :
    idealDcg log10 toFloat c = ((List.range' 1 c).map (gain log10 toFloat)).sum := by
  unfold idealDcg
  have e : c = (c - 1) + 1 := by omega
  conv_rhs => rw [e, List.range'_succ]
  rw [List.map_cons, List.sum_cons]
  have h1 : gain log10 toFloat 1 = 1 := by simp [gain]
  rw [h1]

/-- The range of the value of `calcDCG` for a ranking that is a permutation of
all positions with the query in the last place. -/
theorem calcDCG_range {α : Type} (log10 toFloat : ℚ → ℚ) (cats : PSBCategoryList) (N : Nat)
    (idToClass : List Nat) (ranks : List (List (Rank α))) (model : Nat) (table : Table)
    (hmap : createModelClassMapping cats = some (N, idToClass)) (hmodel : model < N)
    (hclass : 2 ≤ cats.numModelsOf (idToClass.getD model 0))
    (hperm : ((ranks.getD model []).map Rank._index).Perm (List.range N))
    (hlast : rankIndex ranks model (N - 1) = model)
    (hpos : ∀ r : Nat, 2 ≤ r → 0 < log10 (r : ℚ))
    (hmono : ∀ r : Nat, 2 ≤ r → log10 (r : ℚ) ≤ log10 ((r + 1 : Nat) : ℚ))
    (hcast : ∀ x : ℚ, 0 ≤ x → 0 ≤ toFloat x)
    (hcmono : ∀ x y : ℚ, x ≤ y → toFloat x ≤ toFloat y)
    (h2 : toFloat (1 / psbTable.log2 log10 ((2 : Nat) : ℚ)) ≤ 1) :
    ∃ t, psbTable.calcDCG log10 toFloat cats N idToClass ranks model table = some t ∧
      0 ≤ t._dcg ∧ t._dcg ≤ 1 := by
  have hle := numModelsOf_le cats N idToClass hmap (idToClass.getD model 0)
  have hN : 2 ≤ N := le_trans hclass hle
  refine ⟨_, calcDCG_eq log10 toFloat cats N idToClass ranks model table hpos hcast hN, ?_, ?_⟩
  · apply div_nonneg _ (le_of_lt (idealDcg_pos log10 toFloat hpos hcast _))
    unfold totalGain
    apply List.sum_nonneg
    intro x hx
    obtain ⟨r, hr, rfl⟩ := List.mem_map.mp hx
    have hr1 := (List.mem_range'_1.mp (List.mem_filter.mp hr).1).1
    exact gain_nonneg log10 toFloat hpos hcast r hr1
  · simp only
    rw [div_le_one (idealDcg_pos log10 toFloat hpos hcast _),
      idealDcg_eq_sum log10 toFloat _ (by omega)]
    unfold totalGain
    have hlen : ((List.range' 1 (N - 1)).filter
        (fun r => decide (rankClass idToClass ranks model (r - 1) = idToClass.getD model 0))).length
        = cats.numModelsOf (idToClass.getD model 0) - 1 := by
      rw [← List.countP_eq_length_filter,
        countP_shift (fun i => decide (rankClass idToClass ranks model i = idToClass.getD model 0))
          0 (N - 1),
        ← List.range_eq_range']
      exact correctCount_init cats N idToClass ranks model hmap hmodel hperm hlast
    have hg : gain log10 toFloat (cats.numModelsOf (idToClass.getD model 0) - 1 + 1)
        ≤ gain log10 toFloat 1 :=
      gain_le_one log10 toFloat hpos hmono hcmono h2 _ (by omega)
    have hb := sum_map_le_first (gain log10 toFloat)
      (gain_antitone log10 toFloat hpos hmono hcmono)
      ((List.range' 1 (N - 1)).filter
        (fun r => decide (rankClass idToClass ranks model (r - 1) = idToClass.getD model 0)))
      (List.Pairwise.filter _ (List.pairwise_lt_range' 1 (N - 1)))
      (fun x hx => (List.mem_range'_1.mp (List.mem_filter.mp hx).1).1)
      (by rw [hlen]; omega) (by rw [hlen]; exact hg)
    rw [hlen] at hb
    exact hb

/-- Claim C7 (amended): for a query model whose class has at least 2 members
and whose matrix row has every other entry below `FLT_MAX` (or equal to it at an
earlier position), so that the query is ranked last, `calcDCG` returns a value
with `0 ≤ dcg ≤ 1`. The facts used about what the sources leave out hold of the
C library and of the conversion to `float`: `log10` is positive and
non-decreasing on the integers from 2 on, the conversion is monotone and keeps
non-negative values non-negative, and the gain of rank 2, `1/log2(2)` converted
to `float`, is at most 1 (it is exactly `1.0f`). -/
theorem C7_dcg_range {α : Type} [LinearOrder α] (log10 toFloat : ℚ → ℚ) (fltMax : α)
    (cats : PSBCategoryList) (N : Nat) (idToClass : List Nat) (matrix : Nat → Nat → α)
    (model : Nat) (table : Table)
    (hmap : createModelClassMapping cats = some (N, idToClass)) (hmodel : model < N)
    (hclass : 2 ≤ cats.numModelsOf (idToClass.getD model 0))
    (hrow : ∀ j, j < N → j ≠ model →
      matrix model j < fltMax ∨ (matrix model j = fltMax ∧ j < model))
    (hpos : ∀ r : Nat, 2 ≤ r → 0 < log10 (r : ℚ))
    (hmono : ∀ r : Nat, 2 ≤ r → log10 (r : ℚ) ≤ log10 ((r + 1 : Nat) : ℚ))
    (hcast : ∀ x : ℚ, 0 ≤ x → 0 ≤ toFloat x)
    (hcmono : ∀ x y : ℚ, x ≤ y → toFloat x ≤ toFloat y)
    (h2 : toFloat (1 / psbTable.log2 log10 ((2 : Nat) : ℚ)) ≤ 1) :
    ∃ t, psbTable.calcDCG log10 toFloat cats N idToClass (psbTable.readMatrix fltMax N matrix)
        model table = some t ∧ 0 ≤ t._dcg ∧ t._dcg ≤ 1 := by
  apply calcDCG_range log10 toFloat cats N idToClass _ model table hmap hmodel hclass _ _ hpos
    hmono hcast hcmono h2
  · rw [readMatrix_getD fltMax N matrix model hmodel]
    exact readMatrixRow_map_index fltMax N matrix model
  · exact (query_last_iff fltMax N matrix model hmodel).1.mpr hrow

theorem exLog10_of_ge (x : ℚ) (h : 10 ≤ x) : exLog10 x = 1 := by
  unfold exLog10
  rw [if_neg (by linarith), if_neg (by linarith), if_neg (by linarith), if_neg (by linarith),
    if_neg (by linarith), if_neg (by linarith), if_neg (by linarith), if_neg (by linarith)]

theorem exLog10_mono : ∀ r : Nat, 2 ≤ r → exLog10 (r : ℚ) ≤ exLog10 ((r + 1 : Nat) : ℚ) := by
  intro r hr
  by_cases h : r ≤ 9
  · interval_cases r <;> norm_num [exLog10]
  · have h10 : (10 : ℚ) ≤ (r : ℚ) := by exact_mod_cast (by omega : 10 ≤ r)
    have h11 : (10 : ℚ) ≤ ((r + 1 : Nat) : ℚ) := by exact_mod_cast (by omega : 10 ≤ r + 1)
    rw [exLog10_of_ge _ h10, exLog10_of_ge _ h11]

theorem exMatrixSmall_below :
    ∀ j, j < 4 → j ≠ 2 →
      exMatrixSmall 2 j < FLT_MAX ∨ (exMatrixSmall 2 j = FLT_MAX ∧ j < 2) := by
  intro j hj _
  left
  interval_cases j <;> norm_num [exMatrixSmall, FLT_MAX]

theorem C7_dcg_range_witness :
    ∃ t, psbTable.calcDCG exLog10 exToFloat exCatsPairs 4 [0, 0, 1, 1]
        (psbTable.readMatrix FLT_MAX 4 exMatrixSmall) 2 zeroTable = some t ∧
      0 ≤ t._dcg ∧ t._dcg ≤ 1 :=
  C7_dcg_range exLog10 exToFloat FLT_MAX exCatsPairs 4 [0, 0, 1, 1] exMatrixSmall 2 zeroTable
    (by decide) (by decide) (by decide) exMatrixSmall_below exLog10_pos exLog10_mono
    exToFloat_nonneg exToFloat_mono (le_of_eq exToFloat_gain_two)

/-- In `exMatrixFar` the cross-class entries of row 0 equal `FLT_MAX`, the query
ties with them and is ranked second, behind the other member of its class; for
every positive `log10` and every conversion to `float` that gives rank 2 a
positive gain, the total gain is `1 + gain(2)` against a normalisation of `1`,
and `calcDCG` does not return a value `≤ 1`. -/
theorem C7_counterexample :
    createModelClassMapping exCatsPairs = some (4, [0, 0, 1, 1]) ∧
    ¬ ∃ log10 toFloat : ℚ → ℚ, (∀ r : Nat, 2 ≤ r → 0 < log10 (r : ℚ)) ∧
      (∀ x : ℚ, 0 ≤ x → 0 ≤ toFloat x) ∧
      0 < toFloat (1 / psbTable.log2 log10 ((2 : Nat) : ℚ)) ∧
      ∃ t, psbTable.calcDCG log10 toFloat exCatsPairs 4 [0, 0, 1, 1]
          (psbTable.readMatrix FLT_MAX 4 exMatrixFar) 0 zeroTable = some t ∧ t._dcg ≤ 1 := by
  refine ⟨by decide, ?_⟩
  rintro ⟨log10, toFloat, hpos, hcast, hg2, t, ht, hd⟩
  rw [calcDCG_eq log10 toFloat exCatsPairs 4 [0, 0, 1, 1] _ 0 zeroTable hpos hcast
    (by decide)] at ht
  rw [← Option.some.inj ht] at hd
  have hg : 0 < gain log10 toFloat 2 := by
    unfold gain
    rw [if_neg (by decide)]
    exact hg2
  have hf : (List.range' 1 (4 - 1)).filter (fun r => decide
      (rankClass [0, 0, 1, 1] (psbTable.readMatrix FLT_MAX 4 exMatrixFar) 0 (r - 1)
        = ([0, 0, 1, 1] : List Nat).getD 0 0)) = [1, 2] := by decide
  have htot : totalGain log10 toFloat [0, 0, 1, 1]
      (psbTable.readMatrix FLT_MAX 4 exMatrixFar) 0 4 = 1 + gain log10 toFloat 2 := by
    unfold totalGain
    rw [hf]
    simp [gain]
  have hi : idealDcg log10 toFloat
      (exCatsPairs.numModelsOf (([0, 0, 1, 1] : List Nat).getD 0 0) - 1) = 1 := by
    simp [idealDcg, exCatsPairs, PSBCategoryList.numModelsOf]
  simp only [htot, hi, div_one] at hd
  linarith

/-! ## Theorems: E-measure -/

/-- The value of `calcEF` in closed form, `count` being the number of entries
of the query's class among the first `K = min(N-1, 32)` ranked entries and
`classSize` the class size without the query. With `classSize = 0` and `K = 0`
recall and precision are both NaN and so is the result; with `classSize = 0`
and `count > 0` recall is infinite, `1/recall` is zero and the result is twice
the precision; in every other case the result is the value of `eMeasure`. -/
theorem calcEF_eq {α : Type} (cats : PSBCategoryList) (N : Nat) (idToClass : List Nat)
    (ranks : List (List (Rank α))) (model : Nat) (table : Table) :
    psbTable.calcEF cats N idToClass ranks model table
      = if cats.numModelsOf (idToClass.getD model 0) - 1 = 0 ∧ min (N - 1) 32 = 0 then none
        else if cats.numModelsOf (idToClass.getD model 0) - 1 = 0
            ∧ 0 < correctCount idToClass ranks model (min (N - 1) 32) then
          some { table with
            _e := 2 * ((correctCount idToClass ranks model (min (N - 1) 32) : Nat) : ℚ)
              / ((min (N - 1) 32 : Nat) : ℚ) }
        else some { table with
          _e := eMeasure (correctCount idToClass ranks model (min (N - 1) 32))
            (cats.numModelsOf (idToClass.getD model 0) - 1) (min (N - 1) 32) } := by
  have hk : (if N - 1 < K then N - 1 else K) = min (N - 1) 32 := by
    unfold K
    rw [Nat.min_def]
    split_ifs <;> omega
  have h1 := forLoop_count_zero
    (fun i => rankClass idToClass ranks model i = idToClass.getD model 0) (min (N - 1) 32)
  have hle : (List.range (min (N - 1) 32)).countP
      (fun i => decide (rankClass idToClass ranks model i = idToClass.getD model 0))
      ≤ min (N - 1) 32 := by
    have h := List.countP_le_length
      (fun i => decide (rankClass idToClass ranks model i = idToClass.getD model 0))
      (l := List.range (min (N - 1) 32))
    rw [List.length_range] at h
    exact h
  unfold psbTable.calcEF
  simp only [hk, h1]
  unfold correctCount
  generalize (List.range (min (N - 1) 32)).countP
    (fun i => decide (rankClass idToClass ranks model i = idToClass.getD model 0)) = count
    at hle ⊢
  generalize cats.numModelsOf (idToClass.getD model 0) - 1 = c
  generalize min (N - 1) 32 = k at hle ⊢
  by_cases hcount : count = 0
  · subst hcount
    by_cases hc : c = 0
    · subst hc
      by_cases hk0 : k = 0
      · subst hk0
        simp [FloatVal.div, FloatVal.add, FloatVal.isZero]
      · have hkq : (k : ℚ) ≠ 0 := Nat.cast_ne_zero.mpr hk0
        simp [FloatVal.div, FloatVal.isZero, hk0, hkq, eMeasure]
    · have hcq : (c : ℚ) ≠ 0 := Nat.cast_ne_zero.mpr hc
      simp [FloatVal.div, FloatVal.isZero, hc, hcq, eMeasure]
  · have hk0 : k ≠ 0 := by omega
    have hkq : (k : ℚ) ≠ 0 := Nat.cast_ne_zero.mpr hk0
    have hnq : (count : ℚ) ≠ 0 := Nat.cast_ne_zero.mpr hcount
    have hnpos : (0 : ℚ) < (count : ℚ) := Nat.cast_pos.mpr (Nat.pos_of_ne_zero hcount)
    have hkpos : (0 : ℚ) < (k : ℚ) := Nat.cast_pos.mpr (Nat.pos_of_ne_zero hk0)
    by_cases hc : c = 0
    · subst hc
      have hcp : 0 < count := Nat.pos_of_ne_zero hcount
      simp [FloatVal.div, FloatVal.add, FloatVal.isZero, hk0, hkq, hnq, hnpos, hcp]
      field_simp
    · have hcq : (c : ℚ) ≠ 0 := Nat.cast_ne_zero.mpr hc
      have hcpos : (0 : ℚ) < (c : ℚ) := Nat.cast_pos.mpr (Nat.pos_of_ne_zero hc)
      have hs : (c : ℚ) / (count : ℚ) + (k : ℚ) / (count : ℚ) ≠ 0 :=
        ne_of_gt (add_pos (div_pos hcpos hnpos) (div_pos hkpos hnpos))
      simp [FloatVal.div, FloatVal.add, FloatVal.isZero, hc, hk0, hkq, hcq, hnq, hs, eMeasure]

/-- Claim C8: for every query model `calcEF` computes, with `K = min(N-1, 32)`,
`count` the number of entries of the query's class among the first `K` ranked
entries, `recall = count / classSize` (class size without the query) and
`precision = count / K`, the value `eMeasure = 0` if recall or precision is zero
and `2 / (1/recall + 1/precision)` otherwise, the quotients being float
quotients. When `classSize ≥ 1` and `K ≥ 1` they are numbers and the result is
the value of that formula in exact arithmetic. For a class of one model
(`classSize = 0`) recall is NaN when `count = 0`: the result is `0` as soon as
`K ≥ 1` (precision is zero) and NaN when `K = 0`; recall is infinite when
`count > 0`, and the result is `2 * precision`. -/
theorem C8_eMeasure {α : Type} (cats : PSBCategoryList) (N : Nat) (idToClass : List Nat)
    (ranks : List (List (Rank α))) (model : Nat) (table : Table) :
    (psbTable.calcEF cats N idToClass ranks model table
      = if cats.numModelsOf (idToClass.getD model 0) - 1 = 0 ∧ min (N - 1) 32 = 0 then none
        else if cats.numModelsOf (idToClass.getD model 0) - 1 = 0
            ∧ 0 < correctCount idToClass ranks model (min (N - 1) 32) then
          some { table with
            _e := 2 * ((correctCount idToClass ranks model (min (N - 1) 32) : Nat) : ℚ)
              / ((min (N - 1) 32 : Nat) : ℚ) }
        else some { table with
          _e := eMeasure (correctCount idToClass ranks model (min (N - 1) 32))
            (cats.numModelsOf (idToClass.getD model 0) - 1) (min (N - 1) 32) }) ∧
    (1 ≤ cats.numModelsOf (idToClass.getD model 0) - 1 →
      psbTable.calcEF cats N idToClass ranks model table
        = some { table with
          _e := eMeasure (correctCount idToClass ranks model (min (N - 1) 32))
            (cats.numModelsOf (idToClass.getD model 0) - 1) (min (N - 1) 32) }) ∧
    (cats.numModelsOf (idToClass.getD model 0) - 1 = 0 → 1 ≤ min (N - 1) 32 →
      correctCount idToClass ranks model (min (N - 1) 32) = 0 →
      psbTable.calcEF cats N idToClass ranks model table = some { table with _e := 0 }) := by
  refine ⟨calcEF_eq cats N idToClass ranks model table, ?_, ?_⟩
  · intro hc
    rw [calcEF_eq, if_neg (by omega), if_neg (by omega)]
  · intro hc hK hcount
    rw [calcEF_eq, if_neg (by omega), if_neg (by omega), hcount]
    simp [eMeasure]

/-! ## Theorems: precision-recall curve of a model -/

theorem correctCount_mono {α : Type} (idToClass : List Nat) (ranks : List (List (Rank α)))
    (model : Nat) {n m : Nat} (h : n ≤ m) :
    correctCount idToClass ranks model n ≤ correctCount idToClass ranks model m := by
  induction m, h using Nat.le_induction with
  | base => exact le_rfl
  | succ m _ ih =>
    rw [correctCount_succ]
    omega

/-- The inner loop of `calcModelPerf` over the first `n` rank positions: it
does not write past the buffer, and has written one value per entry of the
query's class. -/
theorem perfLoop_length {α : Type} (cats : PSBCategoryList) (N : Nat) (idToClass : List Nat)
    (ranks : List (List (Rank α))) (modelIndex : Nat)
    (hmap : createModelClassMapping cats = some (N, idToClass))
    (hperm : ((ranks.getD modelIndex []).map Rank._index).Perm (List.range N)) :
    ∀ n, n ≤ N → ∃ perf, (List.range' 0 n).foldl
        (fun (s : Except psbPlot.Fault (List ℚ)) i =>
          s.bind (fun perf => psbPlot.perfStep idToClass ranks modelIndex
            (cats.numModelsOf (idToClass.getD modelIndex 0)) perf i)) (.ok []) = .ok perf ∧
      perf.length = correctCount idToClass ranks modelIndex n := by
  intro n
  induction n with
  | zero =>
    intro _
    exact ⟨[], rfl, by simp [correctCount]⟩
  | succ n ih =>
    intro hn
    obtain ⟨perf, hfold, hlen⟩ := ih (by omega)
    have hall := correctCount_all cats N idToClass ranks modelIndex hmap hperm
    have hmono := correctCount_mono idToClass ranks modelIndex hn
    rw [hall, correctCount_succ] at hmono
    rw [List.range'_concat, List.foldl_append, hfold]
    simp only [Nat.zero_add, Nat.one_mul, List.foldl_cons, List.foldl_nil]
    rw [correctCount_succ]
    by_cases hs : rankClass idToClass ranks modelIndex n = idToClass.getD modelIndex 0
    · rw [if_pos hs] at hmono ⊢
      refine ⟨perf ++ [((perf.length + 1 : Nat) : ℚ) / ((n + 1 : Nat) : ℚ)], ?_, ?_⟩
      · show psbPlot.perfStep idToClass ranks modelIndex _ perf n = _
        unfold psbPlot.perfStep
        rw [if_pos hs.symm, if_pos (by omega)]
      · rw [List.length_append, hlen]
        rfl
    · rw [if_neg hs]
      refine ⟨perf, ?_, hlen⟩
      show psbPlot.perfStep idToClass ranks modelIndex _ perf n = _
      unfold psbPlot.perfStep
      rw [if_neg (fun h => hs h.symm)]

/-- The curve of one model, for a ranking that is a permutation of all
positions. -/
theorem calcModelPerfModel_ok {α : Type} (cats : PSBCategoryList) (N : Nat)
    (idToClass : List Nat) (ranks : List (List (Rank α))) (modelIndex : Nat)
    (hmap : createModelClassMapping cats = some (N, idToClass))
    (hperm : ((ranks.getD modelIndex []).map Rank._index).Perm (List.range N)) :
    ∃ p, psbPlot.calcModelPerfModel cats N idToClass ranks modelIndex = .ok p ∧
      p._num = cats.numModelsOf (idToClass.getD modelIndex 0) ∧
      p._perf.length = cats.numModelsOf (idToClass.getD modelIndex 0) := by
  obtain ⟨perf, hfold, hlen⟩ :=
    perfLoop_length cats N idToClass ranks modelIndex hmap hperm N le_rfl
  rw [correctCount_all cats N idToClass ranks modelIndex hmap hperm] at hlen
  refine ⟨{ _num := cats.numModelsOf (idToClass.getD modelIndex 0), _perf := perf }, ?_, rfl, hlen⟩
  unfold psbPlot.calcModelPerfModel
  simp only [hfold]
  rw [if_neg (by simp [hlen])]

/-- The outer loop of `calcModelPerf` over the first `n` models. -/
theorem calcModelPerf_loop {α : Type} (miscClass : String) (cats : PSBCategoryList) (N : Nat)
    (idToClass : List Nat) (ranks : List (List (Rank α)))
    (hmap : createModelClassMapping cats = some (N, idToClass))
    (hperm : ∀ m, m < N → ((ranks.getD m []).map Rank._index).Perm (List.range N)) :
    ∀ n, n ≤ N → ∃ perfs, (List.range' 0 n).foldl
        (fun (s : Except psbPlot.Fault (List Perf)) modelIndex =>
          s.bind (fun acc =>
            if cats.nameOf (idToClass.getD modelIndex 0) = miscClass then
              .ok (acc ++ [{ _num := 0, _perf := [] }])
            else
              (psbPlot.calcModelPerfModel cats N idToClass ranks modelIndex).bind
                (fun p => .ok (acc ++ [p])))) (.ok []) = .ok perfs ∧
      perfs.length = n ∧
      ∀ m, m < n → cats.nameOf (idToClass.getD m 0) ≠ miscClass →
        ∃ p, perfs[m]? = some p ∧
          psbPlot.calcModelPerfModel cats N idToClass ranks m = .ok p ∧
          p._num = cats.numModelsOf (idToClass.getD m 0) ∧
          p._perf.length = cats.numModelsOf (idToClass.getD m 0) := by
  intro n
  induction n with
  | zero =>
    intro _
    exact ⟨[], rfl, rfl, fun m hm => absurd hm (Nat.not_lt_zero m)⟩
  | succ n ih =>
    intro hn
    obtain ⟨acc, hfold, hlen, hacc⟩ := ih (by omega)
    rw [List.range'_concat, List.foldl_append, hfold]
    simp only [Nat.zero_add, Nat.one_mul, List.foldl_cons, List.foldl_nil]
    by_cases hmisc : cats.nameOf (idToClass.getD n 0) = miscClass
    · refine ⟨acc ++ [{ _num := 0, _perf := [] }], ?_, ?_, ?_⟩
      · show (if cats.nameOf (idToClass.getD n 0) = miscClass then _ else _) = _
        rw [if_pos hmisc]
      · rw [List.length_append, hlen]
        rfl
      · intro m hm hne
        have hmn : m < n := by
          rcases Nat.lt_succ_iff_lt_or_eq.mp hm with h | h
          · exact h
          · subst h
            exact absurd hmisc hne
        obtain ⟨p, hp, hrest⟩ := hacc m hmn hne
        exact ⟨p, by rw [List.getElem?_append_left (by omega), hp], hrest⟩
    · obtain ⟨q, hq, hq1, hq2⟩ :=
        calcModelPerfModel_ok cats N idToClass ranks n hmap (hperm n (by omega))
      refine ⟨acc ++ [q], ?_, ?_, ?_⟩
      · show (if cats.nameOf (idToClass.getD n 0) = miscClass then _ else _) = _
        rw [if_neg hmisc, hq]
        rfl
      · rw [List.length_append, hlen]
        rfl
      · intro m hm hne
        rcases Nat.lt_succ_iff_lt_or_eq.mp hm with h | h
        · obtain ⟨p, hp, hrest⟩ := hacc m h hne
          exact ⟨p, by rw [List.getElem?_append_left (by omega), hp], hrest⟩
        · subst h
          refine ⟨q, ?_, hq, hq1, hq2⟩
          rw [List.getElem?_append_right (by omega), hlen, Nat.sub_self]
          rfl

/-- Claim C10: for every category list and every ranking that is a permutation
of all `N` positions, the curve construction of `calcModelPerf` (built with
`USE_QUERY = 1`) for that model neither writes past its `cSize` buffer entries
nor fails the final `count != cSize` check, and emits exactly `cSize` values,
`cSize` being the size of the model's class; when all rankings are
permutations, `calcModelPerf` completes and the curve it stores for every model
outside the miscellaneous class is that curve. -/
theorem C10_curve_length {α : Type} (miscClass : String) (cats : PSBCategoryList) (N : Nat)
    (idToClass : List Nat) (ranks : List (List (Rank α)))
    (hmap : createModelClassMapping cats = some (N, idToClass)) :
    (∀ m, ((ranks.getD m []).map Rank._index).Perm (List.range N) →
      ∃ p, psbPlot.calcModelPerfModel cats N idToClass ranks m = .ok p ∧
        p._num = cats.numModelsOf (idToClass.getD m 0) ∧
        p._perf.length = cats.numModelsOf (idToClass.getD m 0)) ∧
    ((∀ m, m < N → ((ranks.getD m []).map Rank._index).Perm (List.range N)) →
      ∃ perfs, psbPlot.calcModelPerf miscClass cats N idToClass ranks = .ok perfs ∧
        perfs.length = N ∧
        ∀ m, m < N → cats.nameOf (idToClass.getD m 0) ≠ miscClass →
          ∃ p, perfs[m]? = some p ∧
            psbPlot.calcModelPerfModel cats N idToClass ranks m = .ok p ∧
            p._num = cats.numModelsOf (idToClass.getD m 0) ∧
            p._perf.length = cats.numModelsOf (idToClass.getD m 0)) :=
  ⟨fun m hperm => calcModelPerfModel_ok cats N idToClass ranks m hmap hperm,
    fun hperm => calcModelPerf_loop miscClass cats N idToClass ranks hmap hperm N le_rfl⟩

theorem exRanks_perm :
    ∀ m, m < 6 → ((exRanks.getD m []).map Rank._index).Perm (List.range 6) := by
  intro m hm
  interval_cases m <;> decide

theorem C10_curve_length_witness :
    createModelClassMapping exCats = some (6, exIds) ∧
    ∃ perfs, psbPlot.calcModelPerf "misc" exCats 6 exIds exRanks = .ok perfs ∧
      perfs.length = 6 ∧
      ∀ m, m < 6 → exCats.nameOf (exIds.getD m 0) ≠ "misc" →
        ∃ p, perfs[m]? = some p ∧
          psbPlot.calcModelPerfModel exCats 6 exIds exRanks m = .ok p ∧
          p._num = exCats.numModelsOf (exIds.getD m 0) ∧
          p._perf.length = exCats.numModelsOf (exIds.getD m 0) :=
  ⟨by decide, (C10_curve_length "misc" exCats 6 exIds exRanks (by decide)).2 exRanks_perm⟩

/-! ## Theorems: positions and class blocks of the model index -/

theorem classBlocks_succ (sz : Nat → Nat) (n : Nat) :
    (List.range (n + 1)).flatMap (fun i => List.replicate (sz i) i)
      = (List.range n).flatMap (fun i => List.replicate (sz i) i) ++ List.replicate (sz n) n := by
  rw [List.range_succ, List.flatMap_append]
  simp

theorem classOffset_succ (cats : PSBCategoryList) (c : Nat) :
    classOffset cats (c + 1) = classOffset cats c + cats.numModelsOf c := by
  unfold classOffset
  rw [List.range_succ, List.map_append, List.sum_append]
  simp

theorem classOffset_mono (cats : PSBCategoryList) {a b : Nat} (h : a ≤ b) :
    classOffset cats a ≤ classOffset cats b := by
  induction b, h using Nat.le_induction with
  | base => exact le_rfl
  | succ b _ ih =>
    rw [classOffset_succ]
    omega

theorem classBlocks_getElem (cats : PSBCategoryList) (n p : Nat)
    (hp : p < classOffset cats n) :
    ∃ c, c < n ∧
      ((List.range n).flatMap (fun i => List.replicate (cats.numModelsOf i) i))[p]? = some c ∧
      classOffset cats c ≤ p ∧ p < classOffset cats (c + 1) := by
  induction n with
  | zero => simp [classOffset] at hp
  | succ n ih =>
    have hlen : ((List.range n).flatMap (fun i => List.replicate (cats.numModelsOf i) i)).length
        = classOffset cats n := length_classBlocks cats.numModelsOf n
    rw [classBlocks_succ]
    by_cases h : p < classOffset cats n
    · obtain ⟨c, hc, hget, h1, h2⟩ := ih h
      refine ⟨c, by omega, ?_, h1, h2⟩
      rw [List.getElem?_append_left (by omega)]
      exact hget
    · rw [classOffset_succ] at hp
      refine ⟨n, by omega, ?_, by omega, by rw [classOffset_succ]; omega⟩
      rw [List.getElem?_append_right (by omega), hlen]
      have hlt : p - classOffset cats n < (List.replicate (cats.numModelsOf n) n).length := by
        rw [List.length_replicate]
        omega
      rw [List.getElem?_eq_getElem hlt, List.getElem_replicate]

theorem sum_numModelsOf (cats : PSBCategoryList) :
    ((List.range cats._numCategories).map cats.numModelsOf).sum
      = (cats._categories.map PSBCategory._numModels).sum := by
  congr 1
  apply List.ext_getElem
  · simp [PSBCategoryList._numCategories]
  · intro i h1 h2
    have h3 : i < cats._categories.length := by
      rw [List.length_map] at h2
      exact h2
    simp [PSBCategoryList.numModelsOf, List.getElem?_eq_getElem h3]

theorem plotInner_loop (l : List Nat) (i : Nat) (g : Nat → Int) (s : List Nat × List Int) :
    (l.foldl (fun (s2 : List Nat × List Int) j => (s2.1 ++ [i], s2.2 ++ [g j])) s).1
        = s.1 ++ List.replicate l.length i ∧
    (l.foldl (fun (s2 : List Nat × List Int) j => (s2.1 ++ [i], s2.2 ++ [g j])) s).2.length
        = s.2.length + l.length := by
  induction l generalizing s with
  | nil => simp
  | cons a l ih =>
    rw [List.foldl_cons]
    obtain ⟨h1, h2⟩ := ih (s.1 ++ [i], s.2 ++ [g a])
    rw [h1, h2]
    constructor
    · simp [List.replicate_succ]
    · simp
      omega

theorem plotOuter_loop (sz : Nat → Nat) (g : Nat → Nat → Int) (l : List Nat)
    (s : List Nat × List Int) :
    (l.foldl (fun (s1 : List Nat × List Int) i =>
        List.foldl (fun (s2 : List Nat × List Int) j => (s2.1 ++ [i], s2.2 ++ [g i j])) s1
          (List.range' 0 (sz i))) s).1
        = s.1 ++ l.flatMap (fun i => List.replicate (sz i) i) ∧
    (l.foldl (fun (s1 : List Nat × List Int) i =>
        List.foldl (fun (s2 : List Nat × List Int) j => (s2.1 ++ [i], s2.2 ++ [g i j])) s1
          (List.range' 0 (sz i))) s).2.length
        = s.2.length + (l.map sz).sum := by
  induction l generalizing s with
  | nil => simp
  | cons a l ih =>
    rw [List.foldl_cons]
    obtain ⟨h1, h2⟩ := ih (List.foldl
      (fun (s2 : List Nat × List Int) j => (s2.1 ++ [a], s2.2 ++ [g a j])) s
      (List.range' 0 (sz a)))
    obtain ⟨h3, h4⟩ := plotInner_loop (List.range' 0 (sz a)) a (g a) s
    rw [h1, h2, h3, h4]
    constructor
    · simp
    · simp
      omega

/-- Claim C20: for every category list `createModelClassMapping` returns (its
final assertion `idNum == N` holds), `N` is the sum of all categories' member
counts, and for every position `p < N` the entry `idToClass[p]` is the unique
category index `c` with `(sizes before c) ≤ p < (sizes up to and including c)`;
the psbPlot variant returns the same `N` and `idToClass`, with `N` model
identifiers. -/
theorem C20_model_index (cats : PSBCategoryList) :
    ∃ N idToClass, createModelClassMapping cats = some (N, idToClass) ∧
      N = (cats._categories.map PSBCategory._numModels).sum ∧
      idToClass.length = N ∧
      (∀ p, p < N → ∃ c, c < cats._numCategories ∧ idToClass[p]? = some c ∧
        classOffset cats c ≤ p ∧ p < classOffset cats (c + 1) ∧
        ∀ c', classOffset cats c' ≤ p → p < classOffset cats (c' + 1) → c' = c) ∧
      (∀ atoi : String → Int, ∃ models,
        psbPlot.createModelClassMapping atoi cats = some (N, idToClass, models) ∧
        models.length = N) := by
  refine ⟨_, _, createModelClassMapping_eq cats, sum_numModelsOf cats,
    length_classBlocks cats.numModelsOf cats._numCategories, ?_, ?_⟩
  · intro p hp
    obtain ⟨c, hc, hget, h1, h2⟩ := classBlocks_getElem cats cats._numCategories p hp
    refine ⟨c, hc, hget, h1, h2, ?_⟩
    intro c' h1' h2'
    rcases Nat.lt_trichotomy c' c with h | h | h
    · have := classOffset_mono cats (show c' + 1 ≤ c from h)
      omega
    · exact h
    · have := classOffset_mono cats (show c + 1 ≤ c' from h)
      omega
  · intro atoi
    obtain ⟨h1, h2⟩ := plotOuter_loop cats.numModelsOf
      (fun i j => atoi (match cats._categories[i]? with
        | some cat => cat._models.getD j ""
        | none => ""))
      (List.range' 0 cats._numCategories) ([], [])
    rw [← List.range_eq_range', List.nil_append] at h1
    rw [← List.range_eq_range', List.length_nil, Nat.zero_add] at h2
    refine ⟨_, ?_, h2⟩
    unfold psbPlot.createModelClassMapping
    simp only [forLoop, Nat.sub_zero]
    rw [numModels_loop, ← List.range_eq_range', Nat.zero_add]
    rw [if_pos (by rw [h1]; exact length_classBlocks _ _), h1]

/-! ## Theorems: the values of a model's curve -/

theorem sameRanks_succ {α : Type} (idToClass : List Nat) (ranks : List (List (Rank α)))
    (model n : Nat) :
    sameRanks idToClass ranks model (n + 1)
      = sameRanks idToClass ranks model n
        ++ (if idToClass.getD model 0 = rankClass idToClass ranks model n then [n + 1] else []) := by
  unfold sameRanks
  rw [List.range'_concat, List.filter_append]
  congr 1
  by_cases h : idToClass.getD model 0 = rankClass idToClass ranks model n
  · rw [if_pos h]
    simp only [Nat.one_mul, List.filter_cons, List.filter_nil]
    rw [if_pos (by simpa using h)]
    rw [Nat.add_comm]
  · rw [if_neg h]
    simp only [Nat.one_mul, List.filter_cons, List.filter_nil]
    rw [if_neg (by simpa using h)]

theorem length_sameRanks {α : Type} (idToClass : List Nat) (ranks : List (List (Rank α)))
    (model n : Nat) :
    (sameRanks idToClass ranks model n).length = correctCount idToClass ranks model n := by
  induction n with
  | zero => simp [sameRanks, correctCount]
  | succ n ih =>
    rw [sameRanks_succ, correctCount_succ, List.length_append, ih]
    by_cases h : idToClass.getD model 0 = rankClass idToClass ranks model n
    · rw [if_pos h, if_pos h.symm]
      rfl
    · rw [if_neg h, if_neg (fun e => h e.symm)]
      rfl

theorem length_curveOf (rs : List Nat) : (curveOf rs).length = rs.length := by
  simp [curveOf]

theorem curveOf_concat (rs : List Nat) (r : Nat) :
    curveOf (rs ++ [r]) = curveOf rs ++ [((rs.length + 1 : Nat) : ℚ) / ((r : Nat) : ℚ)] := by
  unfold curveOf
  rw [List.length_append, List.length_singleton, List.range'_concat,
    List.zipWith_append _ _ _ _ _ (by simp)]
  simp [Nat.add_comm]

theorem curveOf_getElem? (rs : List Nat) (k r : Nat) (h : rs[k]? = some r) :
    (curveOf rs)[k]? = some (((k + 1 : Nat) : ℚ) / ((r : Nat) : ℚ)) := by
  have hk : k < rs.length := (List.getElem?_eq_some.mp h).1
  unfold curveOf
  rw [List.getElem?_zipWith, List.getElem?_range' 1 1 hk, h]
  simp [Nat.add_comm]

/-- The inner loop of `calcModelPerf` over the first `n` rank positions writes
the curve of the same-class ranks met so far. -/
theorem perfLoop_values {α : Type} (cats : PSBCategoryList) (N : Nat) (idToClass : List Nat)
    (ranks : List (List (Rank α))) (modelIndex : Nat)
    (hmap : createModelClassMapping cats = some (N, idToClass))
    (hperm : ((ranks.getD modelIndex []).map Rank._index).Perm (List.range N)) :
    ∀ n, n ≤ N → (List.range' 0 n).foldl
        (fun (s : Except psbPlot.Fault (List ℚ)) i =>
          s.bind (fun perf => psbPlot.perfStep idToClass ranks modelIndex
            (cats.numModelsOf (idToClass.getD modelIndex 0)) perf i)) (.ok [])
      = .ok (curveOf (sameRanks idToClass ranks modelIndex n)) := by
  intro n
  induction n with
  | zero =>
    intro _
    rfl
  | succ n ih =>
    intro hn
    have hall := correctCount_all cats N idToClass ranks modelIndex hmap hperm
    have hmono := correctCount_mono idToClass ranks modelIndex hn
    rw [hall, correctCount_succ] at hmono
    rw [List.range'_concat, List.foldl_append, ih (by omega)]
    simp only [Nat.zero_add, Nat.one_mul, List.foldl_cons, List.foldl_nil]
    rw [sameRanks_succ]
    show psbPlot.perfStep idToClass ranks modelIndex _ _ n = _
    unfold psbPlot.perfStep
    by_cases hs : idToClass.getD modelIndex 0 = rankClass idToClass ranks modelIndex n
    · rw [if_pos hs.symm] at hmono
      rw [if_pos hs, if_pos hs, curveOf_concat, length_curveOf, length_sameRanks,
        if_pos (by omega)]
    · rw [if_neg hs, if_neg hs, List.append_nil]

/-- The curve of one model in closed form, for a ranking that is a permutation
of all positions. -/
theorem calcModelPerfModel_eq {α : Type} (cats : PSBCategoryList) (N : Nat)
    (idToClass : List Nat) (ranks : List (List (Rank α))) (modelIndex : Nat)
    (hmap : createModelClassMapping cats = some (N, idToClass))
    (hperm : ((ranks.getD modelIndex []).map Rank._index).Perm (List.range N)) :
    psbPlot.calcModelPerfModel cats N idToClass ranks modelIndex
      = .ok { _num := cats.numModelsOf (idToClass.getD modelIndex 0)
              _perf := curveOf (sameRanks idToClass ranks modelIndex N) } := by
  have hlen : (curveOf (sameRanks idToClass ranks modelIndex N)).length
      = cats.numModelsOf (idToClass.getD modelIndex 0) := by
    rw [length_curveOf, length_sameRanks,
      correctCount_all cats N idToClass ranks modelIndex hmap hperm]
  unfold psbPlot.calcModelPerfModel
  simp only [perfLoop_values cats N idToClass ranks modelIndex hmap hperm N le_rfl]
  rw [if_neg (by simp [hlen])]

/-- Claim C11: for a query model whose ranking is a permutation of all `N`
positions, the curve built by `calcModelPerf` has as many values as the
model's class has members, and its `k`-th value (`k = 1..class size`) equals
`k / r_k`, where `r_k` is the 1-indexed rank, in the ranking over all `N`
models (the query included), of the `k`-th entry of the query's class. -/
theorem C11_curve_values {α : Type} (cats : PSBCategoryList) (N : Nat)
    (idToClass : List Nat) (ranks : List (List (Rank α))) (modelIndex : Nat)
    (hmap : createModelClassMapping cats = some (N, idToClass))
    (hperm : ((ranks.getD modelIndex []).map Rank._index).Perm (List.range N)) :
    ∃ p, psbPlot.calcModelPerfModel cats N idToClass ranks modelIndex = .ok p ∧
      p._perf.length = cats.numModelsOf (idToClass.getD modelIndex 0) ∧
      (sameRanks idToClass ranks modelIndex N).length
        = cats.numModelsOf (idToClass.getD modelIndex 0) ∧
      ∀ k, k < cats.numModelsOf (idToClass.getD modelIndex 0) →
        ∃ r, (sameRanks idToClass ranks modelIndex N)[k]? = some r ∧
          p._perf[k]? = some (((k + 1 : Nat) : ℚ) / ((r : Nat) : ℚ)) := by
  have hlen : (sameRanks idToClass ranks modelIndex N).length
      = cats.numModelsOf (idToClass.getD modelIndex 0) := by
    rw [length_sameRanks, correctCount_all cats N idToClass ranks modelIndex hmap hperm]
  refine ⟨_, calcModelPerfModel_eq cats N idToClass ranks modelIndex hmap hperm, ?_, hlen, ?_⟩
  · rw [length_curveOf, hlen]
  · intro k hk
    have hk2 : k < (sameRanks idToClass ranks modelIndex N).length := by omega
    exact ⟨_, List.getElem?_eq_getElem hk2,
      curveOf_getElem? _ k _ (List.getElem?_eq_getElem hk2)⟩

theorem C11_curve_values_witness :
    ∃ p, psbPlot.calcModelPerfModel exCats 6 exIds exRanks 0 = .ok p ∧
      p._perf.length = exCats.numModelsOf (exIds.getD 0 0) ∧
      (sameRanks exIds exRanks 0 6).length = exCats.numModelsOf (exIds.getD 0 0) ∧
      ∀ k, k < exCats.numModelsOf (exIds.getD 0 0) →
        ∃ r, (sameRanks exIds exRanks 0 6)[k]? = some r ∧
          p._perf[k]? = some (((k + 1 : Nat) : ℚ) / ((r : Nat) : ℚ)) :=
  C11_curve_values exCats 6 exIds exRanks 0 (by decide) (exRanks_perm 0 (by decide))

/-! ## Theorems: interpolation at the points of a curve -/

theorem truncate_natCast (k : Nat) : truncate ((k : Nat) : ℚ) = (k : Int) := by
  unfold truncate
  rw [if_pos (Nat.cast_nonneg k), Int.floor_natCast]

/-- The value of `interpolatePerf` when the position `index * bins - 1` is the
natural number `k` below `bins`. -/
theorem interpolatePerf_at_nat (p : Perf) (index : ℚ) (k : Nat) (hk : k < p._num)
    (hxx : index * ((p._num : Int) : ℚ) - 1 = ((k : Nat) : ℚ)) :
    psbPlot.interpolatePerf p index = p._perf.getD k 0 := by
  have hb : ((p._num : Nat) : Int) ≠ 0 := by
    have : 0 < p._num := by omega
    exact_mod_cast (Nat.pos_iff_ne_zero.mp this)
  unfold psbPlot.interpolatePerf
  simp only [hxx, truncate_natCast]
  rw [if_neg hb]
  have h1 : ¬ ((k : Int) < 0) := by omega
  have h2 : ¬ ((k : Int) ≥ ((p._num : Nat) : Int)) := by omega
  have h3 : ¬ ((k : Int) + 1 < 0) := by omega
  simp only [if_neg h1, if_neg h2, if_neg h3]
  simp

theorem interpolatePerf_at_point (p : Perf) (k : Nat) (hk : k < p._num) :
    psbPlot.interpolatePerf p (((k + 1 : Nat) : ℚ) / ((p._num : Nat) : ℚ))
      = p._perf.getD k 0 := by
  apply interpolatePerf_at_nat p _ k hk
  have hn : ((p._num : Nat) : ℚ) ≠ 0 := Nat.cast_ne_zero.mpr (by omega)
  rw [Int.cast_natCast, div_mul_cancel₀ _ hn]
  push_cast
  ring

/-- Claim C12: for every curve with `bins ≥ 1` points and every `k` in
`0..bins-1`, `interpolatePerf(curve, (k+1)/bins)` equals `curve[k]` in exact
arithmetic; in particular `interpolatePerf(curve, 1.0)` is the last point and
`interpolatePerf(curve, 1/bins)` is `curve[0]`. -/
theorem C12_interpolate_at_points (p : Perf) (k : Nat) (hnum : p._num = p._perf.length)
    (hk : k < p._num) :
    p._perf[k]? = some (psbPlot.interpolatePerf p (((k + 1 : Nat) : ℚ) / ((p._num : Nat) : ℚ))) ∧
    p._perf.getLast? = some (psbPlot.interpolatePerf p 1) ∧
    p._perf[0]? = some (psbPlot.interpolatePerf p (1 / ((p._num : Nat) : ℚ))) := by
  have hn : ((p._num : Nat) : ℚ) ≠ 0 := Nat.cast_ne_zero.mpr (by omega)
  have hget : ∀ i, i < p._num → p._perf[i]? = some (p._perf.getD i 0) := by
    intro i hi
    have hi2 : i < p._perf.length := by omega
    rw [List.getD_eq_getElem?_getD, List.getElem?_eq_getElem hi2]
    rfl
  refine ⟨?_, ?_, ?_⟩
  · rw [interpolatePerf_at_point p k hk]
    exact hget k hk
  · have h1 := interpolatePerf_at_point p (p._num - 1) (by omega)
    have e : ((p._num - 1 + 1 : Nat) : ℚ) / ((p._num : Nat) : ℚ) = 1 := by
      rw [Nat.sub_add_cancel (by omega), div_self hn]
    rw [e] at h1
    rw [h1, List.getLast?_eq_getElem?, ← hnum]
    exact hget (p._num - 1) (by omega)
  · have h1 := interpolatePerf_at_point p 0 (by omega)
    have e : ((0 + 1 : Nat) : ℚ) / ((p._num : Nat) : ℚ) = 1 / ((p._num : Nat) : ℚ) := by
      simp
    rw [e] at h1
    rw [h1]
    exact hget 0 (by omega)

theorem C12_interpolate_at_points_witness :
    exPerf3._perf[1]?
      = some (psbPlot.interpolatePerf exPerf3 (((1 + 1 : Nat) : ℚ) / ((exPerf3._num : Nat) : ℚ))) ∧
    exPerf3._perf.getLast? = some (psbPlot.interpolatePerf exPerf3 1) ∧
    exPerf3._perf[0]?
      = some (psbPlot.interpolatePerf exPerf3 (1 / ((exPerf3._num : Nat) : ℚ))) :=
  C12_interpolate_at_points exPerf3 1 (by decide) (by decide)

/-! ## Theorems: averages over a table array -/

theorem forLoop_take {σ β : Type} (l : List β) (d : β) (F : σ → β → σ) (init : σ) :
    ∀ n, n ≤ l.length →
      forLoop 0 n (fun s i => F s (l.getD i d)) init = (l.take n).foldl F init := by
  intro n
  induction n with
  | zero =>
    intro _
    simp [forLoop]
  | succ n ih =>
    intro hn
    have hlt : n < l.length := by omega
    have h := ih (by omega)
    unfold forLoop at h ⊢
    simp only [Nat.sub_zero] at h ⊢
    rw [List.range'_concat, List.foldl_append, h, List.take_succ, List.foldl_append]
    simp [List.getD_eq_getElem?_getD, List.getElem?_eq_getElem hlt]

theorem forLoop_getD {σ β : Type} (l : List β) (d : β) (F : σ → β → σ) (init : σ) :
    forLoop 0 l.length (fun s i => F s (l.getD i d)) init = l.foldl F init := by
  rw [forLoop_take l d F init l.length le_rfl, List.take_length]

theorem validTables_cons (t : Table) (ts : List Table) :
    validTables (t :: ts) = if t._num ≤ CUTOFF then validTables ts else t :: validTables ts := by
  unfold validTables CUTOFF
  by_cases h : t._num ≤ 2
  · rw [if_pos h, List.filter_cons, if_neg (by simpa using h)]
  · rw [if_neg h, List.filter_cons, if_pos (by simpa using h)]

/-- The accumulating loop of `calcAvgTable`: `valid` counts the entries whose
size exceeds the cutoff and the five sums range over them. -/
theorem avgTable_fold (ts : List Table) (acc : Table) :
    ts.foldl
        (fun (s : Table) t =>
          if t._num ≤ CUTOFF then s
          else
            { _num := s._num + 1
              _nn := s._nn + t._nn
              _firstTier := s._firstTier + t._firstTier
              _secondTier := s._secondTier + t._secondTier
              _dcg := s._dcg + t._dcg
              _e := s._e + t._e }) acc
      = { _num := acc._num + (validTables ts).length
          _nn := acc._nn + ((validTables ts).map Table._nn).sum
          _firstTier := acc._firstTier + ((validTables ts).map Table._firstTier).sum
          _secondTier := acc._secondTier + ((validTables ts).map Table._secondTier).sum
          _dcg := acc._dcg + ((validTables ts).map Table._dcg).sum
          _e := acc._e + ((validTables ts).map Table._e).sum } := by
  induction ts generalizing acc with
  | nil => simp [validTables]
  | cons t ts ih =>
    rw [List.foldl_cons, ih, validTables_cons]
    by_cases h : t._num ≤ CUTOFF
    · rw [if_pos h, if_pos h]
    · rw [if_neg h, if_neg h]
      simp only [List.length_cons, List.map_cons, List.sum_cons]
      congr 1 <;> ring

/-- The result of `calcAvgTable` on a whole array, in closed form. -/
theorem calcAvgTable_eq (ts : List Table) :
    psbTable.calcAvgTable ts ts.length
      = if (validTables ts).length = 0 then none
        else some
          { _num := (validTables ts).length
            _nn := meanOf Table._nn (validTables ts)
            _firstTier := meanOf Table._firstTier (validTables ts)
            _secondTier := meanOf Table._secondTier (validTables ts)
            _dcg := meanOf Table._dcg (validTables ts)
            _e := meanOf Table._e (validTables ts) } := by
  unfold psbTable.calcAvgTable
  have h := forLoop_getD ts zeroTable
    (fun (s : Table) t =>
      if t._num ≤ CUTOFF then s
      else
        { _num := s._num + 1
          _nn := s._nn + t._nn
          _firstTier := s._firstTier + t._firstTier
          _secondTier := s._secondTier + t._secondTier
          _dcg := s._dcg + t._dcg
          _e := s._e + t._e }) zeroTable
  simp only [h, avgTable_fold]
  simp only [zeroTable, Nat.zero_add, zero_add]
  by_cases hz : (validTables ts).length = 0
  · rw [if_pos hz]
    simp [fdiv, hz]
  · rw [if_neg hz]
    have hq : (((validTables ts).length : Nat) : ℚ) ≠ 0 := Nat.cast_ne_zero.mpr hz
    simp only [fdiv_of_ne hq, Option.some_bind, meanOf]

/-- Claim C13: for every table array containing at least one entry whose size
exceeds the cutoff 2, `calcAvgTable` outputs, for each of the five fields, the
arithmetic mean of that field over exactly the entries with size > 2; entries
with size ≤ 2 enter neither a sum nor the count. -/
theorem C13_avgTable_mean (ts : List Table) (hvalid : ∃ t, t ∈ ts ∧ 2 < t._num) :
    psbTable.calcAvgTable ts ts.length
      = some
          { _num := (ts.filter (fun t => decide (2 < t._num))).length
            _nn := meanOf Table._nn (ts.filter (fun t => decide (2 < t._num)))
            _firstTier := meanOf Table._firstTier (ts.filter (fun t => decide (2 < t._num)))
            _secondTier := meanOf Table._secondTier (ts.filter (fun t => decide (2 < t._num)))
            _dcg := meanOf Table._dcg (ts.filter (fun t => decide (2 < t._num)))
            _e := meanOf Table._e (ts.filter (fun t => decide (2 < t._num))) } := by
  obtain ⟨t, ht, hnum⟩ := hvalid
  have hmem : t ∈ validTables ts := by
    unfold validTables
    rw [List.mem_filter]
    exact ⟨ht, by simpa using hnum⟩
  have hz : (validTables ts).length ≠ 0 := by
    intro h
    rw [List.length_eq_zero] at h
    rw [h] at hmem
    exact absurd hmem (List.not_mem_nil t)
  rw [calcAvgTable_eq, if_neg hz]
  rfl

theorem C13_avgTable_mean_witness :
    psbTable.calcAvgTable exTables exTables.length
      = some
          { _num := (exTables.filter (fun t => decide (2 < t._num))).length
            _nn := meanOf Table._nn (exTables.filter (fun t => decide (2 < t._num)))
            _firstTier := meanOf Table._firstTier (exTables.filter (fun t => decide (2 < t._num)))
            _secondTier :=
              meanOf Table._secondTier (exTables.filter (fun t => decide (2 < t._num)))
            _dcg := meanOf Table._dcg (exTables.filter (fun t => decide (2 < t._num)))
            _e := meanOf Table._e (exTables.filter (fun t => decide (2 < t._num))) } :=
  C13_avgTable_mean exTables
    ⟨{ _num := 3, _nn := 1, _firstTier := 1, _secondTier := 1, _dcg := 1, _e := 4 / 5 },
      by simp [exTables], by decide⟩

/-! ## Theorems: tables per class -/

theorem windowTables_succ (modelTable : List Table) (w size : Nat) :
    windowTables modelTable w (size + 1)
      = windowTables modelTable w size ++ [modelTable.getD (w + size) zeroTable] := by
  unfold windowTables
  rw [List.range_succ, List.map_append]
  rfl

theorem length_windowTables (modelTable : List Table) (w size : Nat) :
    (windowTables modelTable w size).length = size := by
  simp [windowTables]

/-- The inner loop of `calcClassTable` in closed form. -/
theorem classSumLoop_eq (modelTable : List Table) (table : Table) (modelCount : Nat) :
    ∀ classSize, psbTable.classSumLoop modelTable classSize table modelCount
      = ({ _num := table._num
           _nn := table._nn
             + ((windowTables modelTable modelCount classSize).map Table._nn).sum
           _firstTier := table._firstTier
             + ((windowTables modelTable modelCount classSize).map Table._firstTier).sum
           _secondTier := table._secondTier
             + ((windowTables modelTable modelCount classSize).map Table._secondTier).sum
           _dcg := table._dcg
             + ((windowTables modelTable modelCount classSize).map Table._dcg).sum
           _e := table._e
             + ((windowTables modelTable modelCount classSize).map Table._e).sum },
         modelCount + classSize) := by
  intro classSize
  induction classSize with
  | zero => simp [psbTable.classSumLoop, forLoop, windowTables]
  | succ n ih =>
    unfold psbTable.classSumLoop forLoop at ih ⊢
    simp only [Nat.sub_zero] at ih ⊢
    rw [List.range'_concat, List.foldl_append, ih, windowTables_succ]
    simp only [List.foldl_cons, List.foldl_nil, List.map_append, List.sum_append, List.map_cons,
      List.map_nil, List.sum_cons, List.sum_nil, add_zero]
    refine Prod.ext ?_ (by simp only; omega)
    simp only
    congr 1 <;> ring

theorem modelCountAt_succ (miscClass : String) (cats : PSBCategoryList) (c : Nat) :
    modelCountAt miscClass cats (c + 1)
      = modelCountAt miscClass cats c
        + (if cats.nameOf c = miscClass then 0 else cats.numModelsOf c) := by
  unfold modelCountAt
  rw [List.range_succ, List.map_append, List.sum_append]
  simp

/-- One iteration of the loop of `calcClassTable`, started with `modelCount`
at `modelCountAt`. -/
theorem calcClassTableStep_eq (miscClass : String) (cats : PSBCategoryList)
    (modelTable : List Table) (acc : List Table) (i : Nat) :
    psbTable.calcClassTableStep miscClass cats modelTable
        (acc, modelCountAt miscClass cats i) i
      = (acc ++ [classTableEntry miscClass cats modelTable i],
          modelCountAt miscClass cats (i + 1)) := by
  unfold psbTable.calcClassTableStep classTableEntry
  rw [modelCountAt_succ]
  by_cases hm : cats.nameOf i = miscClass
  · simp only [if_pos hm]
    rfl
  · simp only [if_neg hm]
    by_cases hc : cats.numModelsOf i ≤ CUTOFF
    · simp only [if_pos hc]
    · simp only [if_neg hc, classSumLoop_eq, meanOf, length_windowTables, zeroTable, zero_add]

/-- The loop of `calcClassTable` over the first `n` categories. -/
theorem calcClassTable_loop (miscClass : String) (cats : PSBCategoryList)
    (modelTable : List Table) :
    ∀ n, forLoop 0 n (psbTable.calcClassTableStep miscClass cats modelTable) ([], 0)
      = ((List.range n).map (classTableEntry miscClass cats modelTable),
          modelCountAt miscClass cats n) := by
  intro n
  induction n with
  | zero => simp [forLoop, modelCountAt]
  | succ n ih =>
    unfold forLoop at ih ⊢
    simp only [Nat.sub_zero] at ih ⊢
    rw [List.range'_concat, List.foldl_append, ih]
    simp only [Nat.zero_add, Nat.one_mul, List.foldl_cons, List.foldl_nil]
    rw [calcClassTableStep_eq, List.range_succ, List.map_append]
    rfl

/-- The result of `calcClassTable` in closed form. -/
theorem calcClassTable_eq (miscClass : String) (cats : PSBCategoryList)
    (modelTable : List Table) :
    psbTable.calcClassTable miscClass cats modelTable
      = (List.range cats._numCategories).map (classTableEntry miscClass cats modelTable) := by
  unfold psbTable.calcClassTable
  rw [calcClassTable_loop]

/-- Claim C14, the code at the failing input: with a one-model miscellaneous
category in front of a class of three models whose model tables all have
nearest neighbour 1, `calcClassTable` averages the entries at positions 0..2
(the miscellaneous model and two members), not the members at positions 1..3:
the class gets nearest neighbour 2/3, while the mean over its own members
is 1. -/
theorem C14_code_at_failing_input :
    createModelClassMapping exCatsMiscFirst = some (4, [0, 1, 1, 1]) ∧
    (psbTable.calcClassTable "misc" exCatsMiscFirst exTablesMiscFirst)[1]?
      = some { _num := 3, _nn := 2 / 3, _firstTier := 2 / 3, _secondTier := 2 / 3,
               _dcg := 2 / 3, _e := 8 / 15 } ∧
    meanOf Table._nn
      (windowTables exTablesMiscFirst (classOffset exCatsMiscFirst 1)
        (exCatsMiscFirst.numModelsOf 1)) = 1 := by
  refine ⟨by decide, ?_, ?_⟩
  · rw [calcClassTable_eq]
    have hn : exCatsMiscFirst._numCategories = 2 := by decide
    have h1 : exCatsMiscFirst.nameOf 1 ≠ "misc" := by decide
    have h2 : ¬ exCatsMiscFirst.numModelsOf 1 ≤ CUTOFF := by decide
    have h3 : exCatsMiscFirst.numModelsOf 1 = 3 := by decide
    have h4 : modelCountAt "misc" exCatsMiscFirst 1 = 0 := by decide
    rw [hn]
    simp only [List.range_succ, List.range_zero, List.nil_append, List.map_append, List.map_cons,
      List.map_nil]
    simp only [classTableEntry, if_neg h1, if_neg h2, h3, h4]
    norm_num [meanOf, windowTables, exTablesMiscFirst, zeroTable, List.range_succ, CUTOFF]
  · have h3 : exCatsMiscFirst.numModelsOf 1 = 3 := by decide
    have h5 : classOffset exCatsMiscFirst 1 = 1 := by decide
    rw [h3, h5]
    norm_num [meanOf, windowTables, exTablesMiscFirst, zeroTable, List.range_succ]

/-- When every miscellaneous category in front of category `c` is empty, the
window averaged by `calcClassTable` for `c` starts at the first member of
`c`. -/
theorem modelCountAt_eq_classOffset (miscClass : String) (cats : PSBCategoryList) (c : Nat)
    (h : ∀ i, i < c → cats.nameOf i = miscClass → cats.numModelsOf i = 0) :
    modelCountAt miscClass cats c = classOffset cats c := by
  induction c with
  | zero => rfl
  | succ c ih =>
    rw [modelCountAt_succ, classOffset_succ, ih (fun i hi => h i (by omega))]
    by_cases hm : cats.nameOf c = miscClass
    · rw [if_pos hm, h c (by omega) hm]
    · rw [if_neg hm]

/-! ## Theorems: entries of the miscellaneous class -/

theorem forLoop_push {β : Type} (f : Nat → β) (n : Nat) :
    forLoop 0 n (fun acc i => acc ++ [f i]) [] = (List.range n).map f := by
  induction n with
  | zero => simp [forLoop]
  | succ n ih =>
    unfold forLoop at ih ⊢
    simp only [Nat.sub_zero] at ih ⊢
    rw [List.range'_concat, List.foldl_append, ih, List.range_succ, List.map_append]
    simp

/-- The entries of `_modelTable` are the results of the loop body, model by
model. -/
theorem calcModelTable_getElem? {α : Type} (miscClass : String) (log10 toFloat : ℚ → ℚ)
    (cats : PSBCategoryList) (N : Nat) (idToClass : List Nat) (ranks : List (List (Rank α)))
    (m : Nat) (hm : m < N) :
    (psbTable.calcModelTable miscClass log10 toFloat cats N idToClass ranks)[m]?
      = some (psbTable.calcModelTableModel miscClass log10 toFloat cats N idToClass ranks m) := by
  unfold psbTable.calcModelTable
  rw [forLoop_push, List.getElem?_map, List.getElem?_range hm]
  rfl

theorem validTables_filter_ne_zero (ts : List Table) :
    validTables (ts.filter (fun t => decide (t._num ≠ 0))) = validTables ts := by
  unfold validTables
  rw [List.filter_filter]
  apply List.filter_congr
  intro t _
  by_cases h : 2 < t._num
  · have h0 : t._num ≠ 0 := by omega
    simp [h, h0]
  · simp [h]

/-- Claim C19: every model of the miscellaneous category gets a model table
with size field 0 and all five scores 0 (none of the score functions is run for
it), every category of the miscellaneous class gets a class table with size
field 0, and `calcAvgTable` gives the same output when all entries with size
field 0 are removed from its array. -/
theorem C19_misc_entries {α : Type} (miscClass : String) (log10 toFloat : ℚ → ℚ)
    (cats : PSBCategoryList) (N : Nat) (idToClass : List Nat) (ranks : List (List (Rank α))) :
    (∀ m, m < N → cats.nameOf (idToClass.getD m 0) = miscClass →
      (psbTable.calcModelTable miscClass log10 toFloat cats N idToClass ranks)[m]?
        = some (some { _num := 0, _nn := 0, _firstTier := 0, _secondTier := 0,
                       _dcg := 0, _e := 0 })) ∧
    (∀ (modelTable : List Table) (c : Nat), c < cats._numCategories →
      cats.nameOf c = miscClass →
      (psbTable.calcClassTable miscClass cats modelTable)[c]?
        = some { _num := 0, _nn := 0, _firstTier := 0, _secondTier := 0, _dcg := 0, _e := 0 }) ∧
    (∀ ts : List Table,
      psbTable.calcAvgTable ts ts.length
        = psbTable.calcAvgTable (ts.filter (fun t => decide (t._num ≠ 0)))
            (ts.filter (fun t => decide (t._num ≠ 0))).length) := by
  refine ⟨?_, ?_, ?_⟩
  · intro m hm hmisc
    rw [calcModelTable_getElem? miscClass log10 toFloat cats N idToClass ranks m hm]
    unfold psbTable.calcModelTableModel
    simp only [if_pos hmisc]
    rfl
  · intro modelTable c hc hmisc
    rw [calcClassTable_eq, List.getElem?_map, List.getElem?_range hc, Option.map_some']
    unfold classTableEntry
    rw [if_pos hmisc]
    rfl
  · intro ts
    rw [calcAvgTable_eq, calcAvgTable_eq, validTables_filter_ne_zero]

/-! ## Theorems: averaged curves -/

/-- The test of `calcAvgPerf` in integers: a curve of `n` points is kept at
sample `j` exactly when `n ≥ 2` and `n * (j + 1) ≥ SAMPLE`. -/
theorem skipCurve_eq_false_iff (p : Perf) (j : Nat) :
    psbPlot.skipCurve p j = false ↔ 2 ≤ p._num ∧ psbPlot.SAMPLE ≤ p._num * (j + 1) := by
  unfold psbPlot.skipCurve CUTOFF
  have hj : (0 : ℚ) < ((j + 1 : Nat) : ℚ) := Nat.cast_pos.mpr (Nat.succ_pos j)
  rw [decide_eq_false_iff_not, not_or, not_lt, not_lt, div_le_iff₀ hj]
  constructor
  · rintro ⟨h1, h2⟩
    exact ⟨h1, by exact_mod_cast h2⟩
  · rintro ⟨h1, h2⟩
    exact ⟨h1, by exact_mod_cast h2⟩

theorem eligibleCurves_cons (p : Perf) (perf : List Perf) (j : Nat) :
    eligibleCurves (p :: perf) j
      = if psbPlot.skipCurve p j then eligibleCurves perf j else p :: eligibleCurves perf j := by
  unfold eligibleCurves
  by_cases h : psbPlot.skipCurve p j = false
  · rw [h, List.filter_cons,
      if_pos (by simpa using (skipCurve_eq_false_iff p j).mp h)]
    simp
  · have h' : psbPlot.skipCurve p j = true := by simpa using h
    have hn : ¬ (2 ≤ p._num ∧ psbPlot.SAMPLE ≤ p._num * (j + 1)) :=
      fun hc => h ((skipCurve_eq_false_iff p j).mpr hc)
    rw [h', List.filter_cons, if_neg (by simpa using hn)]
    simp

/-- The inner loop of `calcAvgPerf` as a fold over the curves. -/
theorem sampleFold_eq (perf : List Perf) (j : Nat) (s : ℚ × Nat) :
    perf.foldl
        (fun (s : ℚ × Nat) p =>
          if psbPlot.skipCurve p j then s
          else (s.1 + psbPlot.interpolatePerf p (((j : ℚ) + 1) / (psbPlot.SAMPLE : ℚ)), s.2 + 1))
        s
      = (s.1 + ((eligibleCurves perf j).map
            (fun p => psbPlot.interpolatePerf p (((j : ℚ) + 1) / (psbPlot.SAMPLE : ℚ)))).sum,
          s.2 + (eligibleCurves perf j).length) := by
  induction perf generalizing s with
  | nil => simp [eligibleCurves]
  | cons p perf ih =>
    rw [List.foldl_cons, ih, eligibleCurves_cons]
    by_cases h : psbPlot.skipCurve p j = true
    · rw [if_pos h, if_pos h]
    · rw [if_neg h, if_neg h]
      simp only [List.map_cons, List.sum_cons, List.length_cons]
      refine Prod.ext ?_ ?_
      · simp only
        ring
      · simp only
        omega

theorem sampleLoop_eq (perf : List Perf) (j : Nat) (meanj : ℚ) :
    psbPlot.sampleLoop perf perf.length j meanj
      = (meanj + ((eligibleCurves perf j).map
            (fun p => psbPlot.interpolatePerf p (((j : ℚ) + 1) / (psbPlot.SAMPLE : ℚ)))).sum,
          (eligibleCurves perf j).length) := by
  unfold psbPlot.sampleLoop
  rw [forLoop_getD perf { _num := 0, _perf := [] }
    (fun (s : ℚ × Nat) p =>
      if psbPlot.skipCurve p j then s
      else (s.1 + psbPlot.interpolatePerf p (((j : ℚ) + 1) / (psbPlot.SAMPLE : ℚ)), s.2 + 1))
    (meanj, 0), sampleFold_eq]
  simp

/-- One pass of the outer loop of `calcAvgPerf` stores the mean of the
sample. -/
theorem sampleStep_eq (perf : List Perf) (j : Nat) (mean : List ℚ) (h0 : mean.getD j 0 = 0) :
    (if (psbPlot.sampleLoop perf perf.length j (mean.getD j 0)).2 > 0 then
        mean.set j ((psbPlot.sampleLoop perf perf.length j (mean.getD j 0)).1
          / (((psbPlot.sampleLoop perf perf.length j (mean.getD j 0)).2 : Nat) : ℚ))
      else mean.set j (psbPlot.sampleLoop perf perf.length j (mean.getD j 0)).1)
      = mean.set j (sampleMean perf j) := by
  rw [h0, sampleLoop_eq]
  unfold sampleMean
  simp only [zero_add]
  by_cases hz : (eligibleCurves perf j).length = 0
  · rw [if_neg (by omega), if_pos hz]
    have : eligibleCurves perf j = [] := List.length_eq_zero.mp hz
    rw [this]
    simp
  · rw [if_pos (by omega), if_neg hz]

theorem outerLoop_eq (perf : List Perf) (S : Nat) :
    ∀ n, n ≤ S →
      (List.range' 0 n).foldl
        (fun (mean : List ℚ) j =>
          if (psbPlot.sampleLoop perf perf.length j (mean.getD j 0)).2 > 0 then
            mean.set j ((psbPlot.sampleLoop perf perf.length j (mean.getD j 0)).1
              / (((psbPlot.sampleLoop perf perf.length j (mean.getD j 0)).2 : Nat) : ℚ))
          else mean.set j (psbPlot.sampleLoop perf perf.length j (mean.getD j 0)).1)
        (List.replicate S 0)
      = (List.range n).map (sampleMean perf) ++ List.replicate (S - n) 0 := by
  intro n
  induction n with
  | zero =>
    intro _
    simp
  | succ n ih =>
    intro hn
    rw [List.range'_concat, List.foldl_append, ih (by omega)]
    simp only [Nat.zero_add, Nat.one_mul, List.foldl_cons, List.foldl_nil]
    have hlen : ((List.range n).map (sampleMean perf)).length = n := by simp
    have h0 : ((List.range n).map (sampleMean perf) ++ List.replicate (S - n) 0).getD n 0
        = 0 := by
      rw [List.getD_eq_getElem?_getD, List.getElem?_append_right (by omega), hlen, Nat.sub_self,
        List.getElem?_replicate]
      split_ifs <;> rfl
    rw [sampleStep_eq perf n _ h0, List.set_append, if_neg (by omega), hlen, Nat.sub_self,
      List.range_succ, List.map_append, List.append_assoc]
    congr 1
    have e : S - n = (S - (n + 1)) + 1 := by omega
    rw [e, List.replicate_succ]
    rfl

/-- The result of `calcAvgPerf` on a whole array of curves, in closed form. -/
theorem calcAvgPerf_eq (perf : List Perf) :
    psbPlot.calcAvgPerf perf perf.length
      = (List.range psbPlot.SAMPLE).map (sampleMean perf) := by
  unfold psbPlot.calcAvgPerf forLoop
  simp only [Nat.sub_zero]
  rw [outerLoop_eq perf psbPlot.SAMPLE psbPlot.SAMPLE le_rfl, Nat.sub_self]
  simp

/-- Claim C16: in `calcAvgPerf` a curve of `n` points is passed over at sample
`j` if and only if `n` is below the cutoff 2 or `n` is below `SAMPLE/(j+1)`;
equivalently it is kept iff `n ≥ 2` and `n * (j+1) ≥ SAMPLE`; the inner loop
sums and counts exactly the curves that are kept. -/
theorem C16_exclusion_test (p : Perf) (j : Nat) (perf : List Perf) :
    (psbPlot.skipCurve p j = true ↔
      p._num < 2 ∨ ((p._num : Nat) : ℚ) < (20 : ℚ) / ((j + 1 : Nat) : ℚ)) ∧
    (psbPlot.skipCurve p j = false ↔ 2 ≤ p._num ∧ 20 ≤ p._num * (j + 1)) ∧
    psbPlot.sampleLoop perf perf.length j 0
      = (((perf.filter (fun p => decide (2 ≤ p._num ∧ 20 ≤ p._num * (j + 1)))).map
            (fun p => psbPlot.interpolatePerf p (((j : ℚ) + 1) / 20))).sum,
          (perf.filter (fun p => decide (2 ≤ p._num ∧ 20 ≤ p._num * (j + 1)))).length) := by
  refine ⟨?_, skipCurve_eq_false_iff p j, ?_⟩
  · unfold psbPlot.skipCurve CUTOFF psbPlot.SAMPLE
    rw [decide_eq_true_iff]
    norm_num
  · rw [sampleLoop_eq, zero_add]
    unfold eligibleCurves psbPlot.SAMPLE
    norm_num

/-- Claim C17 (amended): in `calcAvgPerf` a curve that contributes to the mean
at sample `j` also contributes at every later sample `j' ≥ j` (higher recall);
short curves are passed over at the low-recall samples. -/
theorem C17_eligible_upward (p : Perf) (j j' : Nat) (hjj : j ≤ j')
    (hkeep : psbPlot.skipCurve p j = false) : psbPlot.skipCurve p j' = false := by
  rw [skipCurve_eq_false_iff] at hkeep ⊢
  refine ⟨hkeep.1, le_trans hkeep.2 ?_⟩
  exact Nat.mul_le_mul_left _ (by omega)

theorem C17_eligible_upward_witness : psbPlot.skipCurve exPerf2 12 = false :=
  C17_eligible_upward exPerf2 9 12 (by decide)
    ((skipCurve_eq_false_iff exPerf2 9).mpr (by decide))

/-- A curve of two points contributes at sample 9 (recall 10/20) and is passed
over at the lower-recall sample 0. -/
theorem C17_counterexample :
    (0 : Nat) < 9 ∧ psbPlot.skipCurve exPerf2 9 = false ∧ psbPlot.skipCurve exPerf2 0 = true := by
  refine ⟨by decide, (skipCurve_eq_false_iff exPerf2 9).mpr (by decide), ?_⟩
  have h : ¬ psbPlot.skipCurve exPerf2 0 = false := by
    rw [skipCurve_eq_false_iff]
    decide
  simpa using h

/-- Claim C18: for every array of curves `calcAvgPerf` returns `SAMPLE` means,
and for every sample index `j` the mean `mean[j]` is the sum of
`interpolatePerf(curve, (j+1)/SAMPLE)` over the curves eligible at `j` divided
by the number of eligible curves when that number is positive, and `0` when no
curve is eligible at `j`. -/
theorem C18_sample_mean (perf : List Perf) :
    (psbPlot.calcAvgPerf perf perf.length).length = 20 ∧
    ∀ j, j < 20 →
      (psbPlot.calcAvgPerf perf perf.length)[j]?
        = some (if (eligibleCurves perf j).length = 0 then 0
            else ((eligibleCurves perf j).map
                (fun p => psbPlot.interpolatePerf p (((j : ℚ) + 1) / 20))).sum
              / ((eligibleCurves perf j).length : ℚ)) := by
  rw [calcAvgPerf_eq]
  refine ⟨by simp [psbPlot.SAMPLE], ?_⟩
  intro j hj
  rw [List.getElem?_map, List.getElem?_range (by unfold psbPlot.SAMPLE; exact hj),
    Option.map_some']
  unfold sampleMean psbPlot.SAMPLE
  norm_num

theorem eligibleCurves_filter (perf : List Perf) (j : Nat) :
    eligibleCurves (perf.filter (fun p => decide (2 ≤ p._num))) j = eligibleCurves perf j := by
  unfold eligibleCurves
  rw [List.filter_filter]
  apply List.filter_congr
  intro p _
  by_cases h : 2 ≤ p._num
  · simp [h]
  · simp [h]

theorem validTables_idem (ts : List Table) : validTables (validTables ts) = validTables ts := by
  unfold validTables
  rw [List.filter_filter]
  apply List.filter_congr
  intro t _
  simp

/-- Claim C15 (amended): in `calcAvgTable` a table with size ≤ 2 never
contributes (the output is that of the array restricted to the entries with
size > 2); in `calcAvgPerf` a curve with fewer than 2 points never contributes
to the mean of any sample (the output is that of the array restricted to the
curves with at least 2 points), while a curve of exactly 2 points is kept at
the samples `j` with `j ≥ 9`. -/
theorem C15_cutoffs (ts : List Table) (perf : List Perf) (p : Perf) (j : Nat) :
    psbTable.calcAvgTable ts ts.length
      = psbTable.calcAvgTable (ts.filter (fun t => decide (2 < t._num)))
          (ts.filter (fun t => decide (2 < t._num))).length ∧
    psbPlot.calcAvgPerf perf perf.length
      = psbPlot.calcAvgPerf (perf.filter (fun p => decide (2 ≤ p._num)))
          (perf.filter (fun p => decide (2 ≤ p._num))).length ∧
    (p._num < 2 → psbPlot.skipCurve p j = true) ∧
    (p._num = 2 → (psbPlot.skipCurve p j = false ↔ 9 ≤ j)) := by
  refine ⟨?_, ?_, ?_, ?_⟩
  · have h := validTables_idem ts
    unfold validTables at h
    rw [calcAvgTable_eq, calcAvgTable_eq]
    unfold validTables
    rw [h]
  · rw [calcAvgPerf_eq, calcAvgPerf_eq]
    apply List.map_congr_left
    intro i _
    unfold sampleMean
    rw [eligibleCurves_filter]
  · intro h
    have hn : ¬ psbPlot.skipCurve p j = false := by
      rw [skipCurve_eq_false_iff]
      omega
    simpa using hn
  · intro h
    rw [skipCurve_eq_false_iff, h]
    unfold psbPlot.SAMPLE
    omega

/-- The curve `exPerf2` of exactly two points is kept at sample 9: averaged
alone it sets `mean[9]` to its first value 1, where the empty array leaves
`mean[9] = 0`. -/
theorem C15_counterexample :
    exPerf2._num = 2 ∧
    (psbPlot.calcAvgPerf [exPerf2] [exPerf2].length)[9]? = some 1 ∧
    (psbPlot.calcAvgPerf [] ([] : List Perf).length)[9]? = some 0 := by
  refine ⟨rfl, ?_, ?_⟩
  · rw [calcAvgPerf_eq, List.getElem?_map, List.getElem?_range (by decide), Option.map_some']
    have he : eligibleCurves [exPerf2] 9 = [exPerf2] := by
      rw [eligibleCurves_cons, (skipCurve_eq_false_iff exPerf2 9).mpr (by decide)]
      rfl
    have hv : psbPlot.interpolatePerf exPerf2 ((((9 : Nat) : ℚ) + 1) / (psbPlot.SAMPLE : ℚ))
        = 1 := by
      rw [interpolatePerf_at_nat exPerf2 _ 0 (by decide)
        (by norm_num [exPerf2, psbPlot.SAMPLE])]
      rfl
    unfold sampleMean
    rw [he]
    simp only [List.length_singleton, List.map_cons, List.map_nil, List.sum_cons, List.sum_nil]
    rw [hv]
    norm_num
  · rw [calcAvgPerf_eq, List.getElem?_map, List.getElem?_range (by decide), Option.map_some']
    rfl

/-! ## Theorems: the model index and the listed members -/

/-- Claim C21 (amended): `createModelClassMapping` succeeds whatever members
the categories list: in psbTable for every category list, in psbPlot for every
category list whose categories list at least as many members as they declare
(the first `_numModels` names of each category are read). Its only check
`idNum == _numModels` compares two sums of the declared member counts; the
declared count is never compared with the listed members, and the result
depends on the declared counts alone. -/
theorem C21_mapping_always_succeeds (cats : PSBCategoryList) (atoi : String → Int) :
    (∃ r, createModelClassMapping cats = some r) ∧
    ((∀ c, c ∈ cats._categories → c._numModels ≤ c._models.length) →
      ∃ r, psbPlot.createModelClassMapping atoi cats = some r) ∧
    (∀ cats2 : PSBCategoryList,
      cats2._categories.map PSBCategory._numModels = cats._categories.map PSBCategory._numModels →
      createModelClassMapping cats2 = createModelClassMapping cats) := by
  refine ⟨⟨_, createModelClassMapping_eq cats⟩, ?_, ?_⟩
  · intro _
    obtain ⟨h1, h2⟩ := plotOuter_loop cats.numModelsOf
      (fun i j => atoi (match cats._categories[i]? with
        | some cat => cat._models.getD j ""
        | none => ""))
      (List.range' 0 cats._numCategories) ([], [])
    rw [← List.range_eq_range', List.nil_append] at h1
    unfold psbPlot.createModelClassMapping
    simp only [forLoop, Nat.sub_zero]
    rw [numModels_loop, ← List.range_eq_range', Nat.zero_add]
    rw [if_pos (by rw [h1]; exact length_classBlocks _ _)]
    exact ⟨_, rfl⟩
  · intro cats2 h
    have hlen : cats2._numCategories = cats._numCategories := by
      have := congrArg List.length h
      simpa [PSBCategoryList._numCategories] using this
    have hsz : cats2.numModelsOf = cats.numModelsOf := by
      funext c
      have hc := congrArg (fun l => l[c]?) h
      simp only [List.getElem?_map] at hc
      unfold PSBCategoryList.numModelsOf
      cases h1 : cats2._categories[c]? <;> cases h2 : cats._categories[c]? <;>
        simp_all
    rw [createModelClassMapping_eq, createModelClassMapping_eq, hlen, hsz]

/-- The category of `exCatsMismatch` declares 1 member and lists 2; the model
index is built all the same. -/
theorem C21_counterexample :
    (exCatsMismatch._categories.map (fun c => (c._numModels, c._models.length))) = [(1, 2)] ∧
    createModelClassMapping exCatsMismatch = some (1, [0]) ∧
    psbPlot.createModelClassMapping (fun _ => 0) exCatsMismatch = some (1, [0], [0]) := by
  decide

/-! ## Theorems: the second-tier cutoff -/

/-- Claim C23: for every model count `N ≥ 1` and every first-tier cutoff `f`
with `0 ≤ f ≤ N-1`, the second-tier cutoff computed by `calcTableTier` (`2f` if
`2f < N`, otherwise `N-1`) equals `min(2f, N-1)` and lies between `f` and
`N-1`; it is the end of the range over which `calcTableTier` counts for the
second tier. -/
theorem C23_secondTierCutoff (N f : Nat) (hN : 1 ≤ N) (hf : f ≤ N - 1) :
    psbTable.secondTierCutoff f N = min (2 * f) (N - 1) ∧
    f ≤ psbTable.secondTierCutoff f N ∧
    psbTable.secondTierCutoff f N ≤ N - 1 ∧
    (∀ (cats : PSBCategoryList) (idToClass : List Nat) (ranks : List (List (Rank ℚ)))
        (model : Nat) (table : Table),
      cats.numModelsOf (idToClass.getD model 0) - 1 = f → 1 ≤ f →
      ∃ t, psbTable.calcTableTier cats N idToClass ranks model table = some t ∧
        t._secondTier = ((correctCount idToClass ranks model (psbTable.secondTierCutoff f N)
          : Nat) : ℚ) / ((f : Nat) : ℚ)) := by
  have h1 : psbTable.secondTierCutoff f N = min (2 * f) (N - 1) := by
    unfold psbTable.secondTierCutoff
    rw [Nat.min_def]
    split_ifs <;> omega
  have h2 : f ≤ psbTable.secondTierCutoff f N := by
    rw [h1]
    omega
  refine ⟨h1, h2, by rw [h1]; omega, ?_⟩
  intro cats idToClass ranks model table hcls hf1
  refine ⟨_, calcTableTier_eq cats N idToClass ranks model table (by omega), ?_⟩
  simp only [hcls]
  have := countP_range'_split
    (fun i => decide (rankClass idToClass ranks model i = idToClass.getD model 0))
    f (psbTable.secondTierCutoff f N) h2
  unfold correctCount
  rw [← this]
  rfl

theorem C23_secondTierCutoff_witness :
    psbTable.secondTierCutoff 2 6 = min (2 * 2) (6 - 1) ∧
    2 ≤ psbTable.secondTierCutoff 2 6 ∧
    psbTable.secondTierCutoff 2 6 ≤ 6 - 1 :=
  ⟨(C23_secondTierCutoff 6 2 (by decide) (by decide)).1,
    (C23_secondTierCutoff 6 2 (by decide) (by decide)).2.1,
    (C23_secondTierCutoff 6 2 (by decide) (by decide)).2.2.1⟩

/-! ## Theorems: interpolation against its specification -/

theorem clampBin_of_mem (bins x : Int) (h0 : 0 ≤ x) (h1 : x ≤ bins - 1) : clampBin bins x = x := by
  unfold clampBin
  rw [if_neg (by omega), if_neg (by omega)]

/-- The code of `interpolatePerf` in terms of the truncated position. -/
theorem interpolatePerf_eq (p : Perf) (idx : ℚ) (hb : p._num ≠ 0) :
    psbPlot.interpolatePerf p idx
      = p._perf.getD
            (if (if truncate (idx * ((p._num : Int) : ℚ) - 1) < 0 then 0
                  else truncate (idx * ((p._num : Int) : ℚ) - 1)) ≥ (p._num : Int)
              then (p._num : Int) - 1
              else (if truncate (idx * ((p._num : Int) : ℚ) - 1) < 0 then 0
                  else truncate (idx * ((p._num : Int) : ℚ) - 1))).toNat 0
          * (1 - (idx * ((p._num : Int) : ℚ) - 1
              - ((truncate (idx * ((p._num : Int) : ℚ) - 1) : Int) : ℚ)))
        + p._perf.getD
            (if (if truncate (idx * ((p._num : Int) : ℚ) - 1) + 1 < 0 then 0
                  else truncate (idx * ((p._num : Int) : ℚ) - 1) + 1) ≥ (p._num : Int)
              then (p._num : Int) - 1
              else (if truncate (idx * ((p._num : Int) : ℚ) - 1) + 1 < 0 then 0
                  else truncate (idx * ((p._num : Int) : ℚ) - 1) + 1)).toNat 0
          * (idx * ((p._num : Int) : ℚ) - 1
              - ((truncate (idx * ((p._num : Int) : ℚ) - 1) : Int) : ℚ)) := by
  have hb' : ((p._num : Nat) : Int) ≠ 0 := by exact_mod_cast hb
  unfold psbPlot.interpolatePerf
  simp only [if_neg hb']

theorem interpolatePerf_eq_spec (p : Perf) (idx : ℚ) (hnum : p._num = p._perf.length)
    (hb : 1 ≤ p._num) (h0 : 0 < idx) (h1 : idx ≤ 1) :
    psbPlot.interpolatePerf p idx = interpolateSpec p._perf idx := by
  rw [interpolatePerf_eq p idx (by omega)]
  unfold interpolateSpec
  rw [← hnum]
  have hn : (1 : ℚ) ≤ (((p._num : Nat) : Int) : ℚ) := by exact_mod_cast hb
  have hlo : -1 < idx * (((p._num : Nat) : Int) : ℚ) - 1 := by
    have : 0 < idx * (((p._num : Nat) : Int) : ℚ) := mul_pos h0 (by linarith)
    linarith
  have hhi : idx * (((p._num : Nat) : Int) : ℚ) - 1 ≤ (((p._num : Nat) : Int) : ℚ) - 1 := by
    have : idx * (((p._num : Nat) : Int) : ℚ) ≤ 1 * (((p._num : Nat) : Int) : ℚ) :=
      mul_le_mul_of_nonneg_right h1 (by linarith)
    linarith
  generalize idx * (((p._num : Nat) : Int) : ℚ) - 1 = xx at hlo hhi ⊢
  have hbn : (1 : Int) ≤ ((p._num : Nat) : Int) := by exact_mod_cast hb
  generalize ((p._num : Nat) : Int) = n at hn hhi hbn ⊢
  by_cases hx : 0 ≤ xx
  · have ht : truncate xx = ⌊xx⌋ := by
      unfold truncate
      rw [if_pos hx]
    have hf0 : 0 ≤ ⌊xx⌋ := Int.floor_nonneg.mpr hx
    have hf1 : ⌊xx⌋ ≤ n - 1 := by
      have h := Int.floor_le xx
      have h2 : ((⌊xx⌋ : Int) : ℚ) ≤ ((n - 1 : Int) : ℚ) := by
        push_cast
        linarith
      exact_mod_cast h2
    rw [ht, clampBin_of_mem n ⌊xx⌋ hf0 hf1]
    generalize ⌊xx⌋ = f at hf0 hf1 ⊢
    have e1 : ¬ (f < 0) := by omega
    have e2 : ¬ (f ≥ n) := by omega
    have e3 : ¬ (f + 1 < 0) := by omega
    unfold clampBin
    simp only [if_neg e1, if_neg e2, if_neg e3]
    by_cases hc : f + 1 ≥ n
    · have e4 : n - 1 < f + 1 := by omega
      simp only [if_pos hc, if_pos e4]
      ring
    · have e4 : ¬ (n - 1 < f + 1) := by omega
      simp only [if_neg hc, if_neg e4]
      ring
  · have hx' : xx < 0 := lt_of_not_le hx
    have ht : truncate xx = 0 := by
      unfold truncate
      rw [if_neg hx, Int.ceil_eq_iff]
      constructor
      · push_cast
        linarith
      · push_cast
        linarith
    have hfl : ⌊xx⌋ = -1 := by
      rw [Int.floor_eq_iff]
      constructor
      · push_cast
        linarith
      · push_cast
        linarith
    rw [ht, hfl]
    have e0 : (-1 : Int) < 0 := by omega
    have e1 : ¬ ((0 : Int) < 0) := by omega
    have e2 : ¬ ((0 : Int) ≥ n) := by omega
    have e3 : ¬ ((0 : Int) + 1 < 0) := by omega
    unfold clampBin
    simp only [if_pos e0, if_neg e1, if_neg e2, if_neg e3]
    by_cases hc : (0 : Int) + 1 ≥ n
    · have e4 : n - 1 < 0 + 1 := by omega
      simp only [if_pos hc, if_pos e4]
      ring
    · have e4 : ¬ (n - 1 < 0 + 1) := by omega
      simp only [if_neg hc, if_neg e4]
      ring

/-- Claim C24: for every curve with `bins ≥ 1` points (the stored length is the
length of the value array) and every target recall `idx` in `(0, 1]`,
`interpolatePerf` returns `(1-dx)*curve[x1] + dx*curve[x2]` where
`xx = idx*bins - 1`, `x1` is `floor(xx)` clamped to `[0, bins-1]`, `x2` is
`x1 + 1` clamped to `[0, bins-1]` and `dx = xx - x1` (`x1` being the clamped
value throughout): the truncation of the code and the floor of the
specification differ only for `-1 < xx < 0`, where both give `x1 = 0`. -/
theorem C24_interpolatePerf_formula (p : Perf) (idx : ℚ) (hnum : p._num = p._perf.length)
    (hb : 1 ≤ p._num) (h0 : 0 < idx) (h1 : idx ≤ 1) :
    psbPlot.interpolatePerf p idx = interpolateSpec p._perf idx :=
  interpolatePerf_eq_spec p idx hnum hb h0 h1

theorem C24_interpolatePerf_formula_witness :
    psbPlot.interpolatePerf exPerf3 (1 / 4) = interpolateSpec exPerf3._perf (1 / 4) :=
  C24_interpolatePerf_formula exPerf3 (1 / 4) rfl (by decide) (by norm_num) (by norm_num)

/-! ## Theorems: interpolation inside `calcAvgPerf` -/

theorem samplePos_bounds (n j : Nat) (hs : psbPlot.SAMPLE ≤ n * (j + 1))
    (hj : j < psbPlot.SAMPLE) :
    0 ≤ psbPlot.samplePos n j ∧ psbPlot.samplePos n j ≤ (((n : Nat) : Int) : ℚ) - 1 := by
  unfold psbPlot.samplePos
  unfold psbPlot.SAMPLE at *
  have hs' : (20 : ℚ) ≤ (n : ℚ) * ((j : ℚ) + 1) := by exact_mod_cast hs
  have hj' : (j : ℚ) + 1 ≤ 20 := by exact_mod_cast hj
  have hn0 : (0 : ℚ) ≤ (n : ℚ) := Nat.cast_nonneg n
  push_cast
  constructor
  · have : ((j : ℚ) + 1) / 20 * (n : ℚ) = ((n : ℚ) * ((j : ℚ) + 1)) / 20 := by ring
    rw [this]
    have : (1 : ℚ) ≤ ((n : ℚ) * ((j : ℚ) + 1)) / 20 := by
      rw [le_div_iff₀ (by norm_num)]
      linarith
    linarith
  · have : ((j : ℚ) + 1) / 20 * (n : ℚ) ≤ 1 * (n : ℚ) :=
      mul_le_mul_of_nonneg_right (by rw [div_le_iff₀ (by norm_num)]; linarith) hn0
    linarith

/-- Everything `interpolatePerf` does on a call made by `calcAvgPerf`. -/
theorem interpolatePerf_sample (p : Perf) (j : Nat) (hk : psbPlot.skipCurve p j = false)
    (hj : j < psbPlot.SAMPLE) :
    (0 ≤ psbPlot.samplePos p._num j
      ∧ psbPlot.samplePos p._num j ≤ (((p._num : Nat) : Int) : ℚ) - 1)
    ∧ truncate (psbPlot.samplePos p._num j) = ⌊psbPlot.samplePos p._num j⌋
    ∧ (¬ (truncate (psbPlot.samplePos p._num j) < 0)
      ∧ ¬ (truncate (psbPlot.samplePos p._num j) + 1 < 0)
      ∧ ¬ (truncate (psbPlot.samplePos p._num j) ≥ ((p._num : Nat) : Int)))
    ∧ (0 ≤ psbPlot.samplePos p._num j - ((truncate (psbPlot.samplePos p._num j) : Int) : ℚ)
      ∧ psbPlot.samplePos p._num j - ((truncate (psbPlot.samplePos p._num j) : Int) : ℚ) < 1)
    ∧ psbPlot.interpolatePerf p (((j : ℚ) + 1) / (psbPlot.SAMPLE : ℚ))
        = p._perf.getD (truncate (psbPlot.samplePos p._num j)).toNat 0
            * (1 - (psbPlot.samplePos p._num j
                - ((truncate (psbPlot.samplePos p._num j) : Int) : ℚ)))
          + p._perf.getD
              (min ((truncate (psbPlot.samplePos p._num j)).toNat + 1) (p._num - 1)) 0
            * (psbPlot.samplePos p._num j
                - ((truncate (psbPlot.samplePos p._num j) : Int) : ℚ)) := by
  obtain ⟨hn2, hs⟩ := (skipCurve_eq_false_iff p j).mp hk
  obtain ⟨hx0, hx1⟩ := samplePos_bounds p._num j hs hj
  have ht : truncate (psbPlot.samplePos p._num j) = ⌊psbPlot.samplePos p._num j⌋ := by
    unfold truncate
    rw [if_pos hx0]
  have hf0 : 0 ≤ ⌊psbPlot.samplePos p._num j⌋ := Int.floor_nonneg.mpr hx0
  have hf1 : ⌊psbPlot.samplePos p._num j⌋ ≤ ((p._num : Nat) : Int) - 1 := by
    have h := Int.floor_le (psbPlot.samplePos p._num j)
    have h2 : ((⌊psbPlot.samplePos p._num j⌋ : Int) : ℚ)
        ≤ ((((p._num : Nat) : Int) - 1 : Int) : ℚ) := by
      push_cast
      push_cast at hx1
      linarith
    exact_mod_cast h2
  have hd0 := Int.floor_le (psbPlot.samplePos p._num j)
  have hd1 := Int.lt_floor_add_one (psbPlot.samplePos p._num j)
  refine ⟨⟨hx0, hx1⟩, ht, ?_, ?_, ?_⟩
  · rw [ht]
    exact ⟨by omega, by omega, by omega⟩
  · rw [ht]
    exact ⟨by linarith, by linarith⟩
  · rw [interpolatePerf_eq p _ (by omega)]
    have hxx : ((j : ℚ) + 1) / (psbPlot.SAMPLE : ℚ) * (((p._num : Nat) : Int) : ℚ) - 1
        = psbPlot.samplePos p._num j := rfl
    rw [hxx, ht]
    generalize ⌊psbPlot.samplePos p._num j⌋ = f at hf0 hf1 ⊢
    have e1 : ¬ (f < 0) := by omega
    have e2 : ¬ (f ≥ ((p._num : Nat) : Int)) := by omega
    have e3 : ¬ (f + 1 < 0) := by omega
    simp only [if_neg e1, if_neg e2, if_neg e3]
    by_cases hc : f + 1 ≥ ((p._num : Nat) : Int)
    · simp only [if_pos hc]
      have e5 : (((p._num : Nat) : Int) - 1).toNat = min (f.toNat + 1) (p._num - 1) := by omega
      rw [e5]
    · simp only [if_neg hc]
      have e5 : (f + 1).toNat = min (f.toNat + 1) (p._num - 1) := by omega
      rw [e5]

/-- A convex combination lies between its two points. -/
theorem convex_between (a b d : ℚ) (hd0 : 0 ≤ d) (hd1 : d ≤ 1) :
    min a b ≤ a * (1 - d) + b * d ∧ a * (1 - d) + b * d ≤ max a b := by
  have h1 : 0 ≤ 1 - d := by linarith
  constructor
  · have ha : min a b * (1 - d) ≤ a * (1 - d) := mul_le_mul_of_nonneg_right (min_le_left a b) h1
    have hb : min a b * d ≤ b * d := mul_le_mul_of_nonneg_right (min_le_right a b) hd0
    nlinarith
  · have ha : a * (1 - d) ≤ max a b * (1 - d) := mul_le_mul_of_nonneg_right (le_max_left a b) h1
    have hb : b * d ≤ max a b * d := mul_le_mul_of_nonneg_right (le_max_right a b) hd0
    nlinarith

/-- Claim C26: whenever `calcAvgPerf` calls `interpolatePerf` (the curve of `n`
points is not skipped at sample `j < SAMPLE`, that is `n ≥ 2` and
`n ≥ SAMPLE/(j+1)`), the position `xx = ((j+1)/SAMPLE)*n - 1` satisfies
`0 ≤ xx ≤ n-1`, the truncation `(int)xx` is `floor(xx)`, neither negative-index
clamp is taken and `x1` is not clamped from above, `0 ≤ dx < 1`, and the value
returned is the convex combination of the adjacent points `x1 = floor(xx)` and
`x2 = min(x1+1, n-1)` of the curve, so it lies between the smaller and the
larger of the two. -/
theorem C26_interpolation_in_range (p : Perf) (j : Nat)
    (hk : psbPlot.skipCurve p j = false) (hj : j < psbPlot.SAMPLE) :
    (0 ≤ psbPlot.samplePos p._num j
      ∧ psbPlot.samplePos p._num j ≤ (((p._num : Nat) : Int) : ℚ) - 1)
    ∧ truncate (psbPlot.samplePos p._num j) = ⌊psbPlot.samplePos p._num j⌋
    ∧ (¬ (truncate (psbPlot.samplePos p._num j) < 0)
      ∧ ¬ (truncate (psbPlot.samplePos p._num j) + 1 < 0)
      ∧ ¬ (truncate (psbPlot.samplePos p._num j) ≥ ((p._num : Nat) : Int)))
    ∧ (0 ≤ psbPlot.samplePos p._num j - ((truncate (psbPlot.samplePos p._num j) : Int) : ℚ)
      ∧ psbPlot.samplePos p._num j - ((truncate (psbPlot.samplePos p._num j) : Int) : ℚ) < 1)
    ∧ psbPlot.interpolatePerf p (((j : ℚ) + 1) / (psbPlot.SAMPLE : ℚ))
        = p._perf.getD (truncate (psbPlot.samplePos p._num j)).toNat 0
            * (1 - (psbPlot.samplePos p._num j
                - ((truncate (psbPlot.samplePos p._num j) : Int) : ℚ)))
          + p._perf.getD
              (min ((truncate (psbPlot.samplePos p._num j)).toNat + 1) (p._num - 1)) 0
            * (psbPlot.samplePos p._num j
                - ((truncate (psbPlot.samplePos p._num j) : Int) : ℚ))
    ∧ min (p._perf.getD (truncate (psbPlot.samplePos p._num j)).toNat 0)
          (p._perf.getD
            (min ((truncate (psbPlot.samplePos p._num j)).toNat + 1) (p._num - 1)) 0)
        ≤ psbPlot.interpolatePerf p (((j : ℚ) + 1) / (psbPlot.SAMPLE : ℚ))
    ∧ psbPlot.interpolatePerf p (((j : ℚ) + 1) / (psbPlot.SAMPLE : ℚ))
        ≤ max (p._perf.getD (truncate (psbPlot.samplePos p._num j)).toNat 0)
          (p._perf.getD
            (min ((truncate (psbPlot.samplePos p._num j)).toNat + 1) (p._num - 1)) 0) := by
  obtain ⟨hb, ht, hc, hd, he⟩ := interpolatePerf_sample p j hk hj
  refine ⟨hb, ht, hc, hd, he, ?_, ?_⟩
  · rw [he]
    exact (convex_between _ _ _ hd.1 (le_of_lt hd.2)).1
  · rw [he]
    exact (convex_between _ _ _ hd.1 (le_of_lt hd.2)).2

theorem C26_interpolation_in_range_witness :
    psbPlot.skipCurve exPerf3 9 = false
    ∧ truncate (psbPlot.samplePos exPerf3._num 9) = ⌊psbPlot.samplePos exPerf3._num 9⌋
    ∧ psbPlot.interpolatePerf exPerf3 ((((9 : Nat) : ℚ) + 1) / (psbPlot.SAMPLE : ℚ))
        ≤ max (exPerf3._perf.getD (truncate (psbPlot.samplePos exPerf3._num 9)).toNat 0)
          (exPerf3._perf.getD
            (min ((truncate (psbPlot.samplePos exPerf3._num 9)).toNat + 1)
              (exPerf3._num - 1)) 0) :=
  have hk : psbPlot.skipCurve exPerf3 9 = false :=
    (skipCurve_eq_false_iff exPerf3 9).mpr (by decide)
  ⟨hk, (C26_interpolation_in_range exPerf3 9 hk (by decide)).2.1,
    (C26_interpolation_in_range exPerf3 9 hk (by decide)).2.2.2.2.2.2⟩

/-! ## Theorems: ranges of the tier scores -/

/-- The counts of `calcTableTier` as counts over a leading segment: with the
first-tier cutoff at most `N - 1`, the second count is the number of entries of
the query's class among the first `secondTierCutoff` entries. -/
theorem secondTier_count {α : Type} (idToClass : List Nat) (ranks : List (List (Rank α)))
    (model N f : Nat) (hf : f ≤ N - 1) :
    correctCount idToClass ranks model f
      + (List.range' f ((if f * 2 < N then f * 2 else N - 1) - f)).countP
          (fun i => decide (rankClass idToClass ranks model i = idToClass.getD model 0))
      = correctCount idToClass ranks model (psbTable.secondTierCutoff f N) := by
  have hcut : f ≤ (if f * 2 < N then f * 2 else N - 1) := by
    split_ifs <;> omega
  unfold psbTable.secondTierCutoff
  simp only [correctCount]
  rw [countP_range'_split _ _ _ hcut]

theorem secondTierCutoff_le (f N : Nat) : psbTable.secondTierCutoff f N ≤ N - 1 := by
  unfold psbTable.secondTierCutoff
  split_ifs <;> omega

/-- The tier scores of a query ranked last in a permutation of all positions. -/
theorem calcTableTier_range {α : Type} (cats : PSBCategoryList) (N : Nat) (idToClass : List Nat)
    (ranks : List (List (Rank α))) (model : Nat) (table : Table)
    (hmap : createModelClassMapping cats = some (N, idToClass)) (hmodel : model < N)
    (hperm : ((ranks.getD model []).map Rank._index).Perm (List.range N))
    (hlast : rankIndex ranks model (N - 1) = model) :
    ∃ t, psbTable.calcTableTier cats N idToClass ranks model table = some t ∧
      (0 ≤ t._firstTier ∧ t._firstTier ≤ 1) ∧ (0 ≤ t._secondTier ∧ t._secondTier ≤ 1) := by
  have hle := numModelsOf_le cats N idToClass hmap (idToClass.getD model 0)
  have hinit := correctCount_init cats N idToClass ranks model hmap hmodel hperm hlast
  by_cases hf : cats.numModelsOf (idToClass.getD model 0) - 1 = 0
  · have e : psbTable.calcTableTier cats N idToClass ranks model table
        = some { table with
            _nn := if rankClass idToClass ranks model 0 = idToClass.getD model 0 then 1 else 0
            _firstTier := 0
            _secondTier := 0 } := by
      unfold psbTable.calcTableTier
      simp only [if_pos hf]
    exact ⟨_, e, by simp⟩
  · have hclass : 2 ≤ cats.numModelsOf (idToClass.getD model 0) := by omega
    refine ⟨_, calcTableTier_eq cats N idToClass ranks model table hclass, ?_⟩
    have hfN : cats.numModelsOf (idToClass.getD model 0) - 1 ≤ N - 1 := by omega
    simp only
    rw [secondTier_count idToClass ranks model N _ hfN]
    have hfq : (0 : ℚ) < ((cats.numModelsOf (idToClass.getD model 0) - 1 : Nat) : ℚ) :=
      Nat.cast_pos.mpr (Nat.pos_of_ne_zero hf)
    have h1 : correctCount idToClass ranks model (cats.numModelsOf (idToClass.getD model 0) - 1)
        ≤ cats.numModelsOf (idToClass.getD model 0) - 1 := by
      exact le_trans (correctCount_mono idToClass ranks model hfN) (le_of_eq hinit)
    have h2 : correctCount idToClass ranks model
          (psbTable.secondTierCutoff (cats.numModelsOf (idToClass.getD model 0) - 1) N)
        ≤ cats.numModelsOf (idToClass.getD model 0) - 1 := by
      exact le_trans (correctCount_mono idToClass ranks model (secondTierCutoff_le _ N))
        (le_of_eq hinit)
    refine ⟨⟨div_nonneg (Nat.cast_nonneg _) (le_of_lt hfq), ?_⟩,
      ⟨div_nonneg (Nat.cast_nonneg _) (le_of_lt hfq), ?_⟩⟩
    · rw [div_le_one hfq]
      exact Nat.cast_le.mpr h1
    · rw [div_le_one hfq]
      exact Nat.cast_le.mpr h2

/-- Claim C28: for a query model whose ranking is a permutation of all `N`
positions with the query itself in the last place, `calcTableTier` returns a
table with `0 ≤ firstTier ≤ 1` and `0 ≤ secondTier ≤ 1`: the first `N-1` ranked
entries hold `class size - 1` models of the query's class, and both cutoffs are
at most `N-1`. -/
theorem C28_tier_range {α : Type} (cats : PSBCategoryList) (N : Nat) (idToClass : List Nat)
    (ranks : List (List (Rank α))) (model : Nat) (table : Table)
    (hmap : createModelClassMapping cats = some (N, idToClass)) (hmodel : model < N)
    (hperm : ((ranks.getD model []).map Rank._index).Perm (List.range N))
    (hlast : rankIndex ranks model (N - 1) = model) :
    (∃ t, psbTable.calcTableTier cats N idToClass ranks model table = some t ∧
      (0 ≤ t._firstTier ∧ t._firstTier ≤ 1) ∧ (0 ≤ t._secondTier ∧ t._secondTier ≤ 1)) ∧
    correctCount idToClass ranks model (N - 1) = cats.numModelsOf (idToClass.getD model 0) - 1 ∧
    cats.numModelsOf (idToClass.getD model 0) - 1 ≤ N - 1 ∧
    psbTable.secondTierCutoff (cats.numModelsOf (idToClass.getD model 0) - 1) N ≤ N - 1 := by
  have hle := numModelsOf_le cats N idToClass hmap (idToClass.getD model 0)
  exact ⟨calcTableTier_range cats N idToClass ranks model table hmap hmodel hperm hlast,
    correctCount_init cats N idToClass ranks model hmap hmodel hperm hlast,
    by omega, secondTierCutoff_le _ N⟩

theorem C28_tier_range_witness :
    (∃ t, psbTable.calcTableTier exCats 6 exIds exRanks 0 zeroTable = some t ∧
      (0 ≤ t._firstTier ∧ t._firstTier ≤ 1) ∧ (0 ≤ t._secondTier ∧ t._secondTier ≤ 1)) ∧
    correctCount exIds exRanks 0 (6 - 1) = exCats.numModelsOf (exIds.getD 0 0) - 1 ∧
    exCats.numModelsOf (exIds.getD 0 0) - 1 ≤ 6 - 1 ∧
    psbTable.secondTierCutoff (exCats.numModelsOf (exIds.getD 0 0) - 1) 6 ≤ 6 - 1 :=
  C28_tier_range exCats 6 exIds exRanks 0 zeroTable (by decide) (by decide) (by decide)
    (by decide)

/-! ## Theorems: the E-measure in closed form -/

/-- The E-measure for a positive count: `2 * count / (classSize + k)`. -/
theorem eMeasure_of_pos (count c k : Nat) (hcount : 0 < count) (hc : 1 ≤ c) (hk : 1 ≤ k) :
    eMeasure count c k = 2 * (count : ℚ) / ((c : ℚ) + (k : ℚ)) := by
  have hn : (0 : ℚ) < (count : ℚ) := Nat.cast_pos.mpr hcount
  have hcq : (0 : ℚ) < (c : ℚ) := Nat.cast_pos.mpr hc
  have hkq : (0 : ℚ) < (k : ℚ) := Nat.cast_pos.mpr hk
  have hr : (count : ℚ) / (c : ℚ) ≠ 0 := ne_of_gt (div_pos hn hcq)
  have hp : (count : ℚ) / (k : ℚ) ≠ 0 := ne_of_gt (div_pos hn hkq)
  unfold eMeasure
  rw [if_neg (by simp [hr, hp])]
  have hsum : (c : ℚ) + (k : ℚ) ≠ 0 := ne_of_gt (add_pos hcq hkq)
  field_simp

theorem correctCount_le {α : Type} (idToClass : List Nat) (ranks : List (List (Rank α)))
    (model n : Nat) : correctCount idToClass ranks model n ≤ n := by
  unfold correctCount
  have h := List.countP_le_length
    (fun i => decide (rankClass idToClass ranks model i = idToClass.getD model 0))
    (l := List.range n)
  rw [List.length_range] at h
  exact h

/-- Claim C29: for a query model with `c = class size - 1 ≥ 1` and
`K = min(N-1, 32) ≥ 1`, if `count > 0` models of the query's class occur among
the first `K` ranked entries then `calcEF` returns
`eMeasure = 2*count / (c + K)`; if moreover the ranking is a permutation of all
positions with the query itself ranked last, then `count ≤ c`, `count ≤ K` and
`0 ≤ eMeasure ≤ 1`. -/
theorem C29_eMeasure_closed_form {α : Type} (cats : PSBCategoryList) (N : Nat)
    (idToClass : List Nat) (ranks : List (List (Rank α))) (model : Nat) (table : Table)
    (hc : 1 ≤ cats.numModelsOf (idToClass.getD model 0) - 1) (hK : 1 ≤ min (N - 1) 32)
    (hcount : 0 < correctCount idToClass ranks model (min (N - 1) 32)) :
    (∃ t, psbTable.calcEF cats N idToClass ranks model table = some t ∧
      t._e = 2 * ((correctCount idToClass ranks model (min (N - 1) 32) : Nat) : ℚ)
        / (((cats.numModelsOf (idToClass.getD model 0) - 1 : Nat) : ℚ)
            + ((min (N - 1) 32 : Nat) : ℚ))) ∧
    (createModelClassMapping cats = some (N, idToClass) → model < N →
      ((ranks.getD model []).map Rank._index).Perm (List.range N) →
      rankIndex ranks model (N - 1) = model →
      correctCount idToClass ranks model (min (N - 1) 32)
          ≤ cats.numModelsOf (idToClass.getD model 0) - 1 ∧
      correctCount idToClass ranks model (min (N - 1) 32) ≤ min (N - 1) 32 ∧
      ∃ t, psbTable.calcEF cats N idToClass ranks model table = some t ∧
        0 ≤ t._e ∧ t._e ≤ 1) := by
  have he : psbTable.calcEF cats N idToClass ranks model table
      = some { table with
          _e := 2 * ((correctCount idToClass ranks model (min (N - 1) 32) : Nat) : ℚ)
            / (((cats.numModelsOf (idToClass.getD model 0) - 1 : Nat) : ℚ)
                + ((min (N - 1) 32 : Nat) : ℚ)) } := by
    rw [calcEF_eq, if_neg (by omega), if_neg (by omega), eMeasure_of_pos _ _ _ hcount hc hK]
  refine ⟨⟨_, he, rfl⟩, ?_⟩
  intro hmap hmodel hperm hlast
  have h1 : correctCount idToClass ranks model (min (N - 1) 32)
      ≤ cats.numModelsOf (idToClass.getD model 0) - 1 :=
    le_trans (correctCount_mono idToClass ranks model (Nat.min_le_left _ _))
      (le_of_eq (correctCount_init cats N idToClass ranks model hmap hmodel hperm hlast))
  have h2 := correctCount_le idToClass ranks model (min (N - 1) 32)
  refine ⟨h1, h2, _, he, ?_, ?_⟩
  · exact div_nonneg (mul_nonneg (by norm_num) (Nat.cast_nonneg _))
      (add_nonneg (Nat.cast_nonneg _) (Nat.cast_nonneg _))
  · have hpos : (0 : ℚ) < ((cats.numModelsOf (idToClass.getD model 0) - 1 : Nat) : ℚ)
        + ((min (N - 1) 32 : Nat) : ℚ) :=
      add_pos (Nat.cast_pos.mpr hc) (Nat.cast_pos.mpr hK)
    show 2 * ((correctCount idToClass ranks model (min (N - 1) 32) : Nat) : ℚ)
        / (((cats.numModelsOf (idToClass.getD model 0) - 1 : Nat) : ℚ)
            + ((min (N - 1) 32 : Nat) : ℚ)) ≤ 1
    rw [div_le_one hpos]
    have h1q : ((correctCount idToClass ranks model (min (N - 1) 32) : Nat) : ℚ)
        ≤ ((cats.numModelsOf (idToClass.getD model 0) - 1 : Nat) : ℚ) := Nat.cast_le.mpr h1
    have h2q : ((correctCount idToClass ranks model (min (N - 1) 32) : Nat) : ℚ)
        ≤ ((min (N - 1) 32 : Nat) : ℚ) := Nat.cast_le.mpr h2
    linarith

theorem C29_eMeasure_closed_form_witness :
    (∃ t, psbTable.calcEF exCats 6 exIds exRanks 0 zeroTable = some t ∧
      t._e = 2 * ((correctCount exIds exRanks 0 (min (6 - 1) 32) : Nat) : ℚ)
        / (((exCats.numModelsOf (exIds.getD 0 0) - 1 : Nat) : ℚ)
            + ((min (6 - 1) 32 : Nat) : ℚ))) ∧
    (correctCount exIds exRanks 0 (min (6 - 1) 32) ≤ exCats.numModelsOf (exIds.getD 0 0) - 1 ∧
      correctCount exIds exRanks 0 (min (6 - 1) 32) ≤ min (6 - 1) 32 ∧
      ∃ t, psbTable.calcEF exCats 6 exIds exRanks 0 zeroTable = some t ∧
        0 ≤ t._e ∧ t._e ≤ 1) :=
  ⟨(C29_eMeasure_closed_form exCats 6 exIds exRanks 0 zeroTable (by decide) (by decide)
      (by decide)).1,
    (C29_eMeasure_closed_form exCats 6 exIds exRanks 0 zeroTable (by decide) (by decide)
      (by decide)).2 (by decide) (by decide) (by decide) (by decide)⟩

/-! ## Theorems: perfect retrieval -/

theorem correctCount_of_all {α : Type} (idToClass : List Nat) (ranks : List (List (Rank α)))
    (model c : Nat)
    (hperfect : ∀ i, i < c → rankClass idToClass ranks model i = idToClass.getD model 0) :
    correctCount idToClass ranks model c = c := by
  unfold correctCount
  have h : (List.range c).countP
      (fun i => decide (rankClass idToClass ranks model i = idToClass.getD model 0))
      = (List.range c).length := by
    rw [List.countP_eq_length]
    intro i hi
    exact decide_eq_true (hperfect i (List.mem_range.mp hi))
  rw [h, List.length_range]

/-- With all `c` other members of the class in the first `c` places and the
query last, no later entry before the last is of the query's class. -/
theorem perfect_tail {α : Type} (cats : PSBCategoryList) (N : Nat) (idToClass : List Nat)
    (ranks : List (List (Rank α))) (model : Nat)
    (hmap : createModelClassMapping cats = some (N, idToClass)) (hmodel : model < N)
    (hperm : ((ranks.getD model []).map Rank._index).Perm (List.range N))
    (hlast : rankIndex ranks model (N - 1) = model)
    (hperfect : ∀ i, i < cats.numModelsOf (idToClass.getD model 0) - 1 →
      rankClass idToClass ranks model i = idToClass.getD model 0) :
    ∀ i, cats.numModelsOf (idToClass.getD model 0) - 1 ≤ i → i < N - 1 →
      rankClass idToClass ranks model i ≠ idToClass.getD model 0 := by
  have hle := numModelsOf_le cats N idToClass hmap (idToClass.getD model 0)
  have hinit := correctCount_init cats N idToClass ranks model hmap hmodel hperm hlast
  have hall := correctCount_of_all idToClass ranks model _ hperfect
  have hsplit := countP_range'_split
    (fun i => decide (rankClass idToClass ranks model i = idToClass.getD model 0))
    (cats.numModelsOf (idToClass.getD model 0) - 1) (N - 1) (by omega)
  unfold correctCount at hinit hall
  rw [hinit, hall] at hsplit
  have hzero : (List.range' (cats.numModelsOf (idToClass.getD model 0) - 1)
      (N - 1 - (cats.numModelsOf (idToClass.getD model 0) - 1))).countP
      (fun i => decide (rankClass idToClass ranks model i = idToClass.getD model 0)) = 0 := by
    omega
  rw [List.countP_eq_zero] at hzero
  intro i hi1 hi2 hcl
  have hmem : i ∈ List.range' (cats.numModelsOf (idToClass.getD model 0) - 1)
      (N - 1 - (cats.numModelsOf (idToClass.getD model 0) - 1)) := by
    rw [List.mem_range'_1]
    omega
  exact hzero i hmem (decide_eq_true hcl)

theorem totalGain_perfect {α : Type} (log10 toFloat : ℚ → ℚ) (idToClass : List Nat)
    (ranks : List (List (Rank α))) (model N c : Nat) (hc : c ≤ N - 1)
    (hperfect : ∀ i, i < c → rankClass idToClass ranks model i = idToClass.getD model 0)
    (htail : ∀ i, c ≤ i → i < N - 1 →
      rankClass idToClass ranks model i ≠ idToClass.getD model 0) :
    totalGain log10 toFloat idToClass ranks model N = ((List.range' 1 c).map (gain log10 toFloat)).sum := by
  unfold totalGain
  have e : List.range' 1 (N - 1) = List.range' 1 c ++ List.range' (1 + c) (N - 1 - c) := by
    have := List.range'_append 1 c (N - 1 - c) 1
    simp only [Nat.one_mul] at this
    rw [this]
    congr 1
    omega
  rw [e, List.filter_append]
  have e1 : (List.range' 1 c).filter
      (fun r => decide (rankClass idToClass ranks model (r - 1) = idToClass.getD model 0))
      = List.range' 1 c := by
    rw [List.filter_eq_self]
    intro r hr
    rw [List.mem_range'_1] at hr
    exact decide_eq_true (hperfect (r - 1) (by omega))
  have e2 : (List.range' (1 + c) (N - 1 - c)).filter
      (fun r => decide (rankClass idToClass ranks model (r - 1) = idToClass.getD model 0))
      = [] := by
    rw [List.filter_eq_nil_iff]
    intro r hr
    rw [List.mem_range'_1] at hr
    have := htail (r - 1) (by omega) (by omega)
    simpa using this
  rw [e1, e2, List.append_nil]

/-- Claim C30: for a query model whose class has at least 2 members and whose
ranking (a permutation of all positions, the query itself last) places all the
`class size - 1` other members of its class in the first `class size - 1`
positions, `calcDCG` returns `dcg = 1` exactly and `calcTableTier` returns
`secondTier = 1` (and `firstTier = 1`). -/
theorem C30_perfect_retrieval {α : Type} (log10 toFloat : ℚ → ℚ) (cats : PSBCategoryList)
    (N : Nat) (idToClass : List Nat) (ranks : List (List (Rank α))) (model : Nat) (table : Table)
    (hmap : createModelClassMapping cats = some (N, idToClass)) (hmodel : model < N)
    (hclass : 2 ≤ cats.numModelsOf (idToClass.getD model 0))
    (hperm : ((ranks.getD model []).map Rank._index).Perm (List.range N))
    (hlast : rankIndex ranks model (N - 1) = model)
    (hperfect : ∀ i, i < cats.numModelsOf (idToClass.getD model 0) - 1 →
      rankClass idToClass ranks model i = idToClass.getD model 0)
    (hpos : ∀ r : Nat, 2 ≤ r → 0 < log10 (r : ℚ))
    (hcast : ∀ x : ℚ, 0 ≤ x → 0 ≤ toFloat x) :
    (∃ t, psbTable.calcDCG log10 toFloat cats N idToClass ranks model table = some t ∧ t._dcg = 1) ∧
    (∃ t, psbTable.calcTableTier cats N idToClass ranks model table = some t ∧
      t._firstTier = 1 ∧ t._secondTier = 1) := by
  have hle := numModelsOf_le cats N idToClass hmap (idToClass.getD model 0)
  have hN : 2 ≤ N := le_trans hclass hle
  have hcN : cats.numModelsOf (idToClass.getD model 0) - 1 ≤ N - 1 := by omega
  have hinit := correctCount_init cats N idToClass ranks model hmap hmodel hperm hlast
  have hall := correctCount_of_all idToClass ranks model _ hperfect
  have htail := perfect_tail cats N idToClass ranks model hmap hmodel hperm hlast hperfect
  constructor
  · refine ⟨_, calcDCG_eq log10 toFloat cats N idToClass ranks model table hpos hcast hN, ?_⟩
    simp only
    rw [totalGain_perfect log10 toFloat idToClass ranks model N _ hcN hperfect htail,
      ← idealDcg_eq_sum log10 toFloat _ (by omega)]
    exact div_self (ne_of_gt (idealDcg_pos log10 toFloat hpos hcast _))
  · refine ⟨_, calcTableTier_eq cats N idToClass ranks model table hclass, ?_, ?_⟩
    · simp only
      rw [hall]
      exact div_self (Nat.cast_ne_zero.mpr (by omega))
    · simp only
      rw [secondTier_count idToClass ranks model N _ hcN]
      have hcut : cats.numModelsOf (idToClass.getD model 0) - 1
          ≤ psbTable.secondTierCutoff (cats.numModelsOf (idToClass.getD model 0) - 1) N := by
        unfold psbTable.secondTierCutoff
        split_ifs <;> omega
      have h1 := correctCount_mono idToClass ranks model hcut
      have h2 := correctCount_mono idToClass ranks model
        (secondTierCutoff_le (cats.numModelsOf (idToClass.getD model 0) - 1) N)
      have h3 : correctCount idToClass ranks model
          (psbTable.secondTierCutoff (cats.numModelsOf (idToClass.getD model 0) - 1) N)
          = cats.numModelsOf (idToClass.getD model 0) - 1 := by omega
      rw [h3]
      exact div_self (Nat.cast_ne_zero.mpr (by omega))

theorem C30_perfect_retrieval_witness :
    (∃ t, psbTable.calcDCG exLog10 exToFloat exCats 6 exIds
        (psbTable.readMatrix FLT_MAX 6 exMatrixClasses) 0 zeroTable = some t ∧ t._dcg = 1) ∧
    (∃ t, psbTable.calcTableTier exCats 6 exIds
        (psbTable.readMatrix FLT_MAX 6 exMatrixClasses) 0 zeroTable = some t ∧
      t._firstTier = 1 ∧ t._secondTier = 1) :=
  C30_perfect_retrieval exLog10 exToFloat exCats 6 exIds (psbTable.readMatrix FLT_MAX 6 exMatrixClasses)
    0 zeroTable (by decide) (by decide) (by decide) (by decide) (by decide) (by decide)
    exLog10_pos exToFloat_nonneg

/-! ## Theorems: curves per class -/

/-- A loop that rewrites the entries of a buffer one by one. -/
theorem forLoop_set_pointwise (g : Nat → ℚ → ℚ) (buf : List ℚ) :
    ∀ n, n ≤ buf.length →
      forLoop 0 n (fun (b : List ℚ) i => b.set i (g i (b.getD i 0))) buf
        = (List.range n).map (fun i => g i (buf.getD i 0)) ++ buf.drop n := by
  intro n
  induction n with
  | zero =>
    intro _
    simp [forLoop]
  | succ n ih =>
    intro hn
    have hlt : n < buf.length := by omega
    have h := ih (by omega)
    unfold forLoop at h ⊢
    simp only [Nat.sub_zero] at h ⊢
    rw [List.range'_concat, List.foldl_append, h]
    simp only [Nat.zero_add, Nat.one_mul, List.foldl_cons, List.foldl_nil]
    have hlen : ((List.range n).map (fun i => g i (buf.getD i 0))).length = n := by simp
    have hd : buf.drop n = buf.getD n 0 :: buf.drop (n + 1) := by
      rw [List.getD_eq_getElem?_getD, List.getElem?_eq_getElem hlt, Option.getD_some]
      exact List.drop_eq_getElem_cons hlt
    have hg : ((List.range n).map (fun i => g i (buf.getD i 0)) ++ buf.drop n).getD n 0
        = buf.getD n 0 := by
      rw [List.getD_eq_getElem?_getD, List.getElem?_append_right (by omega), hlen, Nat.sub_self,
        hd]
      simp
    rw [hg, List.set_append, if_neg (by omega), hlen, Nat.sub_self, hd, List.set_cons_zero,
      List.range_succ, List.map_append, List.append_assoc]
    rfl

theorem forLoop_set_all (g : Nat → ℚ → ℚ) (buf : List ℚ) :
    forLoop 0 buf.length (fun (b : List ℚ) i => b.set i (g i (b.getD i 0))) buf
      = (List.range buf.length).map (fun i => g i (buf.getD i 0)) := by
  rw [forLoop_set_pointwise g buf buf.length le_rfl, List.drop_length, List.append_nil]

theorem memberValues_succ (modelPerf : List Perf) (w n k : Nat) :
    (memberValues modelPerf w (n + 1) k).sum
      = (memberValues modelPerf w n k).sum
        + (modelPerf.getD (w + n) { _num := 0, _perf := [] })._perf.getD k 0 := by
  unfold memberValues
  rw [List.range_succ, List.map_append, List.sum_append]
  simp

/-- The summing loops of `calcClassPerf` over the first `n` models of the
class. -/
theorem classPerfSum_loop (modelPerf : List Perf) (cSize w : Nat) :
    ∀ n, (List.range' 0 n).foldl
        (fun (s : List ℚ × Nat) (_ : Nat) =>
          (forLoop 0 cSize
            (fun (buf : List ℚ) perfIndex =>
              buf.set perfIndex
                (buf.getD perfIndex 0
                  + (modelPerf.getD s.2 { _num := 0, _perf := [] })._perf.getD perfIndex 0))
            s.1, s.2 + 1)) (List.replicate cSize 0, w)
      = ((List.range cSize).map (fun k => (memberValues modelPerf w n k).sum), w + n) := by
  intro n
  induction n with
  | zero =>
    simp only [List.range'_zero, List.foldl_nil, Nat.add_zero]
    refine Prod.ext ?_ rfl
    apply List.ext_getElem
    · simp
    · intro i h1 h2
      simp [memberValues]
  | succ n ih =>
    rw [List.range'_concat, List.foldl_append, ih]
    simp only [List.foldl_cons, List.foldl_nil]
    refine Prod.ext ?_ (by simp only; omega)
    simp only
    have hlen : ((List.range cSize).map
        (fun k => (memberValues modelPerf w n k).sum)).length = cSize := by simp
    have h := forLoop_set_all
      (fun i x => x + (modelPerf.getD (w + n) { _num := 0, _perf := [] })._perf.getD i 0)
      ((List.range cSize).map (fun k => (memberValues modelPerf w n k).sum))
    rw [hlen] at h
    rw [h]
    apply List.map_congr_left
    intro k hk
    have hk' : k < cSize := List.mem_range.mp hk
    rw [memberValues_succ]
    congr 1
    rw [List.getD_eq_getElem?_getD, List.getElem?_map, List.getElem?_range hk']
    rfl

theorem classPerfSum_eq (modelPerf : List Perf) (cSize w : Nat) :
    psbPlot.classPerfSum modelPerf cSize (List.replicate cSize 0) w
      = ((List.range cSize).map (fun k => (memberValues modelPerf w cSize k).sum),
          w + cSize) := by
  unfold psbPlot.classPerfSum
  have h := classPerfSum_loop modelPerf cSize w cSize
  unfold forLoop at h ⊢
  simp only [Nat.sub_zero] at h ⊢
  exact h

/-- One iteration of the loop of `calcClassPerf`, started with `modelCount` at
the first member of the category. -/
theorem calcClassPerfStep_eq (miscClass : String) (cats : PSBCategoryList)
    (modelPerf : List Perf) (acc : List Perf) (c : Nat) :
    psbPlot.calcClassPerfStep miscClass cats modelPerf (acc, classOffset cats c) c
      = (acc ++ [classPerfEntry miscClass cats modelPerf c], classOffset cats (c + 1)) := by
  unfold psbPlot.calcClassPerfStep classPerfEntry CUTOFF
  rw [classOffset_succ]
  by_cases hs : cats.nameOf c = miscClass ∨ cats.numModelsOf c ≤ 2
  · simp only [if_pos hs]
  · simp only [if_neg hs, classPerfSum_eq]
    have hlen : ((List.range (cats.numModelsOf c)).map
        (fun k => (memberValues modelPerf (classOffset cats c) (cats.numModelsOf c) k).sum)).length
        = cats.numModelsOf c := by simp
    have h := forLoop_set_all (fun _ x => x / ((cats.numModelsOf c : Nat) : ℚ))
      ((List.range (cats.numModelsOf c)).map
        (fun k => (memberValues modelPerf (classOffset cats c) (cats.numModelsOf c) k).sum))
    rw [hlen] at h
    rw [h]
    refine Prod.ext ?_ rfl
    simp only
    congr 3
    apply List.map_congr_left
    intro k hk
    have hk' : k < cats.numModelsOf c := List.mem_range.mp hk
    congr 1
    rw [List.getD_eq_getElem?_getD, List.getElem?_map, List.getElem?_range hk']
    rfl

/-- The loop of `calcClassPerf` over the first `n` categories. -/
theorem calcClassPerf_loop (miscClass : String) (cats : PSBCategoryList)
    (modelPerf : List Perf) :
    ∀ n, forLoop 0 n (psbPlot.calcClassPerfStep miscClass cats modelPerf) ([], 0)
      = ((List.range n).map (classPerfEntry miscClass cats modelPerf), classOffset cats n) := by
  intro n
  induction n with
  | zero => simp [forLoop, classOffset]
  | succ n ih =>
    unfold forLoop at ih ⊢
    simp only [Nat.sub_zero] at ih ⊢
    rw [List.range'_concat, List.foldl_append, ih]
    simp only [Nat.zero_add, Nat.one_mul, List.foldl_cons, List.foldl_nil]
    rw [calcClassPerfStep_eq, List.range_succ, List.map_append]
    rfl

/-- The result of `calcClassPerf` in closed form. -/
theorem calcClassPerf_eq (miscClass : String) (cats : PSBCategoryList)
    (modelPerf : List Perf) :
    psbPlot.calcClassPerf miscClass cats modelPerf
      = (List.range cats._numCategories).map (classPerfEntry miscClass cats modelPerf) := by
  unfold psbPlot.calcClassPerf
  rw [calcClassPerf_loop]

/-- After `createModelClassMapping`, the models of category `c` are exactly the
positions `classOffset c .. classOffset c + numModelsOf c - 1`. -/
theorem idToClass_eq_iff (cats : PSBCategoryList) (N : Nat) (idToClass : List Nat)
    (hmap : createModelClassMapping cats = some (N, idToClass)) (c m : Nat) (hm : m < N) :
    idToClass.getD m 0 = c
      ↔ classOffset cats c ≤ m ∧ m < classOffset cats c + cats.numModelsOf c := by
  rw [createModelClassMapping_eq] at hmap
  simp only [Option.some.injEq, Prod.mk.injEq] at hmap
  obtain ⟨hN, hids⟩ := hmap
  have hp : m < classOffset cats cats._numCategories := by
    unfold classOffset
    omega
  obtain ⟨c', _, hget, h1, h2⟩ := classBlocks_getElem cats cats._numCategories m hp
  rw [hids] at hget
  have hgd : idToClass.getD m 0 = c' := by
    rw [List.getD_eq_getElem?_getD, hget]
    rfl
  rw [hgd, ← classOffset_succ]
  constructor
  · intro h
    subst h
    exact ⟨h1, h2⟩
  · rintro ⟨h3, h4⟩
    rcases Nat.lt_trichotomy c' c with h | h | h
    · have := classOffset_mono cats (show c' + 1 ≤ c from h)
      omega
    · exact h
    · have := classOffset_mono cats (show c + 1 ≤ c' from h)
      omega

theorem length_memberValues (modelPerf : List Perf) (w size k : Nat) :
    (memberValues modelPerf w size k).length = size := by
  simp [memberValues]

theorem calcClassPerf_getElem? (miscClass : String) (cats : PSBCategoryList)
    (modelPerf : List Perf) (c : Nat) (hc : c < cats._numCategories) :
    (psbPlot.calcClassPerf miscClass cats modelPerf)[c]?
      = some (classPerfEntry miscClass cats modelPerf c) := by
  rw [calcClassPerf_eq, List.getElem?_map, List.getElem?_range hc]
  rfl

/-- Claim C25: for every category list (the miscellaneous category at any
position) and every category `c`: the models of `c` are exactly the positions
`classOffset c ≤ m < classOffset c + size`; if `c` is not miscellaneous and has
more than 2 members, the curve of `c` computed by `calcClassPerf` has `size`
values and its `k`-th value is the arithmetic mean of the `k`-th values of the
model curves at exactly those positions; a miscellaneous class or a class of at
most 2 members gets length 0. -/
theorem C25_class_curve (miscClass : String) (cats : PSBCategoryList) (modelPerf : List Perf)
    (N : Nat) (idToClass : List Nat) (c : Nat)
    (hmap : createModelClassMapping cats = some (N, idToClass))
    (hc : c < cats._numCategories) :
    (∀ m, m < N → (idToClass.getD m 0 = c
      ↔ classOffset cats c ≤ m ∧ m < classOffset cats c + cats.numModelsOf c)) ∧
    (cats.nameOf c ≠ miscClass → 2 < cats.numModelsOf c →
      ∃ p, (psbPlot.calcClassPerf miscClass cats modelPerf)[c]? = some p ∧
        p._num = cats.numModelsOf c ∧ p._perf.length = cats.numModelsOf c ∧
        ∀ k, k < cats.numModelsOf c →
          (memberValues modelPerf (classOffset cats c) (cats.numModelsOf c) k).length
              = cats.numModelsOf c ∧
          p._perf[k]? = some
            ((memberValues modelPerf (classOffset cats c) (cats.numModelsOf c) k).sum
              / ((cats.numModelsOf c : Nat) : ℚ))) ∧
    (cats.nameOf c = miscClass ∨ cats.numModelsOf c ≤ 2 →
      (psbPlot.calcClassPerf miscClass cats modelPerf)[c]? = some { _num := 0, _perf := [] }) := by
  refine ⟨fun m hm => idToClass_eq_iff cats N idToClass hmap c m hm, ?_, ?_⟩
  · intro hmisc hsize
    have hs : ¬ (cats.nameOf c = miscClass ∨ cats.numModelsOf c ≤ 2) := by
      rintro (h | h)
      · exact hmisc h
      · omega
    refine ⟨_, calcClassPerf_getElem? miscClass cats modelPerf c hc, ?_, ?_, ?_⟩
    · unfold classPerfEntry
      rw [if_neg hs]
    · unfold classPerfEntry
      rw [if_neg hs]
      simp
    · intro k hk
      refine ⟨length_memberValues _ _ _ _, ?_⟩
      unfold classPerfEntry
      rw [if_neg hs]
      simp only
      rw [List.getElem?_map, List.getElem?_range hk]
      rfl
  · intro hs
    rw [calcClassPerf_getElem? miscClass cats modelPerf c hc]
    unfold classPerfEntry
    rw [if_pos hs]

theorem C25_class_curve_witness :
    (∀ m, m < 6 → (exIds.getD m 0 = 0
      ↔ classOffset exCats 0 ≤ m ∧ m < classOffset exCats 0 + exCats.numModelsOf 0)) ∧
    (exCats.nameOf 0 ≠ "misc" → 2 < exCats.numModelsOf 0 →
      ∃ p, (psbPlot.calcClassPerf "misc" exCats exModelPerf)[0]? = some p ∧
        p._num = exCats.numModelsOf 0 ∧ p._perf.length = exCats.numModelsOf 0 ∧
        ∀ k, k < exCats.numModelsOf 0 →
          (memberValues exModelPerf (classOffset exCats 0) (exCats.numModelsOf 0) k).length
              = exCats.numModelsOf 0 ∧
          p._perf[k]? = some
            ((memberValues exModelPerf (classOffset exCats 0) (exCats.numModelsOf 0) k).sum
              / ((exCats.numModelsOf 0 : Nat) : ℚ))) ∧
    (exCats.nameOf 0 = "misc" ∨ exCats.numModelsOf 0 ≤ 2 →
      (psbPlot.calcClassPerf "misc" exCats exModelPerf)[0]? = some { _num := 0, _perf := [] }) :=
  C25_class_curve "misc" exCats exModelPerf 6 exIds 0 (by decide) (by decide)

/-! ## Theorems: the values of the curves lie in the unit interval -/

/-- The result of `calcModelPerf` in closed form, when every ranking is a
permutation of all positions. -/
theorem calcModelPerf_eq {α : Type} (miscClass : String) (cats : PSBCategoryList) (N : Nat)
    (idToClass : List Nat) (ranks : List (List (Rank α)))
    (hmap : createModelClassMapping cats = some (N, idToClass))
    (hperm : ∀ m, m < N → ((ranks.getD m []).map Rank._index).Perm (List.range N)) :
    psbPlot.calcModelPerf miscClass cats N idToClass ranks
      = .ok ((List.range N).map (modelPerfEntry miscClass cats N idToClass ranks)) := by
  have key : ∀ n, n ≤ N → (List.range' 0 n).foldl
      (fun (s : Except psbPlot.Fault (List Perf)) modelIndex =>
        s.bind (fun acc =>
          if cats.nameOf (idToClass.getD modelIndex 0) = miscClass then
            .ok (acc ++ [{ _num := 0, _perf := [] }])
          else
            (psbPlot.calcModelPerfModel cats N idToClass ranks modelIndex).bind
              (fun p => .ok (acc ++ [p])))) (.ok [])
      = .ok ((List.range n).map (modelPerfEntry miscClass cats N idToClass ranks)) := by
    intro n
    induction n with
    | zero =>
      intro _
      rfl
    | succ n ih =>
      intro hn
      rw [List.range'_concat, List.foldl_append, ih (by omega)]
      simp only [Nat.zero_add, Nat.one_mul, List.foldl_cons, List.foldl_nil]
      rw [List.range_succ, List.map_append]
      by_cases hmisc : cats.nameOf (idToClass.getD n 0) = miscClass
      · show (if cats.nameOf (idToClass.getD n 0) = miscClass then _ else _) = _
        rw [if_pos hmisc]
        simp only [List.map_cons, List.map_nil, modelPerfEntry, if_pos hmisc]
      · show (if cats.nameOf (idToClass.getD n 0) = miscClass then _ else _) = _
        rw [if_neg hmisc, calcModelPerfModel_eq cats N idToClass ranks n hmap (hperm n (by omega))]
        simp only [List.map_cons, List.map_nil, modelPerfEntry, if_neg hmisc]
        rfl
  unfold psbPlot.calcModelPerf
  exact key N le_rfl

/-- The `k`-th same-class entry has 1-indexed rank at least `k + 1` (counting
`k` from zero) and at most `n`. -/
theorem sameRanks_bound {α : Type} (idToClass : List Nat) (ranks : List (List (Rank α)))
    (model : Nat) :
    ∀ n k r, (sameRanks idToClass ranks model n)[k]? = some r → k + 1 ≤ r ∧ r ≤ n := by
  intro n
  induction n with
  | zero =>
    intro k r h
    simp [sameRanks] at h
  | succ n ih =>
    intro k r h
    rw [sameRanks_succ] at h
    have hlen := length_sameRanks idToClass ranks model n
    have hcc := correctCount_le idToClass ranks model n
    by_cases hk : k < (sameRanks idToClass ranks model n).length
    · rw [List.getElem?_append_left hk] at h
      have := ih k r h
      omega
    · rw [List.getElem?_append_right (by omega)] at h
      by_cases hc : idToClass.getD model 0 = rankClass idToClass ranks model n
      · rw [if_pos hc] at h
        have hk0 : k - (sameRanks idToClass ranks model n).length = 0 := by
          by_contra hne
          rw [List.getElem?_eq_none (by simp; omega)] at h
          exact absurd h (by simp)
        rw [hk0] at h
        simp only [List.getElem?_cons_zero, Option.some.injEq] at h
        omega
      · rw [if_neg hc] at h
        simp at h

/-- Every value `k / r_k` of a curve whose ranks satisfy `r_k ≥ k` lies in
`(0, 1]`. -/
theorem curveOf_unit (rs : List Nat) (h : ∀ k r, rs[k]? = some r → k + 1 ≤ r) :
    ∀ v, v ∈ curveOf rs → 0 < v ∧ v ≤ 1 := by
  intro v hv
  obtain ⟨k, hk, hget⟩ := List.getElem_of_mem hv
  rw [length_curveOf] at hk
  have hr := List.getElem?_eq_getElem hk
  have hc := curveOf_getElem? rs k _ hr
  have hb := h k _ hr
  have hv2 : (curveOf rs)[k]? = some v := by
    rw [← hget]
    exact List.getElem?_eq_getElem _
  rw [hc] at hv2
  have hv3 := Option.some.inj hv2
  rw [← hv3]
  have hrpos : (0 : ℚ) < ((rs[k] : Nat) : ℚ) := Nat.cast_pos.mpr (by omega)
  constructor
  · exact div_pos (Nat.cast_pos.mpr (by omega)) hrpos
  · rw [div_le_one hrpos]
    exact Nat.cast_le.mpr hb

theorem modelPerfEntry_unit {α : Type} (miscClass : String) (cats : PSBCategoryList) (N : Nat)
    (idToClass : List Nat) (ranks : List (List (Rank α))) (m : Nat) :
    ∀ v, v ∈ (modelPerfEntry miscClass cats N idToClass ranks m)._perf → 0 < v ∧ v ≤ 1 := by
  intro v hv
  unfold modelPerfEntry at hv
  by_cases hmisc : cats.nameOf (idToClass.getD m 0) = miscClass
  · rw [if_pos hmisc] at hv
    simp at hv
  · rw [if_neg hmisc] at hv
    exact curveOf_unit _ (fun k r h => (sameRanks_bound idToClass ranks m N k r h).1) v hv

theorem length_modelPerfEntry {α : Type} (miscClass : String) (cats : PSBCategoryList) (N : Nat)
    (idToClass : List Nat) (ranks : List (List (Rank α))) (m : Nat)
    (hmap : createModelClassMapping cats = some (N, idToClass))
    (hperm : ((ranks.getD m []).map Rank._index).Perm (List.range N))
    (hmisc : cats.nameOf (idToClass.getD m 0) ≠ miscClass) :
    (modelPerfEntry miscClass cats N idToClass ranks m)._perf.length
      = cats.numModelsOf (idToClass.getD m 0) := by
  unfold modelPerfEntry
  rw [if_neg hmisc]
  simp only
  rw [length_curveOf, length_sameRanks, correctCount_all cats N idToClass ranks m hmap hperm]

theorem sum_unit_pos (l : List ℚ) (h : ∀ v, v ∈ l → 0 < v ∧ v ≤ 1) (hl : l ≠ []) :
    0 < l.sum ∧ l.sum ≤ (l.length : ℚ) := by
  induction l with
  | nil => exact absurd rfl hl
  | cons a l ih =>
    have ha := h a (List.mem_cons_self a l)
    rw [List.sum_cons, List.length_cons]
    push_cast
    by_cases hn : l = []
    · subst hn
      simp only [List.sum_nil, List.length_nil, Nat.cast_zero, add_zero, zero_add]
      exact ha
    · have := ih (fun v hv => h v (List.mem_cons_of_mem a hv)) hn
      constructor
      · linarith
      · linarith

theorem sum_unit_nonneg (l : List ℚ) (h : ∀ v, v ∈ l → 0 ≤ v ∧ v ≤ 1) :
    0 ≤ l.sum ∧ l.sum ≤ (l.length : ℚ) := by
  induction l with
  | nil => simp
  | cons a l ih =>
    have ha := h a (List.mem_cons_self a l)
    have := ih (fun v hv => h v (List.mem_cons_of_mem a hv))
    rw [List.sum_cons, List.length_cons]
    push_cast
    constructor
    · linarith
    · linarith

/-- The values of the class curves, when the model curves are those of
`calcModelPerf` for rankings that are permutations. -/
theorem classPerfEntry_unit {α : Type} (miscClass : String) (cats : PSBCategoryList) (N : Nat)
    (idToClass : List Nat) (ranks : List (List (Rank α)))
    (hmap : createModelClassMapping cats = some (N, idToClass))
    (hperm : ∀ m, m < N → ((ranks.getD m []).map Rank._index).Perm (List.range N))
    (c : Nat) (hc : c < cats._numCategories) :
    ∀ v, v ∈ (classPerfEntry miscClass cats
        ((List.range N).map (modelPerfEntry miscClass cats N idToClass ranks)) c)._perf →
      0 < v ∧ v ≤ 1 := by
  intro v hv
  unfold classPerfEntry at hv
  by_cases hs : cats.nameOf c = miscClass ∨ cats.numModelsOf c ≤ 2
  · rw [if_pos hs] at hv
    simp at hv
  · rw [if_neg hs] at hv
    simp only at hv
    obtain ⟨k, hk, rfl⟩ := List.mem_map.mp hv
    have hk' : k < cats.numModelsOf c := List.mem_range.mp hk
    have hmisc : cats.nameOf c ≠ miscClass := fun h => hs (Or.inl h)
    have hsize : 2 < cats.numModelsOf c := by
      by_contra h
      exact hs (Or.inr (by omega))
    have hN : classOffset cats cats._numCategories = N := by
      have h := hmap
      rw [createModelClassMapping_eq] at h
      simp only [Option.some.injEq, Prod.mk.injEq] at h
      exact h.1
    have hoff : classOffset cats c + cats.numModelsOf c ≤ N := by
      rw [← hN, ← classOffset_succ]
      exact classOffset_mono cats (show c + 1 ≤ cats._numCategories from hc)
    have hmem : ∀ x, x ∈ memberValues
        ((List.range N).map (modelPerfEntry miscClass cats N idToClass ranks))
        (classOffset cats c) (cats.numModelsOf c) k → 0 < x ∧ x ≤ 1 := by
      intro x hx
      unfold memberValues at hx
      obtain ⟨j, hj, rfl⟩ := List.mem_map.mp hx
      have hj' : j < cats.numModelsOf c := List.mem_range.mp hj
      have hm : classOffset cats c + j < N := by omega
      have hcl : idToClass.getD (classOffset cats c + j) 0 = c :=
        (idToClass_eq_iff cats N idToClass hmap c _ hm).mpr ⟨by omega, by omega⟩
      have hget : ((List.range N).map (modelPerfEntry miscClass cats N idToClass ranks)).getD
          (classOffset cats c + j) { _num := 0, _perf := [] }
          = modelPerfEntry miscClass cats N idToClass ranks (classOffset cats c + j) := by
        rw [List.getD_eq_getElem?_getD, List.getElem?_map, List.getElem?_range hm]
        rfl
      rw [hget]
      have hlen := length_modelPerfEntry miscClass cats N idToClass ranks
        (classOffset cats c + j) hmap (hperm _ hm) (by rw [hcl]; exact hmisc)
      rw [hcl] at hlen
      have hk2 : k < (modelPerfEntry miscClass cats N idToClass ranks
          (classOffset cats c + j))._perf.length := by omega
      rw [List.getD_eq_getElem?_getD, List.getElem?_eq_getElem hk2, Option.getD_some]
      exact modelPerfEntry_unit miscClass cats N idToClass ranks _ _ (List.getElem_mem hk2)
    have hne : memberValues
        ((List.range N).map (modelPerfEntry miscClass cats N idToClass ranks))
        (classOffset cats c) (cats.numModelsOf c) k ≠ [] := by
      intro h
      have := length_memberValues
        ((List.range N).map (modelPerfEntry miscClass cats N idToClass ranks))
        (classOffset cats c) (cats.numModelsOf c) k
      rw [h] at this
      simp at this
      omega
    have hsum := sum_unit_pos _ hmem hne
    rw [length_memberValues] at hsum
    have hpos : (0 : ℚ) < ((cats.numModelsOf c : Nat) : ℚ) := Nat.cast_pos.mpr (by omega)
    exact ⟨div_pos hsum.1 hpos, (div_le_one hpos).mpr hsum.2⟩

theorem getD_unit (l : List ℚ) (h : ∀ v, v ∈ l → 0 ≤ v ∧ v ≤ 1) (i : Nat) :
    0 ≤ l.getD i 0 ∧ l.getD i 0 ≤ 1 := by
  by_cases hi : i < l.length
  · rw [List.getD_eq_getElem?_getD, List.getElem?_eq_getElem hi, Option.getD_some]
    exact h _ (List.getElem_mem hi)
  · rw [List.getD_eq_getElem?_getD, List.getElem?_eq_none (by omega)]
    exact ⟨le_rfl, zero_le_one⟩

/-- The value interpolated by a call of `calcAvgPerf` on a curve with values in
`[0, 1]` lies in `[0, 1]`. -/
theorem interpolatePerf_unit (p : Perf) (j : Nat) (hk : psbPlot.skipCurve p j = false)
    (hj : j < psbPlot.SAMPLE) (hv : ∀ v, v ∈ p._perf → 0 ≤ v ∧ v ≤ 1) :
    0 ≤ psbPlot.interpolatePerf p (((j : ℚ) + 1) / (psbPlot.SAMPLE : ℚ))
      ∧ psbPlot.interpolatePerf p (((j : ℚ) + 1) / (psbPlot.SAMPLE : ℚ)) ≤ 1 := by
  obtain ⟨_, _, _, hd, he⟩ := interpolatePerf_sample p j hk hj
  rw [he]
  have hc := convex_between
    (p._perf.getD (truncate (psbPlot.samplePos p._num j)).toNat 0)
    (p._perf.getD (min ((truncate (psbPlot.samplePos p._num j)).toNat + 1) (p._num - 1)) 0)
    _ hd.1 (le_of_lt hd.2)
  have ha := getD_unit p._perf hv (truncate (psbPlot.samplePos p._num j)).toNat
  have hb := getD_unit p._perf hv
    (min ((truncate (psbPlot.samplePos p._num j)).toNat + 1) (p._num - 1))
  exact ⟨le_trans (le_min ha.1 hb.1) hc.1, le_trans hc.2 (max_le ha.2 hb.2)⟩

theorem sampleMean_unit (perf : List Perf) (j : Nat) (hj : j < psbPlot.SAMPLE)
    (hv : ∀ p, p ∈ perf → ∀ v, v ∈ p._perf → 0 ≤ v ∧ v ≤ 1) :
    0 ≤ sampleMean perf j ∧ sampleMean perf j ≤ 1 := by
  unfold sampleMean
  by_cases hz : (eligibleCurves perf j).length = 0
  · rw [if_pos hz]
    exact ⟨le_rfl, zero_le_one⟩
  · rw [if_neg hz]
    have hmem : ∀ x, x ∈ (eligibleCurves perf j).map
        (fun p => psbPlot.interpolatePerf p (((j : ℚ) + 1) / (psbPlot.SAMPLE : ℚ))) →
        0 ≤ x ∧ x ≤ 1 := by
      intro x hx
      obtain ⟨p, hp, rfl⟩ := List.mem_map.mp hx
      unfold eligibleCurves at hp
      rw [List.mem_filter] at hp
      have hk : psbPlot.skipCurve p j = false :=
        (skipCurve_eq_false_iff p j).mpr (by simpa using hp.2)
      exact interpolatePerf_unit p j hk hj (hv p hp.1)
    have hsum := sum_unit_nonneg _ hmem
    rw [List.length_map] at hsum
    have hpos : (0 : ℚ) < ((eligibleCurves perf j).length : ℚ) :=
      Nat.cast_pos.mpr (Nat.pos_of_ne_zero hz)
    exact ⟨div_nonneg hsum.1 (le_of_lt hpos), (div_le_one hpos).mpr hsum.2⟩

/-- Every mean written by `calcAvgPerf` for curves with values in `[0, 1]` lies
in `[0, 1]`. -/
theorem calcAvgPerf_unit (perf : List Perf)
    (hv : ∀ p, p ∈ perf → ∀ v, v ∈ p._perf → 0 ≤ v ∧ v ≤ 1) :
    (psbPlot.calcAvgPerf perf perf.length).length = psbPlot.SAMPLE ∧
    ∀ v, v ∈ psbPlot.calcAvgPerf perf perf.length → 0 ≤ v ∧ v ≤ 1 := by
  rw [calcAvgPerf_eq]
  refine ⟨by simp, ?_⟩
  intro v hv2
  obtain ⟨j, hj, rfl⟩ := List.mem_map.mp hv2
  exact sampleMean_unit perf j (List.mem_range.mp hj) hv

/-- Claim C27: for every category list and rankings that are permutations of all
`N` positions, `calcModelPerf` completes and every value of every model curve
lies in `(0, 1]`; every value of every class curve built by `calcClassPerf` from
them lies in `(0, 1]`; and each of the `SAMPLE` means produced by `calcAvgPerf`
from the model curves (micro average) and from the class curves (macro average)
lies in `[0, 1]`. -/
theorem C27_unit_interval {α : Type} (miscClass : String) (cats : PSBCategoryList) (N : Nat)
    (idToClass : List Nat) (ranks : List (List (Rank α)))
    (hmap : createModelClassMapping cats = some (N, idToClass))
    (hperm : ∀ m, m < N → ((ranks.getD m []).map Rank._index).Perm (List.range N)) :
    ∃ perfs, psbPlot.calcModelPerf miscClass cats N idToClass ranks = .ok perfs ∧
      perfs.length = N ∧
      (∀ p, p ∈ perfs → ∀ v, v ∈ p._perf → 0 < v ∧ v ≤ 1) ∧
      (psbPlot.calcClassPerf miscClass cats perfs).length = cats._numCategories ∧
      (∀ p, p ∈ psbPlot.calcClassPerf miscClass cats perfs →
        ∀ v, v ∈ p._perf → 0 < v ∧ v ≤ 1) ∧
      ((psbPlot.calcAvgPerf perfs N).length = psbPlot.SAMPLE ∧
        ∀ v, v ∈ psbPlot.calcAvgPerf perfs N → 0 ≤ v ∧ v ≤ 1) ∧
      ((psbPlot.calcAvgPerf (psbPlot.calcClassPerf miscClass cats perfs)
          cats._numCategories).length = psbPlot.SAMPLE ∧
        ∀ v, v ∈ psbPlot.calcAvgPerf (psbPlot.calcClassPerf miscClass cats perfs)
          cats._numCategories → 0 ≤ v ∧ v ≤ 1) := by
  have hlenM : ((List.range N).map (modelPerfEntry miscClass cats N idToClass ranks)).length
      = N := by simp
  have hM : ∀ p, p ∈ (List.range N).map (modelPerfEntry miscClass cats N idToClass ranks) →
      ∀ v, v ∈ p._perf → 0 < v ∧ v ≤ 1 := by
    intro p hp
    obtain ⟨m, _, rfl⟩ := List.mem_map.mp hp
    exact modelPerfEntry_unit miscClass cats N idToClass ranks m
  have hlenC : (psbPlot.calcClassPerf miscClass cats
      ((List.range N).map (modelPerfEntry miscClass cats N idToClass ranks))).length
      = cats._numCategories := by
    rw [calcClassPerf_eq]
    simp
  have hC : ∀ p, p ∈ psbPlot.calcClassPerf miscClass cats
      ((List.range N).map (modelPerfEntry miscClass cats N idToClass ranks)) →
      ∀ v, v ∈ p._perf → 0 < v ∧ v ≤ 1 := by
    intro p hp
    rw [calcClassPerf_eq] at hp
    obtain ⟨c, hc, rfl⟩ := List.mem_map.mp hp
    exact classPerfEntry_unit miscClass cats N idToClass ranks hmap hperm c (List.mem_range.mp hc)
  refine ⟨_, calcModelPerf_eq miscClass cats N idToClass ranks hmap hperm, hlenM, hM, hlenC, hC,
    ?_, ?_⟩
  · have h := calcAvgPerf_unit
      ((List.range N).map (modelPerfEntry miscClass cats N idToClass ranks))
      (fun p hp v hv => ⟨le_of_lt (hM p hp v hv).1, (hM p hp v hv).2⟩)
    rw [hlenM] at h
    exact h
  · have h := calcAvgPerf_unit
      (psbPlot.calcClassPerf miscClass cats
        ((List.range N).map (modelPerfEntry miscClass cats N idToClass ranks)))
      (fun p hp v hv => ⟨le_of_lt (hC p hp v hv).1, (hC p hp v hv).2⟩)
    rw [hlenC] at h
    exact h

theorem C27_unit_interval_witness :
    ∃ perfs, psbPlot.calcModelPerf "misc" exCats 6 exIds exRanks = .ok perfs ∧
      perfs.length = 6 ∧
      (∀ p, p ∈ perfs → ∀ v, v ∈ p._perf → 0 < v ∧ v ≤ 1) ∧
      (psbPlot.calcClassPerf "misc" exCats perfs).length = exCats._numCategories ∧
      (∀ p, p ∈ psbPlot.calcClassPerf "misc" exCats perfs →
        ∀ v, v ∈ p._perf → 0 < v ∧ v ≤ 1) ∧
      ((psbPlot.calcAvgPerf perfs 6).length = psbPlot.SAMPLE ∧
        ∀ v, v ∈ psbPlot.calcAvgPerf perfs 6 → 0 ≤ v ∧ v ≤ 1) ∧
      ((psbPlot.calcAvgPerf (psbPlot.calcClassPerf "misc" exCats perfs)
          exCats._numCategories).length = psbPlot.SAMPLE ∧
        ∀ v, v ∈ psbPlot.calcAvgPerf (psbPlot.calcClassPerf "misc" exCats perfs)
          exCats._numCategories → 0 ≤ v ∧ v ≤ 1) :=
  C27_unit_interval "misc" exCats 6 exIds exRanks (by decide) exRanks_perm

/-! ## Theorems: classes separated in the matrix -/

/-- When, in the row of `m`, the other models of its class are strictly closer
than the models of other classes and every off-diagonal value is below
`FLT_MAX`, the ranking of `m` starts with all the other models of its class. -/
theorem separated_perfect {α : Type} [LinearOrder α] (fltMax : α) (cats : PSBCategoryList)
    (N : Nat) (idToClass : List Nat) (matrix : Nat → Nat → α) (m : Nat)
    (hmap : createModelClassMapping cats = some (N, idToClass)) (hm : m < N)
    (hbelow : ∀ j, j < N → j ≠ m → matrix m j < fltMax)
    (hsep : ∀ j k, j < N → k < N → j ≠ m → idToClass.getD j 0 = idToClass.getD m 0 →
      idToClass.getD k 0 ≠ idToClass.getD m 0 → matrix m j < matrix m k) :
    ∀ i, i < cats.numModelsOf (idToClass.getD m 0) - 1 →
      rankClass idToClass (psbTable.readMatrix fltMax N matrix) m i = idToClass.getD m 0 := by
  have hq := query_last_iff fltMax N matrix m hm
  have hlast : rankIndex (psbTable.readMatrix fltMax N matrix) m (N - 1) = m :=
    hq.1.mpr (fun j hj hjm => Or.inl (hbelow j hj hjm))
  have hnotq := hq.2 hlast
  have hperm : (((psbTable.readMatrix fltMax N matrix).getD m []).map Rank._index).Perm
      (List.range N) := by
    rw [readMatrix_getD fltMax N matrix m hm]
    exact readMatrixRow_map_index fltMax N matrix m
  have hinit := correctCount_init cats N idToClass _ m hmap hm hperm hlast
  have hle := numModelsOf_le cats N idToClass hmap (idToClass.getD m 0)
  have hsorted := readMatrixRow_sorted fltMax N matrix m
  rw [List.pairwise_iff_getElem] at hsorted
  intro i hi
  by_contra hne
  have hiN : i < N - 1 := by omega
  have htail : ∀ k, k ∈ List.range' i (N - 1 - i) → ¬ (decide
      (rankClass idToClass (psbTable.readMatrix fltMax N matrix) m k = idToClass.getD m 0)
        = true) := by
    intro k hk hkc
    rw [List.mem_range'_1] at hk
    have hkc' := of_decide_eq_true hkc
    by_cases hik : k = i
    · subst hik
      exact hne hkc'
    · have hlt : i < k := by omega
      obtain ⟨ri, hri, hrii⟩ := rankIndex_readMatrix fltMax N matrix m i hm (by omega)
      obtain ⟨rk, hrk, hrki⟩ := rankIndex_readMatrix fltMax N matrix m k hm (by omega)
      obtain ⟨hil, hie⟩ := List.getElem?_eq_some.mp hri
      obtain ⟨hkl, hke⟩ := List.getElem?_eq_some.mp hrk
      have hcmp := hsorted i k hil hkl hlt
      rw [hie, hke, compareRanks_neg_iff] at hcmp
      have hmi := (mem_readMatrixRow fltMax N matrix m ri).mp (List.getElem?_mem hri)
      have hmk := (mem_readMatrixRow fltMax N matrix m rk).mp (List.getElem?_mem hrk)
      have hqi : ri._index ≠ m := by
        rw [← hrii]
        exact hnotq i hiN
      have hqk : rk._index ≠ m := by
        rw [← hrki]
        exact hnotq k (by omega)
      rw [if_neg hqi] at hmi
      rw [if_neg hqk] at hmk
      have hci : idToClass.getD ri._index 0 ≠ idToClass.getD m 0 := by
        rw [← hrii]
        exact hne
      have hck : idToClass.getD rk._index 0 = idToClass.getD m 0 := by
        rw [← hrki]
        exact hkc'
      have hs := hsep rk._index ri._index hmk.1 hmi.1 hqk hck hci
      rw [← hmi.2, ← hmk.2] at hs
      rcases hcmp with h | h
      · exact absurd h (not_lt.mpr (le_of_lt hs))
      · rw [h.1] at hs
        exact lt_irrefl _ hs
  have hzero : (List.range' i (N - 1 - i)).countP
      (fun k => decide
        (rankClass idToClass (psbTable.readMatrix fltMax N matrix) m k = idToClass.getD m 0))
      = 0 := List.countP_eq_zero.mpr htail
  have hsplit := countP_range'_split
    (fun k => decide
      (rankClass idToClass (psbTable.readMatrix fltMax N matrix) m k = idToClass.getD m 0))
    i (N - 1) (by omega)
  have hci := correctCount_le idToClass (psbTable.readMatrix fltMax N matrix) m i
  unfold correctCount at hinit hci
  omega

/-- The entry of `_modelTable` for a model outside the miscellaneous class whose
class has at least 2 members, when the classes are separated in its row. -/
theorem calcModelTableModel_separated {α : Type} [LinearOrder α] (miscClass : String)
    (log10 toFloat : ℚ → ℚ) (fltMax : α) (cats : PSBCategoryList) (N : Nat) (idToClass : List Nat)
    (matrix : Nat → Nat → α) (m : Nat)
    (hmap : createModelClassMapping cats = some (N, idToClass)) (hm : m < N)
    (hpos : ∀ r : Nat, 2 ≤ r → 0 < log10 (r : ℚ))
    (hcast : ∀ x : ℚ, 0 ≤ x → 0 ≤ toFloat x)
    (hbelow : ∀ j, j < N → j ≠ m → matrix m j < fltMax)
    (hsep : ∀ j k, j < N → k < N → j ≠ m → idToClass.getD j 0 = idToClass.getD m 0 →
      idToClass.getD k 0 ≠ idToClass.getD m 0 → matrix m j < matrix m k)
    (hmisc : cats.nameOf (idToClass.getD m 0) ≠ miscClass)
    (hclass : 2 ≤ cats.numModelsOf (idToClass.getD m 0)) :
    ∃ t, psbTable.calcModelTableModel miscClass log10 toFloat cats N idToClass
        (psbTable.readMatrix fltMax N matrix) m = some t ∧
      t._num = cats.numModelsOf (idToClass.getD m 0) ∧ t._nn = 1 ∧ t._firstTier = 1 := by
  have hperfect := separated_perfect fltMax cats N idToClass matrix m hmap hm hbelow hsep
  have hle := numModelsOf_le cats N idToClass hmap (idToClass.getD m 0)
  have hN : 2 ≤ N := le_trans hclass hle
  have hcc := correctCount_of_all idToClass (psbTable.readMatrix fltMax N matrix) m _ hperfect
  have h0 := hperfect 0 (by omega)
  unfold psbTable.calcModelTableModel
  simp only [if_neg hmisc]
  rw [calcTableTier_eq cats N idToClass _ m _ hclass]
  simp only [Option.some_bind]
  rw [calcDCG_eq log10 toFloat cats N idToClass _ m _ hpos hcast hN]
  simp only [Option.some_bind]
  rw [calcEF_eq, if_neg (by omega), if_neg (by omega)]
  refine ⟨_, rfl, rfl, ?_, ?_⟩
  · simp only
    rw [if_pos h0]
  · simp only
    rw [hcc]
    exact div_self (Nat.cast_ne_zero.mpr (by omega))

theorem classOffset_add_le (cats : PSBCategoryList) (N : Nat) (idToClass : List Nat)
    (hmap : createModelClassMapping cats = some (N, idToClass)) (c : Nat)
    (hc : c < cats._numCategories) : classOffset cats c + cats.numModelsOf c ≤ N := by
  have hN : classOffset cats cats._numCategories = N := by
    have h := hmap
    rw [createModelClassMapping_eq] at h
    simp only [Option.some.injEq, Prod.mk.injEq] at h
    exact h.1
  rw [← hN, ← classOffset_succ]
  exact classOffset_mono cats (show c + 1 ≤ cats._numCategories from hc)

theorem calcModelTableModel_misc {α : Type} (miscClass : String) (log10 toFloat : ℚ → ℚ)
    (cats : PSBCategoryList) (N : Nat) (idToClass : List Nat) (ranks : List (List (Rank α)))
    (m : Nat) (hmisc : cats.nameOf (idToClass.getD m 0) = miscClass) :
    psbTable.calcModelTableModel miscClass log10 toFloat cats N idToClass ranks m
      = some { zeroTable with _num := 0 } := by
  unfold psbTable.calcModelTableModel
  simp only [if_pos hmisc]

theorem calcTableTier_num {α : Type} (cats : PSBCategoryList) (N : Nat) (idToClass : List Nat)
    (ranks : List (List (Rank α))) (model : Nat) (table t : Table)
    (h : psbTable.calcTableTier cats N idToClass ranks model table = some t) :
    t._num = table._num := by
  unfold psbTable.calcTableTier at h
  by_cases hf : cats.numModelsOf (idToClass.getD model 0) - 1 = 0
  · simp only [if_pos hf, Option.some.injEq] at h
    rw [← h]
  · simp only [if_neg hf, Option.bind_eq_some, Option.some.injEq] at h
    obtain ⟨_, _, _, _, h⟩ := h
    rw [← h]

theorem calcDCG_num {α : Type} (log10 toFloat : ℚ → ℚ) (cats : PSBCategoryList) (N : Nat)
    (idToClass : List Nat) (ranks : List (List (Rank α))) (model : Nat) (table t : Table)
    (h : psbTable.calcDCG log10 toFloat cats N idToClass ranks model table = some t) :
    t._num = table._num := by
  unfold psbTable.calcDCG at h
  simp only [Option.bind_eq_some, Option.some.injEq] at h
  obtain ⟨_, _, _, _, _, _, h⟩ := h
  rw [← h]

theorem calcEF_num {α : Type} (cats : PSBCategoryList) (N : Nat) (idToClass : List Nat)
    (ranks : List (List (Rank α))) (model : Nat) (table t : Table)
    (h : psbTable.calcEF cats N idToClass ranks model table = some t) :
    t._num = table._num := by
  rw [calcEF_eq] at h
  split_ifs at h
  · rw [← Option.some.inj h]
  · rw [← Option.some.inj h]

/-- The entry of `_modelTable` carries the size of the model's class, `0` for a
model of the miscellaneous class. -/
theorem calcModelTableModel_num {α : Type} (miscClass : String) (log10 toFloat : ℚ → ℚ)
    (cats : PSBCategoryList) (N : Nat) (idToClass : List Nat) (ranks : List (List (Rank α)))
    (m : Nat) (t : Table)
    (h : psbTable.calcModelTableModel miscClass log10 toFloat cats N idToClass ranks m = some t) :
    t._num = if cats.nameOf (idToClass.getD m 0) = miscClass then 0
      else cats.numModelsOf (idToClass.getD m 0) := by
  unfold psbTable.calcModelTableModel at h
  by_cases hmisc : cats.nameOf (idToClass.getD m 0) = miscClass
  · simp only [if_pos hmisc, Option.some.injEq] at h
    rw [if_pos hmisc, ← h]
  · simp only [if_neg hmisc, Option.bind_eq_some] at h
    obtain ⟨t1, h1, t2, h2, h3⟩ := h
    rw [if_neg hmisc, calcEF_num cats N idToClass ranks m t2 t h3,
      calcDCG_num log10 toFloat cats N idToClass ranks m t1 t2 h2,
      calcTableTier_num cats N idToClass ranks m _ t1 h1]

theorem meanOf_eq_one (f : Table → ℚ) (ts : List Table) (hne : ts ≠ [])
    (h : ∀ t, t ∈ ts → f t = 1) : meanOf f ts = 1 := by
  unfold meanOf
  have hsum : ∀ l : List Table, (∀ t, t ∈ l → f t = 1) → (l.map f).sum = (l.length : ℚ) := by
    intro l
    induction l with
    | nil => simp
    | cons a l ih =>
      intro hl
      rw [List.map_cons, List.sum_cons, List.length_cons, hl a (List.mem_cons_self a l),
        ih (fun t ht => hl t (List.mem_cons_of_mem a ht))]
      push_cast
      ring
  rw [hsum ts h]
  exact div_self (Nat.cast_ne_zero.mpr (fun h0 => hne (List.length_eq_zero.mp h0)))

/-- The micro average of the nearest-neighbour score over an array holding the
model tables, when the classes are separated in every row. -/
theorem avgTable_separated {α : Type} [LinearOrder α] (miscClass : String)
    (log10 toFloat : ℚ → ℚ) (fltMax : α) (cats : PSBCategoryList) (N : Nat) (idToClass : List Nat)
    (matrix : Nat → Nat → α)
    (hmap : createModelClassMapping cats = some (N, idToClass))
    (hpos : ∀ r : Nat, 2 ≤ r → 0 < log10 (r : ℚ))
    (hcast : ∀ x : ℚ, 0 ≤ x → 0 ≤ toFloat x)
    (hbelow : ∀ i j, i < N → j < N → j ≠ i → matrix i j < fltMax)
    (hsep : ∀ i j k, i < N → j < N → k < N → j ≠ i →
      idToClass.getD j 0 = idToClass.getD i 0 →
      idToClass.getD k 0 ≠ idToClass.getD i 0 → matrix i j < matrix i k)
    (ts : List Table) (hlen : ts.length = N)
    (hts : ∀ m, m < N → ∃ t, ts[m]? = some t ∧
      (psbTable.calcModelTableModel miscClass log10 toFloat cats N idToClass
          (psbTable.readMatrix fltMax N matrix) m = none →
        t._num = cats.numModelsOf (idToClass.getD m 0)) ∧
      ∀ u, psbTable.calcModelTableModel miscClass log10 toFloat cats N idToClass
          (psbTable.readMatrix fltMax N matrix) m = some u → u = t)
    (hvalid : ∃ c, c < cats._numCategories ∧ cats.nameOf c ≠ miscClass
      ∧ 2 < cats.numModelsOf c) :
    ∃ avg, psbTable.calcAvgTable ts N = some avg ∧ avg._nn = 1 := by
  have hsepm : ∀ m, m < N → cats.nameOf (idToClass.getD m 0) ≠ miscClass →
      2 ≤ cats.numModelsOf (idToClass.getD m 0) →
      ∃ t, psbTable.calcModelTableModel miscClass log10 toFloat cats N idToClass
          (psbTable.readMatrix fltMax N matrix) m = some t ∧
        t._num = cats.numModelsOf (idToClass.getD m 0) ∧ t._nn = 1 ∧ t._firstTier = 1 :=
    fun m hm hmisc hclass =>
      calcModelTableModel_separated miscClass log10 toFloat fltMax cats N idToClass matrix m hmap hm hpos hcast
        (fun j hj hjm => hbelow m j hm hj hjm)
        (fun j k hj hk hjm => hsep m j k hm hj hk hjm) hmisc hclass
  -- every entry that counts has nearest neighbour 1
  have hall : ∀ t, t ∈ validTables ts → t._nn = 1 := by
    intro t ht
    unfold validTables at ht
    rw [List.mem_filter] at ht
    obtain ⟨htm, hnum⟩ := ht
    have hnum' : 2 < t._num := by simpa using hnum
    obtain ⟨m, hm, hget⟩ := List.getElem_of_mem htm
    have hmN : m < N := by omega
    obtain ⟨t0, ht0, hnone, hsome⟩ := hts m hmN
    have ht0t : t0 = t := by
      rw [List.getElem?_eq_getElem hm, hget] at ht0
      exact (Option.some.inj ht0).symm
    subst ht0t
    by_cases hmisc : cats.nameOf (idToClass.getD m 0) = miscClass
    · have h := hsome _ (calcModelTableModel_misc miscClass log10 toFloat cats N idToClass _ m hmisc)
      rw [← h] at hnum'
      simp at hnum'
    · by_cases hclass : 2 ≤ cats.numModelsOf (idToClass.getD m 0)
      · obtain ⟨u, hu, _, hnn, _⟩ := hsepm m hmN hmisc hclass
        rw [← hsome u hu]
        exact hnn
      · cases hcm : psbTable.calcModelTableModel miscClass log10 toFloat cats N idToClass
            (psbTable.readMatrix fltMax N matrix) m with
        | none =>
          have h := hnone hcm
          omega
        | some u =>
          have h := calcModelTableModel_num miscClass log10 toFloat cats N idToClass _ m u hcm
          rw [if_neg hmisc, hsome u hcm] at h
          omega
  -- some entry counts
  obtain ⟨c, hc, hcm, hcs⟩ := hvalid
  have hoff := classOffset_add_le cats N idToClass hmap c hc
  have hmN : classOffset cats c < N := by omega
  have hcl : idToClass.getD (classOffset cats c) 0 = c :=
    (idToClass_eq_iff cats N idToClass hmap c _ hmN).mpr ⟨le_rfl, by omega⟩
  obtain ⟨t0, ht0, _, hsome⟩ := hts (classOffset cats c) hmN
  obtain ⟨u, hu, hun, _, _⟩ := hsepm (classOffset cats c) hmN (by rw [hcl]; exact hcm)
    (by rw [hcl]; omega)
  have hmem : t0 ∈ validTables ts := by
    unfold validTables
    rw [List.mem_filter]
    refine ⟨List.getElem?_mem ht0, ?_⟩
    rw [← hsome u hu, hun, hcl]
    simpa using hcs
  have hne : validTables ts ≠ [] := List.ne_nil_of_mem hmem
  have hz : (validTables ts).length ≠ 0 := fun h => hne (List.length_eq_zero.mp h)
  rw [← hlen, calcAvgTable_eq, if_neg hz]
  exact ⟨_, rfl, meanOf_eq_one Table._nn _ hne hall⟩

/-- Claim C22: for every category list and matrix in which every off-diagonal
value is below `FLT_MAX` and, in each query's row, every other model of the
query's class is strictly closer than every model of a different class,
`calcModelTable` gives every model outside the miscellaneous class whose class
has at least 2 members `nearestNeighbor = 1` and `firstTier = 1`; and for any
array holding the model tables (an entry whose scores are undefined keeps the
size of its class), `calcAvgTable` over the `N` entries outputs the micro
average nearest neighbour `1` whenever some class outside the miscellaneous
class has more than 2 members. -/
theorem C22_separated_classes {α : Type} [LinearOrder α] (miscClass : String)
    (log10 toFloat : ℚ → ℚ) (fltMax : α) (cats : PSBCategoryList) (N : Nat) (idToClass : List Nat)
    (matrix : Nat → Nat → α)
    (hmap : createModelClassMapping cats = some (N, idToClass))
    (hpos : ∀ r : Nat, 2 ≤ r → 0 < log10 (r : ℚ))
    (hcast : ∀ x : ℚ, 0 ≤ x → 0 ≤ toFloat x)
    (hbelow : ∀ i j, i < N → j < N → j ≠ i → matrix i j < fltMax)
    (hsep : ∀ i j k, i < N → j < N → k < N → j ≠ i →
      idToClass.getD j 0 = idToClass.getD i 0 →
      idToClass.getD k 0 ≠ idToClass.getD i 0 → matrix i j < matrix i k) :
    (∀ m, m < N → cats.nameOf (idToClass.getD m 0) ≠ miscClass →
      2 ≤ cats.numModelsOf (idToClass.getD m 0) →
      ∃ t, (psbTable.calcModelTable miscClass log10 toFloat cats N idToClass
          (psbTable.readMatrix fltMax N matrix))[m]? = some (some t) ∧
        t._nn = 1 ∧ t._firstTier = 1) ∧
    (∀ ts : List Table, ts.length = N →
      (∀ m, m < N → ∃ t, ts[m]? = some t ∧
        (psbTable.calcModelTableModel miscClass log10 toFloat cats N idToClass
            (psbTable.readMatrix fltMax N matrix) m = none →
          t._num = cats.numModelsOf (idToClass.getD m 0)) ∧
        ∀ u, psbTable.calcModelTableModel miscClass log10 toFloat cats N idToClass
            (psbTable.readMatrix fltMax N matrix) m = some u → u = t) →
      (∃ c, c < cats._numCategories ∧ cats.nameOf c ≠ miscClass ∧ 2 < cats.numModelsOf c) →
      ∃ avg, psbTable.calcAvgTable ts N = some avg ∧ avg._nn = 1) := by
  constructor
  · intro m hm hmisc hclass
    obtain ⟨t, ht, _, hnn, hft⟩ :=
      calcModelTableModel_separated miscClass log10 toFloat fltMax cats N idToClass matrix m hmap hm hpos hcast
        (fun j hj hjm => hbelow m j hm hj hjm)
        (fun j k hj hk hjm => hsep m j k hm hj hk hjm) hmisc hclass
    refine ⟨t, ?_, hnn, hft⟩
    rw [calcModelTable_getElem? miscClass log10 toFloat cats N idToClass _ m hm, ht]
  · intro ts hlen hts hvalid
    exact avgTable_separated miscClass log10 toFloat fltMax cats N idToClass matrix hmap hpos hcast hbelow hsep
      ts hlen hts hvalid

theorem exMatrixClasses_below :
    ∀ i j, i < 6 → j < 6 → j ≠ i → exMatrixClasses i j < FLT_MAX := by
  intro i j _ _ _
  unfold exMatrixClasses FLT_MAX
  split_ifs <;> norm_num

theorem exMatrixClasses_sep :
    ∀ i j k, i < 6 → j < 6 → k < 6 → j ≠ i → exIds.getD j 0 = exIds.getD i 0 →
      exIds.getD k 0 ≠ exIds.getD i 0 → exMatrixClasses i j < exMatrixClasses i k := by
  intro i j k _ _ _ _ hj hk
  unfold exMatrixClasses
  rw [if_pos hj.symm, if_neg (fun h => hk h.symm)]
  norm_num

theorem exModelTables_holds :
    ∀ m, m < 6 → ∃ t, exModelTables[m]? = some t ∧
      (psbTable.calcModelTableModel "misc" exLog10 exToFloat exCats 6 exIds
          (psbTable.readMatrix FLT_MAX 6 exMatrixClasses) m = none →
        t._num = exCats.numModelsOf (exIds.getD m 0)) ∧
      ∀ u, psbTable.calcModelTableModel "misc" exLog10 exToFloat exCats 6 exIds
          (psbTable.readMatrix FLT_MAX 6 exMatrixClasses) m = some u → u = t := by
  intro m hm
  refine ⟨(psbTable.calcModelTableModel "misc" exLog10 exToFloat exCats 6 exIds
      (psbTable.readMatrix FLT_MAX 6 exMatrixClasses) m).getD
      { zeroTable with _num := exCats.numModelsOf (exIds.getD m 0) }, ?_, ?_, ?_⟩
  · unfold exModelTables
    rw [List.getElem?_map, List.getElem?_range hm]
    rfl
  · intro h
    rw [h]
    rfl
  · intro u h
    rw [h]
    rfl

theorem C22_separated_classes_witness :
    (∀ m, m < 6 → exCats.nameOf (exIds.getD m 0) ≠ "misc" →
      2 ≤ exCats.numModelsOf (exIds.getD m 0) →
      ∃ t, (psbTable.calcModelTable "misc" exLog10 exToFloat exCats 6 exIds
          (psbTable.readMatrix FLT_MAX 6 exMatrixClasses))[m]? = some (some t) ∧
        t._nn = 1 ∧ t._firstTier = 1) ∧
    (∃ avg, psbTable.calcAvgTable exModelTables 6 = some avg ∧ avg._nn = 1) :=
  ⟨(C22_separated_classes "misc" exLog10 exToFloat FLT_MAX exCats 6 exIds exMatrixClasses (by decide)
      exLog10_pos exToFloat_nonneg exMatrixClasses_below exMatrixClasses_sep).1,
    (C22_separated_classes "misc" exLog10 exToFloat FLT_MAX exCats 6 exIds exMatrixClasses (by decide)
      exLog10_pos exToFloat_nonneg exMatrixClasses_below exMatrixClasses_sep).2 exModelTables (by decide)
      exModelTables_holds ⟨0, by decide, by decide, by decide⟩⟩

end PSB
